import Mathlib

/-!
Verification development for the latex2wordpress converter
(`latex2wordpress.py`, driven by `l2wp.py`).

The converter is a linear pipeline of regex-substitution passes over one
in-memory text buffer.  We embed the buffer as `List Char` and each concrete
regular expression used by the source as an explicit scanner.  Python 2
semantics that matter and are modelled faithfully:

* `re.sub(pattern, repl, string, X)` passes `X` as the *positional* `count`
  argument (Python 2.7 signature `sub(pattern, repl, string, count=0, flags=0)`).
  The source repeatedly writes `re.DOTALL` (= 16) in that position, so those
  substitutions replace at most 16 occurrences and the pattern is compiled
  *without* DOTALL.  `count=0` means unlimited.
* a missing key in `self.labelmap` raises `KeyError`; the `except IndexError`
  handlers in `_process_equation` / `_process_align` do not catch it, so it
  propagates and aborts the run before `write_html`.
* `s.encode("string_escape")` escapes backslashes (and `\n`, `\t`, `\r`, `'`);
  it is not `re.escape`, so characters such as `.` keep their regex meaning.
  `patMatchAt` below interprets exactly the pattern fragment produced by
  `string_escape` on the texts this program feeds it: escaped characters,
  the `.` wildcard, and literal characters (including `{`/`}`, which Python
  treats as literals when they do not form a valid repetition).
* replacement templates keep unknown escapes (`\ `, `\d`) literally, translate
  `\n`/`\t` to control characters and `\1` to the group.

Python regex scanning (leftmost match, continue after the replaced span,
no rescanning of replacements) is implemented by the `subP`/`subE`/`findAllG`
engines, with fuel equal to the buffer length; every matcher consumes at
least one character, so the fuel never runs out on reachable inputs.
-/

set_option maxRecDepth 100000

/-- Characters of the working buffer. -/
abbrev Str := List Char

/-- Turn a string literal into a character-list buffer. -/
def strL (s : String) : Str := s.toList

/-- Python regex whitespace class, used by the `\s` pattern element. -/
def isWs (c : Char) : Bool :=
  c == ' ' || c == '\t' || c == '\n' || c == '\r' || c == '\x0b' || c == '\x0c'

/-- Greedy `\s*`: drop leading whitespace. -/
def skipWs : Str → Str
  | [] => []
  | c :: r => if isWs c then skipWs r else c :: r

/-- Literal token match at the head of the text; returns the rest on success. -/
def startsWith : Str → Str → Option Str
  | [], s => some s
  | _ :: _, [] => none
  | p :: ps, c :: cs => if p = c then startsWith ps cs else none

/-- Lazy `(.*?)` up to the first closing brace, failing on a newline (the
patterns are compiled without DOTALL).  Returns the group and the rest after
the brace. -/
def lazyBrace : Str → Option (Str × Str)
  | [] => none
  | c :: r =>
    if c = '}' then some ([], r)
    else if c = '\n' then none
    else
      match lazyBrace r with
      | some (g, rest) => some (c :: g, rest)
      | none => none

/-- Lazy `([\s\S]*?)` up to the first closing brace (any character allowed). -/
def lazyBraceAny : Str → Option (Str × Str)
  | [] => none
  | c :: r =>
    if c = '}' then some ([], r)
    else
      match lazyBraceAny r with
      | some (g, rest) => some (c :: g, rest)
      | none => none

/-- Tail `\s*\}` of the trimmed-group patterns: skip whitespace, require the
closing brace, return the rest. -/
def wsThenBrace (s : Str) : Option Str :=
  match skipWs s with
  | [] => none
  | c :: r => if c = '}' then some r else none

/-- Lazy `([\s\S]*?)\s*\}`: grow the group until whitespace followed by a
closing brace ends the match (so trailing whitespace is trimmed from the
group). -/
def lazyTrimBrace : Str → Option (Str × Str)
  | [] => none
  | c :: r =>
    match wsThenBrace (c :: r) with
    | some rest => some ([], rest)
    | none =>
      match lazyTrimBrace r with
      | some (g, rest) => some (c :: g, rest)
      | none => none

/-- Lazy `(.*?)\s*\}` (group may not contain a newline). -/
def lazyTrimBraceNoNl : Str → Option (Str × Str)
  | [] => none
  | c :: r =>
    match wsThenBrace (c :: r) with
    | some rest => some ([], rest)
    | none =>
      if c = '\n' then none
      else
        match lazyTrimBraceNoNl r with
        | some (g, rest) => some (c :: g, rest)
        | none => none

/-- Head test for a single character. -/
def headIs (c0 : Char) : Str → Bool
  | [] => false
  | c :: _ => c == c0

/-- Lazy `(.*?)\}\{`: grow the (newline-free) group until a `}` immediately
followed by `{`; used for the first argument of the hyperlink pattern. -/
def lazyBraceBrace : Str → Option (Str × Str)
  | [] => none
  | c :: r =>
    if c = '}' && headIs '{' r then some ([], r.tail)
    else if c = '\n' then none
    else
      match lazyBraceBrace r with
      | some (g, rest) => some (c :: g, rest)
      | none => none

/-- Matcher for `\label\s*\{(.*?)\}` (source lines 78, 82, 111, 116).
Returns the captured label and the rest after the match. -/
def labelAt (s : Str) : Option (Str × Str) :=
  match startsWith (strL ("\\label")) s with
  | none => none
  | some r1 =>
    match skipWs r1 with
    | [] => none
    | c :: r2 => if c = '{' then lazyBrace r2 else none

/-- Common tail `\s*\{\s*ENV\s*\}` of the environment-marker patterns. -/
def envTailAt (env : Str) (r1 : Str) : Option Str :=
  match skipWs r1 with
  | [] => none
  | c :: r2 =>
    if c = '{' then
      match startsWith env (skipWs r2) with
      | none => none
      | some r3 => wsThenBrace r3
    else none

/-- Matcher for `\begin\s*\{\s*ENV\s*\}`; returns the rest after the marker. -/
def beginEnvAt (env : Str) (s : Str) : Option Str :=
  match startsWith (strL ("\\begin")) s with
  | none => none
  | some r1 => envTailAt env r1

/-- Matcher for `\end\s*\{\s*ENV\s*\}`; returns the rest after the marker. -/
def endEnvAt (env : Str) (s : Str) : Option Str :=
  match startsWith (strL ("\\end")) s with
  | none => none
  | some r1 => envTailAt env r1

/-- Lazy `[\s\S]*?` scan up to the first end-of-environment marker; returns
the inner content and the rest after the end marker. -/
def lazyEnv (env : Str) : Str → Option (Str × Str)
  | [] => none
  | c :: r =>
    match endEnvAt env (c :: r) with
    | some rest => some ([], rest)
    | none =>
      match lazyEnv env r with
      | some (g, rest) => some (c :: g, rest)
      | none => none

/-- Matcher for a whole environment block
`\begin\s*\{\s*ENV\s*\}[\s\S]*?\end\s*\{\s*ENV\s*\}`; the returned group is
the full matched text (what `matchobj.group(0)` hands to the callbacks). -/
def envBlockAt (env : Str) (s : Str) : Option (Str × Str) :=
  match beginEnvAt env s with
  | none => none
  | some r1 =>
    match lazyEnv env r1 with
    | none => none
    | some (_, rest) => some (List.take (s.length - rest.length) s, rest)

/-- Same matcher, but the group is the inner content (`\1`). -/
def envInnerAt (env : Str) (s : Str) : Option (Str × Str) :=
  match beginEnvAt env s with
  | none => none
  | some r1 => lazyEnv env r1

/-- Count argument of a substitution: `none` is Python `count=0` (unlimited). -/
def decCount : Option Nat → Option Nat
  | none => none
  | some n => some (n - 1)

/-- Errors the converter can raise: a dict lookup miss (`KeyError`) or an
out-of-range `[0]` on an empty `findall` result (`IndexError`). -/
inductive Err
  | keyError (l : Str)
  | indexError
deriving DecidableEq

/-- Engine of `re.sub` with a pure replacement: scan left to right, replace
the leftmost match, continue after the replaced span.  An exhausted count
leaves the remaining text untouched. -/
def subP {γ : Type} (m : Str → Option (γ × Str)) (repl : γ → Str) :
    Nat → Option Nat → Str → Str
  | 0, _, s => s
  | fuel + 1, k, s =>
    match s with
    | [] => []
    | c :: rest =>
      if k = some 0 then c :: rest
      else
        match m (c :: rest) with
        | some (g, r) => repl g ++ subP m repl fuel (decCount k) r
        | none => c :: subP m repl fuel k rest

/-- Engine of `re.sub` with a callback that may raise: the first raising
callback aborts the whole substitution (no partial result is produced). -/
def subE {γ : Type} (m : Str → Option (γ × Str)) (repl : γ → Except Err Str) :
    Nat → Option Nat → Str → Except Err Str
  | 0, _, s => .ok s
  | fuel + 1, k, s =>
    match s with
    | [] => .ok []
    | c :: rest =>
      if k = some 0 then .ok (c :: rest)
      else
        match m (c :: rest) with
        | some (g, r) =>
          match repl g with
          | .error e => .error e
          | .ok h =>
            match subE m repl fuel (decCount k) r with
            | .error e => .error e
            | .ok t => .ok (h ++ t)
        | none =>
          match subE m repl fuel k rest with
          | .error e => .error e
          | .ok t => .ok (c :: t)

/-- Engine of `re.findall`: all non-overlapping matches, left to right. -/
def findAllG {γ : Type} (m : Str → Option (γ × Str)) : Nat → Str → List γ
  | 0, _ => []
  | fuel + 1, s =>
    match s with
    | [] => []
    | c :: rest =>
      match m (c :: rest) with
      | some (g, r) => g :: findAllG m fuel r
      | none => findAllG m fuel rest

/-- The list of matches a count-limited substitution visits (same scanning
discipline as `subP`/`subE`). -/
def scanMatches {γ : Type} (m : Str → Option (γ × Str)) :
    Nat → Option Nat → Str → List γ
  | 0, _, _ => []
  | fuel + 1, k, s =>
    match s with
    | [] => []
    | c :: rest =>
      if k = some 0 then []
      else
        match m (c :: rest) with
        | some (g, r) => g :: scanMatches m fuel (decCount k) r
        | none => scanMatches m fuel k rest

/-- Top-level `re.sub` with fuel instantiated to the buffer length. -/
def reSub {γ : Type} (m : Str → Option (γ × Str)) (repl : γ → Str)
    (k : Option Nat) (s : Str) : Str :=
  subP m repl s.length k s

/-- Top-level raising `re.sub`. -/
def reSubE {γ : Type} (m : Str → Option (γ × Str)) (repl : γ → Except Err Str)
    (k : Option Nat) (s : Str) : Except Err Str :=
  subE m repl s.length k s

/-- Top-level `re.findall`. -/
def reFind {γ : Type} (m : Str → Option (γ × Str)) (s : Str) : List γ :=
  findAllG m s.length s

/-- Top-level match list of a count-limited substitution. -/
def reScan {γ : Type} (m : Str → Option (γ × Str)) (k : Option Nat) (s : Str) :
    List γ :=
  scanMatches m s.length k s

/-! ### The equation pass (`_process_equation`, `convert_equations`) -/

/-- Environment name of the numbered-equation block. -/
def equationEnv : Str := strL ("equation")

/-- Environment name of the aligned block. -/
def alignEnv : Str := strL ("align")

/-- Replacement text written for a `\label` reference inside a block
(source lines 83 and 117): the template `"\ \ \ \ \ (%s)"`, i.e. five
backslash-space pairs and the parenthesised number (the template engine keeps
the unknown escape `\ ` literally). -/
def eqNumSuffix (n : Str) : Str := strL ("\\ \\ \\ \\ \\ (") ++ n ++ strL (")")

/-- Replacement template of source line 91: `\\n` becomes a newline,
`\displaystyle` stays literal, `\\1` is the inner group. -/
def wrapEquationTpl (inner : Str) : Str :=
  strL ("<p align=\"center\"> \n $latex \\displaystyle ") ++ inner ++ strL (" $</p>")

/-- The begin/end-marker rewrite at the end of `_process_equation`
(source lines 90-93; the positional `re.DOTALL` there is `count=16`). -/
def wrapEquation (blk : Str) : Str :=
  reSub (envInnerAt equationEnv) wrapEquationTpl (some 16) blk

/-- `_process_equation` (source lines 63-95): extract the first `\label`,
replace all (up to 16) label references with that label's number, wrap the
block.  A missing first label raises `KeyError`; no label at all is the
caught `IndexError`, a silent skip. -/
def process_equation (lm : Str → Option Str) (blk : Str) : Except Err Str :=
  match reFind labelAt blk with
  | [] => .ok (wrapEquation blk)
  | l :: _ =>
    match lm l with
    | none => .error (.keyError l)
    | some n =>
      .ok (wrapEquation (reSub labelAt (fun _ => eqNumSuffix n) (some 16) blk))

/-- `convert_equations` (source lines 222-230; positional `re.DOTALL` is
`count=16`).  On an exception the assignment to the working buffer does not
happen, so the error carries the unchanged buffer. -/
def convert_equations (lm : Str → Option Str) (b : Str) : Except (Err × Str) Str :=
  match reSubE (envBlockAt equationEnv) (process_equation lm) (some 16) b with
  | .ok w => .ok w
  | .error e => .error (e, b)

/-! ### The align pass (`_process_align`, `convert_aligned`) -/

/-- Replacement template of source line 125 after template processing. -/
def wrapAlignTpl (inner : Str) : Str :=
  strL ("<p align = \"center\"> \n $latex \n \\begin{aligned} \n\t") ++ inner ++
    strL (" \n\\end{aligned}\n$ \n<p>")

/-- The per-label loop of `_process_align`: each label in the extracted list
is looked up and substituted with `count=1`. -/
def alignLabelFold (lm : Str → Option Str) : List Str → Str → Except Err Str
  | [], s => .ok s
  | l :: ls, s =>
    match lm l with
    | none => .error (.keyError l)
    | some n => alignLabelFold lm ls (reSub labelAt (fun _ => eqNumSuffix n) (some 1) s)

/-- `_process_align` (source lines 97-129). -/
def process_align (lm : Str → Option Str) (blk : Str) : Except Err Str :=
  match alignLabelFold lm (reFind labelAt blk) blk with
  | .error e => .error e
  | .ok b2 => .ok (reSub (envInnerAt alignEnv) wrapAlignTpl (some 16) b2)

/-- `convert_aligned` (source lines 232-240; positional `re.DOTALL` is
`count=16`). -/
def convert_aligned (lm : Str → Option Str) (b : Str) : Except (Err × Str) Str :=
  match reSubE (envBlockAt alignEnv) (process_align lm) (some 16) b with
  | .ok w => .ok w
  | .error e => .error (e, b)

/-! ### Body extraction (`extract_text`) -/

/-- Begin-of-document marker `\begin\s*\{\s*document\s*\}`. -/
def docBeginAt (s : Str) : Option Str := beginEnvAt (strL ("document")) s

/-- End-of-document marker `\end\s*\{\s*document\s*\}`. -/
def docEndAt (s : Str) : Option Str := endEnvAt (strL ("document")) s

/-- Greedy `(.*)` with DOTALL followed by the end marker: the group runs to
the *last* position where the end marker matches. -/
def greedyToLastEnd : Str → Option (Str × Str)
  | [] => none
  | c :: r =>
    match greedyToLastEnd r with
    | some (g, rest) => some (c :: g, rest)
    | none =>
      match docEndAt (c :: r) with
      | some rest => some ([], rest)
      | none => none

/-- Leftmost match of
`\begin\s*\{\s*document\s*\}(.*)\end\s*\{\s*document\s*\}` with DOTALL:
the first begin marker that has an end marker somewhere after it; the group
is greedy. -/
def findDocSpan : Str → Option Str
  | [] => none
  | c :: r =>
    match docBeginAt (c :: r) with
    | some after =>
      match greedyToLastEnd after with
      | some (g, _) => some g
      | none => findDocSpan r
    | none => findDocSpan r

/-- `extract_text` (source lines 185-195): `findall(...)[0]` with a bare
`except` that turns the pattern miss (`IndexError`) into a no-op. -/
def extract_text (b : Str) : Str :=
  match findDocSpan b with
  | some g => g
  | none => b

/-! ### Title stripping (`strip_title_elements`) -/

/-- Greedy `.*\}` within one line: consume up to the last `}` reachable
without crossing a newline; returns the rest after that brace. -/
def greedyBraceLine : Str → Option Str
  | [] => none
  | c :: r =>
    if c = '\n' then none
    else
      match greedyBraceLine r with
      | some rest => some rest
      | none => if c = '}' then some r else none

/-- Matcher for `\\NAME\{.*\}` (the title/author patterns have no `\s*`). -/
def titleDirAt (name : Str) (s : Str) : Option (Unit × Str) :=
  match startsWith name s with
  | none => none
  | some r1 =>
    match r1 with
    | [] => none
    | c :: r =>
      if c = '{' then
        match greedyBraceLine r with
        | some rest => some ((), rest)
        | none => none
      else none

/-- `strip_title_elements` (source lines 197-210; the positional `re.DOTALL`
is `count=16`, so up to 16 occurrences of each declaration are removed and
`.` does not cross newlines). -/
def strip_title_elements (b : Str) : Str :=
  let b1 := reSub (titleDirAt (strL ("\\title"))) (fun _ => []) (some 16) b
  reSub (titleDirAt (strL ("\\author"))) (fun _ => []) (some 16) b1

/-! ### Inline math (`convert_inline_math`) -/

/-- Lazy `(.*?)` up to the first `$` (no newline). -/
def lazyDollar : Str → Option (Str × Str)
  | [] => none
  | c :: r =>
    if c = '$' then some ([], r)
    else if c = '\n' then none
    else
      match lazyDollar r with
      | some (g, rest) => some (c :: g, rest)
      | none => none

/-- Matcher for `\$(.*?)\$`. -/
def dollarAt : Str → Option (Str × Str)
  | [] => none
  | c :: r => if c = '$' then lazyDollar r else none

/-- `convert_inline_math` (source lines 212-220, `count=0` i.e. unlimited). -/
def convert_inline_math (b : Str) : Str :=
  reSub dollarAt (fun g => strL ("$latex ") ++ g ++ strL ("$")) none b

/-! ### Sections (`convert_sections`) -/

/-- Matcher for `\section\s*\{([\s\S]*?)\}`. -/
def sectionAt (s : Str) : Option (Str × Str) :=
  match startsWith (strL ("\\section")) s with
  | none => none
  | some r1 =>
    match skipWs r1 with
    | [] => none
    | c :: r2 => if c = '{' then lazyBraceAny r2 else none

/-- `convert_sections` (source lines 242-250; positional `re.DOTALL` is
`count=16`). -/
def convert_sections (b : Str) : Str :=
  reSub sectionAt (fun g => strL ("<h4> ") ++ g ++ strL (" </h4>")) (some 16) b

/-! ### Macro substitution (`convert_newcommands`, `_escape_special`) -/

/-- Python 2 `s.encode("string_escape")` on the characters this program
feeds it: backslash, newline, tab, carriage return and the single quote are
escaped, printable characters are kept. -/
def stringEscape : Str → Str
  | [] => []
  | c :: r =>
    (if c = '\\' then ['\\', '\\']
     else if c = '\n' then ['\\', 'n']
     else if c = '\t' then ['\\', 't']
     else if c = '\r' then ['\\', 'r']
     else if c.toNat = 39 then ['\\', c]
     else [c]) ++ stringEscape r

/-- Character denoted by an escape in a pattern. -/
def escChar (p : Char) : Char :=
  if p = 'n' then '\n' else if p = 't' then '\t' else if p = 'r' then '\r' else p

/-- Interpreter for the regex fragment `string_escape` produces from the
literals `convert_newcommands` escapes — macro names, which `\newcommand`
collection restricts to `\` plus word characters, so no regex metacharacter
reaches this pattern: `\c` matches the escaped character, `.` is the
non-newline wildcard, everything else matches literally.  (The reference
pass compiles arbitrary label text and uses the quantifier-aware `escReAt`
below instead.) -/
def patMatchAt : Str → Str → Option Str
  | [], s => some s
  | p :: ps, s =>
    if p = '\\' then
      match ps with
      | [] => none
      | q :: ps2 =>
        match s with
        | [] => none
        | c :: cs => if escChar q = c then patMatchAt ps2 cs else none
    else if p = '.' then
      match s with
      | [] => none
      | c :: cs => if c = '\n' then none else patMatchAt ps cs
    else
      match s with
      | [] => none
      | c :: cs => if p = c then patMatchAt ps cs else none

/-- Matcher for the pattern `string_escape(lit)`; the group is the matched
text (`group(0)`). -/
def escLitAt (lit : Str) (s : Str) : Option (Str × Str) :=
  match patMatchAt (stringEscape lit) s with
  | none => none
  | some rest => some (List.take (s.length - rest.length) s, rest)

/-- `convert_newcommands` (source lines 289-299): for each table entry, in
order, replace every occurrence of the escaped name with the escaped body
(`count=0`).  Escaping the body and then template-processing it yields the
body itself, so the replacement inserts the body literally. -/
def convert_newcommands (nm : List (Str × Str)) (b : Str) : Str :=
  nm.foldl (fun acc p => reSub (escLitAt p.1) (fun _ => p.2) none acc) b

/-! ### The quantifier-aware reading of an escaped-literal pattern

`string_escape` escapes only backslash, newline, tab, carriage return and
the single quote; a regex metacharacter such as `+` passes through
unescaped and keeps its meaning when `re.sub` compiles the pattern.  The
reference pass compiles `string_escape(itag)` where `itag` embeds arbitrary
label text, so its matcher must read that fragment as `re` does: escapes,
the `.` wildcard, literal characters, and a `+` after an atom (one or more,
greedy with backtracking). -/

/-- One pattern atom: a literal character, the non-newline wildcard, or the
never-matching atom of a malformed trailing backslash. -/
inductive RAtom
  | lit (c : Char)
  | dot
  | fail

/-- Does one atom match one character? -/
def ratomMatch : RAtom → Char → Bool
  | .lit c, d => c == d
  | .dot, d => !(d == '\n')
  | .fail, _ => false

/-- Peel an optional `+` quantifier off the front of the remaining pattern. -/
def quantTail : Str → Bool × Str
  | [] => (false, [])
  | c :: r => if c = '+' then (true, r) else (false, c :: r)

/-- Parse a pattern into quantified atoms; the fuel (the pattern length
suffices, each step consumes at least one character) keeps the recursion
structural. -/
def parseReF : Nat → Str → List (RAtom × Bool)
  | 0, _ => []
  | _ + 1, [] => []
  | fuel + 1, c :: r =>
    if c = '\\' then
      match r with
      | [] => [(RAtom.fail, false)]
      | q :: r2 =>
        match quantTail r2 with
        | (b, r3) => (RAtom.lit (escChar q), b) :: parseReF fuel r3
    else if c = '.' then
      match quantTail r with
      | (b, r3) => (RAtom.dot, b) :: parseReF fuel r3
    else
      match quantTail r with
      | (b, r3) => (RAtom.lit c, b) :: parseReF fuel r3

/-- Parse a whole pattern. -/
def parseRe (p : Str) : List (RAtom × Bool) := parseReF p.length p

/-- Backtracking matcher for quantified atoms: `a+ rest` tries `a (a+ rest)`
first (greedy) and falls back to `a rest`.  The fuel bounds the recursion
depth; every call shrinks atoms-plus-text, so pattern length + text length
+ 2 always suffices. -/
def matchQ : Nat → List (RAtom × Bool) → Str → Option Str
  | 0, _, _ => none
  | _ + 1, [], s => some s
  | fuel + 1, (a, q) :: ps, s =>
    match s with
    | [] => none
    | c :: r =>
      if ratomMatch a c then
        if q then
          match matchQ fuel ((a, true) :: ps) r with
          | some t => some t
          | none => matchQ fuel ps r
        else matchQ fuel ps r
      else none

/-- Matcher for the compiled pattern `string_escape(lit)` under the real
quantifier reading; the group is the matched text (`group(0)`). -/
def escReAt (lit s : Str) : Option (Str × Str) :=
  match matchQ ((stringEscape lit).length + s.length + 2)
      (parseRe (stringEscape lit)) s with
  | none => none
  | some rest => some (List.take (s.length - rest.length) s, rest)

/-! ### Cross references (`_process_reference`, `convert_references`) -/

/-- Matcher of the instance-collection pattern `\\TAG\{.*?\}` (source line
261; no `\s*` here); the group is the whole matched literal. -/
def refInstAt (tag : Str) (s : Str) : Option (Str × Str) :=
  match startsWith ('\\' :: tag) s with
  | none => none
  | some r1 =>
    match r1 with
    | [] => none
    | c :: r =>
      if c = '{' then
        match lazyBrace r with
        | some (_, rest) => some (List.take (s.length - rest.length) s, rest)
        | none => none
      else none

/-- Matcher of `refpattern = \\TAG\s*\{\s*([\s\S]*?)\s*\}` (source line 145);
the group is the trimmed label. -/
def refLabelAt (tag : Str) (s : Str) : Option (Str × Str) :=
  match startsWith ('\\' :: tag) s with
  | none => none
  | some r1 =>
    match skipWs r1 with
    | [] => none
    | c :: r2 => if c = '{' then lazyTrimBrace (skipWs r2) else none

/-- Kind tag of the equation-number reference directive. -/
def myeqnoTag : Str := strL ("myeqno")

/-- Kind tag of the plain equation reference directive. -/
def eqrefTag : Str := strL ("eqref")

/-- Formatted output of one reference occurrence: `"Eq. "` prefix exactly for
the `myeqno` kind, then the parenthesised number. -/
def refFormat (tag : Str) (n : Str) : Str :=
  (if tag = myeqnoTag then strL ("Eq. ") else []) ++ strL ("(") ++ n ++ strL (")")

/-- The `processref` closure of `_process_reference` (source lines 147-151):
re-extract the label from the matched text, look it up, rewrite the tag.
`findall(...)[0]` on no match is an uncaught `IndexError`. -/
def processref (lm : Str → Option Str) (tag : Str) (reftag : Str) : Except Err Str :=
  match reFind (refLabelAt tag) reftag with
  | [] => .error .indexError
  | l :: _ =>
    match lm l with
    | none => .error (.keyError l)
    | some n => .ok (reSub (refLabelAt tag) (fun _ => refFormat tag n) none reftag)

/-- The inner loop of `convert_references`: one buffer assignment per
collected instance (positional `re.DOTALL` is `count=16`), so an exception
leaves the buffer as the *latest assigned* value, not the pass input.  The
instance is compiled with `string_escape`, which leaves regex
metacharacters in the label active — hence the quantifier-aware matcher. -/
def refSubFold (lm : Str → Option Str) (tag : Str) :
    List Str → Str → Except (Err × Str) Str
  | [], b => .ok b
  | itag :: rest, b =>
    match reSubE (escReAt itag) (processref lm tag) (some 16) b with
    | .error e => .error (e, b)
    | .ok b2 => refSubFold lm tag rest b2

/-- `convert_references` (source lines 252-266): for each tag kind, collect
the literal instances from the current buffer, then substitute each by its
escaped literal. -/
def convert_references (lm : Str → Option Str) (b : Str) : Except (Err × Str) Str :=
  match refSubFold lm myeqnoTag (reFind (refInstAt myeqnoTag) b) b with
  | .error e => .error e
  | .ok b1 => refSubFold lm eqrefTag (reFind (refInstAt eqrefTag) b1) b1

/-! ### Inline formatting (`convert_formatting`) -/

/-- Common shape of the `{\s*\\TOK\s*(.*?)\s*\}` formatting patterns. -/
def braceTokAt (tok : Str) (s : Str) : Option (Str × Str) :=
  match s with
  | [] => none
  | c :: r =>
    if c = '{' then
      match startsWith tok (skipWs r) with
      | some r2 => lazyTrimBraceNoNl (skipWs r2)
      | none => none
    else none

/-- Matcher for `\{\s*\\em\s*(.*?)\s*\}`. -/
def emAt (s : Str) : Option (Str × Str) := braceTokAt (strL ("\\em")) s

/-- Matcher for `\{\s*\\bf\s*(.*?)\s*\}`. -/
def bfAt (s : Str) : Option (Str × Str) := braceTokAt (strL ("\\bf")) s

/-- Matcher for `\href\s*\{(.*?)\}\{(.*?)\}`; groups are URL and link text. -/
def hrefAt (s : Str) : Option ((Str × Str) × Str) :=
  match startsWith (strL ("\\href")) s with
  | none => none
  | some r1 =>
    match skipWs r1 with
    | [] => none
    | c :: r2 =>
      if c = '{' then
        match lazyBraceBrace r2 with
        | some (u, r3) =>
          match lazyBrace r3 with
          | some (t, rest) => some ((u, t), rest)
          | none => none
        | none => none
      else none

/-- The emphasis rewrite of `convert_formatting` (source lines 275-277). -/
def emSub (b : Str) : Str :=
  reSub emAt (fun g => strL ("<i>") ++ g ++ strL ("</i>")) none b

/-- The bold rewrite of `convert_formatting` (source lines 280-282). -/
def bfSub (b : Str) : Str :=
  reSub bfAt (fun g => strL ("<strong>") ++ g ++ strL ("</strong>")) none b

/-- The hyperlink rewrite of `convert_formatting` (source lines 285-287). -/
def hrefSub (b : Str) : Str :=
  reSub hrefAt
    (fun p => strL ("<a href=\"") ++ p.1 ++ strL ("\">") ++ p.2 ++ strL ("</a>")) none b

/-- `convert_formatting` (source lines 268-287): emphasis, then bold, then
hyperlinks. -/
def convert_formatting (b : Str) : Str := hrefSub (bfSub (emSub b))

/-! ### The driver (`l2wp.py`) -/

/-- The passes `main` runs before the equation pass, in order: body
extraction, macro substitution, title stripping, inline math.  None of these
can raise. -/
def pipelineBefore (nm : List (Str × Str)) (c : Str) : Str :=
  convert_inline_math (strip_title_elements (convert_newcommands nm (extract_text c)))

/-- The whole run of `main` (`l2wp.py` lines 4-52): the fixed pass order,
aborting on the first uncaught exception.  The result is the buffer handed to
`write_html`, or `none` when the run dies before serialization (no output
file is written; `write_html` is the final step). -/
def mainRun (lm : Str → Option Str) (nm : List (Str × Str)) (c : Str) : Option Str :=
  match convert_equations lm (pipelineBefore nm c) with
  | .error _ => none
  | .ok w1 =>
    match convert_aligned lm w1 with
    | .error _ => none
    | .ok w2 =>
      match convert_references lm (convert_sections w2) with
      | .error _ => none
      | .ok w3 => some (convert_formatting w3)

/-! ### Decidable shape predicates and structured buffers used by the theorems -/

/-- Literal occurrence test: does `p` occur as a contiguous substring? -/
def occursIn (p : Str) : Str → Bool
  | [] => (startsWith p []).isSome
  | c :: r => (startsWith p (c :: r)).isSome || occursIn p r

/-- A text segment containing no backslash: no directive can start inside it. -/
def cleanSeg (s : Str) : Bool := s.all (fun c => c != '\\')

/-- Characters of an ordinary label or number: no regex-active or structural
characters, no whitespace. -/
def plainChar (c : Char) : Bool :=
  !(c == '\\') && !(c == '{') && !(c == '}') && !(c == '.') && !(isWs c) &&
    !(c.toNat == 39)

/-- An ordinary label/number string. -/
def plainStr (s : Str) : Bool := s.all plainChar

/-- Characters on which the string-escaped pattern of a literal behaves as
that literal under `re`: ordinary label characters that are printable ASCII
(`string_escape` hex-escapes the rest) and carry no regex meaning
(`string_escape` leaves `+ * ? ( ) [ ] | ^ $` unescaped, where `re` reads
them as quantifiers, groups or anchors). -/
def reLiteralChar (c : Char) : Bool :=
  plainChar c && decide (33 ≤ c.toNat ∧ c.toNat ≤ 126) &&
    decide (¬ c = '+' ∧ ¬ c = '*' ∧ ¬ c = '?' ∧ ¬ c = '(' ∧ ¬ c = ')' ∧
      ¬ c = '[' ∧ ¬ c = ']' ∧ ¬ c = '|' ∧ ¬ c = '^' ∧ ¬ c = '$')

/-- A label safe to compile as an escaped literal. -/
def reLiteralStr (s : Str) : Bool := s.all reLiteralChar

/-- The literal text `\label{L}`. -/
def labelDir (l : Str) : Str := strL ("\\label") ++ '{' :: (l ++ ['}'])

/-- The literal text `\begin{ENV}`. -/
def beginMarker (env : Str) : Str := strL ("\\begin") ++ '{' :: (env ++ ['}'])

/-- The literal text `\end{ENV}`. -/
def endMarker (env : Str) : Str := strL ("\\end") ++ '{' :: (env ++ ['}'])

/-- An environment block with the given inner text. -/
def envBlock (env : Str) (body : Str) : Str :=
  beginMarker env ++ body ++ endMarker env

/-- A block body interleaving plain segments with label directives; the final
string is the trailing segment. -/
def renderLabeled : List (Str × Str) → Str → Str
  | [], last => last
  | (s, l) :: rest, last => s ++ labelDir l ++ renderLabeled rest last

/-- The same body with every label directive replaced by one fixed suffix. -/
def renderSame (rep : Str) : List (Str × Str) → Str → Str
  | [], last => last
  | (s, _) :: rest, last => s ++ rep ++ renderSame rep rest last

/-- The same body with the i-th label directive replaced by the i-th number's
suffix. -/
def renderNumbered : List (Str × Str) → List Str → Str → Str
  | [], _, last => last
  | _ :: _, [], last => last
  | (s, _) :: rest, n :: ns, last => s ++ eqNumSuffix n ++ renderNumbered rest ns last

/-- The literal text of a reference directive `\TAG{L}`. -/
def mkRef (tag : Str) (l : Str) : Str := '\\' :: (tag ++ '{' :: (l ++ ['}']))

/-- Building blocks of a buffer containing inline-formatting directives. -/
inductive FmtItem
  | plain (s : Str)
  | emph (s : Str)
  | bold (s : Str)
  | link (u : Str) (t : Str)
deriving DecidableEq

/-- Rendering of a formatting buffer: `{\em s}`, `{\bf s}`, `\href{u}{t}`. -/
def renderFmt : List FmtItem → Str
  | [] => []
  | .plain s :: rest => s ++ renderFmt rest
  | .emph s :: rest => '{' :: (strL ("\\em ") ++ s ++ '}' :: renderFmt rest)
  | .bold s :: rest => '{' :: (strL ("\\bf ") ++ s ++ '}' :: renderFmt rest)
  | .link u t :: rest =>
    strL ("\\href") ++ '{' :: (u ++ '}' :: '{' :: (t ++ '}' :: renderFmt rest))

/-- Last character is not whitespace (empty allowed). -/
def lastNonWs (s : Str) : Bool :=
  match s.getLast? with
  | none => true
  | some c => !isWs c

/-- First character is not whitespace (empty allowed). -/
def headNonWs (s : Str) : Bool :=
  match s with
  | [] => true
  | c :: _ => !isWs c

/-- Argument of an emphasis/bold directive: free of structural characters,
not starting or ending in whitespace (the patterns trim such whitespace). -/
def fmtArgOk (s : Str) : Bool :=
  s.all (fun c => c != '\\' && c != '{' && c != '}' && c != '\n') &&
    headNonWs s && lastNonWs s

/-- Well-formedness of a formatting buffer: plain text starts no match, and
directive arguments keep the matches disjoint (no nesting). -/
def fmtItemsOk (items : List FmtItem) : Bool :=
  items.all (fun i =>
    match i with
    | .plain s => s.all (fun c => c != '\\' && c != '{')
    | .emph s => fmtArgOk s
    | .bold s => fmtArgOk s
    | .link u t =>
      u.all (fun c => c != '\\' && c != '{' && c != '}' && c != '\n') &&
        t.all (fun c => c != '\\' && c != '{' && c != '}' && c != '\n'))

/-- One item rewritten by the emphasis pass. -/
def emRw : FmtItem → FmtItem
  | .emph s => .plain (strL ("<i>") ++ s ++ strL ("</i>"))
  | i => i

/-- One item rewritten by the bold pass. -/
def bfRw : FmtItem → FmtItem
  | .bold s => .plain (strL ("<strong>") ++ s ++ strL ("</strong>"))
  | i => i

/-- One item rewritten by the hyperlink pass. -/
def hrefRw : FmtItem → FmtItem
  | .link u t => .plain (strL ("<a href=\"") ++ u ++ strL ("\">") ++ t ++ strL ("</a>"))
  | i => i

/-- Building blocks of a buffer containing title/author declarations. -/
inductive TItem
  | seg (s : Str)
  | titleD (t : Str)
  | authorD (t : Str)
deriving DecidableEq

/-- Rendering of a title buffer. -/
def renderT : List TItem → Str
  | [] => []
  | .seg s :: rest => s ++ renderT rest
  | .titleD t :: rest => strL ("\\title") ++ '{' :: (t ++ '}' :: renderT rest)
  | .authorD t :: rest => strL ("\\author") ++ '{' :: (t ++ '}' :: renderT rest)

/-- Does the rendering of the items start with a newline (or end)?  Needed
because the greedy `.*\}` of the title patterns runs to the last brace on the
line: a declaration must be the last thing on its line. -/
def startsNl : List TItem → Bool
  | [] => true
  | .seg (c :: _) :: _ => c == '\n'
  | _ => false

/-- Well-formedness of a title buffer: segments start no directive, each
declaration ends its line, arguments are brace- and newline-free. -/
def tItemsOk : List TItem → Bool
  | [] => true
  | .seg s :: rest => cleanSeg s && tItemsOk rest
  | .titleD t :: rest =>
    t.all (fun c => c != '\\' && c != '}' && c != '\n') && startsNl rest && tItemsOk rest
  | .authorD t :: rest =>
    t.all (fun c => c != '\\' && c != '}' && c != '\n') && startsNl rest && tItemsOk rest

/-- The non-title items. -/
def dropTitles : List TItem → List TItem
  | [] => []
  | .titleD _ :: rest => dropTitles rest
  | i :: rest => i :: dropTitles rest

/-- The non-author items. -/
def dropAuthors : List TItem → List TItem
  | [] => []
  | .authorD _ :: rest => dropAuthors rest
  | i :: rest => i :: dropAuthors rest

/-- Number of title declarations. -/
def countTitles : List TItem → Nat
  | [] => 0
  | .titleD _ :: rest => countTitles rest + 1
  | _ :: rest => countTitles rest

/-- Number of author declarations. -/
def countAuthors : List TItem → Nat
  | [] => 0
  | .authorD _ :: rest => countAuthors rest + 1
  | _ :: rest => countAuthors rest

/-- Modelled from the spec: an end-of-document marker occurs somewhere in the
text. -/
def hasEndMark : Str → Bool
  | [] => false
  | c :: r => (docEndAt (c :: r)).isSome || hasEndMark r

/-- Modelled from the spec: the buffer "contains a document-start/document-end
marker pair", i.e. a start marker with an end marker somewhere after it.
Stated independently of `findDocSpan` so that the pattern-miss claim relates
the pass to the spec's wording. -/
def hasDocPair : Str → Bool
  | [] => false
  | c :: r =>
    (match docBeginAt (c :: r) with
     | some after => hasEndMark after
     | none => false) || hasDocPair r

/-- A small concrete label table used by the concrete witnesses below. -/
def lmAB : Str → Option Str := fun l =>
  if l = strL ("a") then some (strL ("1"))
  else if l = strL ("b") then some (strL ("2"))
  else none

theorem startsWith_self (p s : Str) : startsWith p (p ++ s) = some s := by
  induction p with
  | nil => rfl
  | cons c ps ih => simp [startsWith, ih]

theorem startsWith_split {p s r : Str} (h : startsWith p s = some r) : s = p ++ r := by
  induction p generalizing s with
  | nil =>
    simp only [startsWith, Option.some.injEq] at h
    simp [h]
  | cons c ps ih =>
    cases s with
    | nil => simp [startsWith] at h
    | cons d ds =>
      simp only [startsWith] at h
      by_cases hc : c = d
      · subst hc
        simp only [if_pos rfl] at h
        have := ih h
        simp [this]
      · simp [hc] at h

theorem startsWith_cons_ne {p c : Char} {ps s : Str} (h : ¬ p = c) :
    startsWith (p :: ps) (c :: s) = none := by
  simp [startsWith, h]

theorem skipWs_nws {c : Char} (h : isWs c = false) (s : Str) : skipWs (c :: s) = c :: s := by
  simp [skipWs, h]

theorem skipWs_ws {c : Char} (h : isWs c = true) (s : Str) : skipWs (c :: s) = skipWs s := by
  simp [skipWs, h]

theorem skipWs_split (s : Str) : ∃ w, s = w ++ skipWs s := by
  induction s with
  | nil => exact ⟨[], rfl⟩
  | cons c r ih =>
    cases h : isWs c with
    | true =>
      obtain ⟨w, hw⟩ := ih
      refine ⟨c :: w, ?_⟩
      rw [skipWs_ws h]
      simpa using congrArg (c :: ·) hw
    | false => exact ⟨[], by rw [skipWs_nws h]; rfl⟩

theorem lazyBrace_split {s g r : Str} (h : lazyBrace s = some (g, r)) :
    s = g ++ '}' :: r := by
  induction s generalizing g with
  | nil => simp [lazyBrace] at h
  | cons c cs ih =>
    by_cases h1 : c = '}'
    · subst h1
      simp [lazyBrace] at h
      obtain ⟨rfl, rfl⟩ := h
      rfl
    · by_cases h2 : c = '\n'
      · subst h2; simp [lazyBrace] at h
      · simp only [lazyBrace, if_neg h1, if_neg h2] at h
        cases heq : lazyBrace cs with
        | none => rw [heq] at h; cases h
        | some p =>
          obtain ⟨g', rest'⟩ := p
          rw [heq] at h
          simp only [Option.some.injEq, Prod.mk.injEq] at h
          obtain ⟨rfl, rfl⟩ := h
          simp [ih heq]

theorem lazyBrace_append {g : Str} (hg : ∀ c ∈ g, ¬ c = '}' ∧ ¬ c = '\n') (r : Str) :
    lazyBrace (g ++ '}' :: r) = some (g, r) := by
  induction g with
  | nil => simp [lazyBrace]
  | cons c cs ih =>
    have hc := hg c (by simp)
    have ih' := ih (fun x hx => hg x (by simp [hx]))
    simp [lazyBrace, hc.1, hc.2, ih']

theorem lazyBraceAny_split {s g r : Str} (h : lazyBraceAny s = some (g, r)) :
    s = g ++ '}' :: r := by
  induction s generalizing g with
  | nil => simp [lazyBraceAny] at h
  | cons c cs ih =>
    by_cases h1 : c = '}'
    · subst h1
      simp [lazyBraceAny] at h
      obtain ⟨rfl, rfl⟩ := h
      rfl
    · simp only [lazyBraceAny, if_neg h1] at h
      cases heq : lazyBraceAny cs with
      | none => rw [heq] at h; cases h
      | some p =>
        obtain ⟨g', rest'⟩ := p
        rw [heq] at h
        simp only [Option.some.injEq, Prod.mk.injEq] at h
        obtain ⟨rfl, rfl⟩ := h
        simp [ih heq]

theorem wsThenBrace_ws_cons {c : Char} (h : isWs c = true) (s : Str) :
    wsThenBrace (c :: s) = wsThenBrace s := by
  simp [wsThenBrace, skipWs_ws h]

theorem wsThenBrace_nws_cons {c : Char} (h : isWs c = false) (s : Str) :
    wsThenBrace (c :: s) = if c = '}' then some s else none := by
  simp [wsThenBrace, skipWs_nws h]

theorem wsThenBrace_split {s r : Str} (h : wsThenBrace s = some r) :
    ∃ w, s = w ++ '}' :: r := by
  unfold wsThenBrace at h
  cases hq : skipWs s with
  | nil => rw [hq] at h; cases h
  | cons c r' =>
    rw [hq] at h
    by_cases hc : c = '}'
    · subst hc
      simp at h
      subst h
      obtain ⟨w, hw⟩ := skipWs_split s
      exact ⟨w, by rw [hw, hq]⟩
    · simp [hc] at h

theorem lastNonWs_cons_cons {c d : Char} {s : Str} :
    lastNonWs (c :: d :: s) = lastNonWs (d :: s) := by
  simp [lastNonWs, List.getLast?_cons_cons]

theorem wsThenBrace_none_mid :
    ∀ {v : Str}, v ≠ [] → (∀ c ∈ v, ¬ c = '}') → lastNonWs v = true →
    ∀ w, wsThenBrace (v ++ w) = none := by
  intro v
  induction v with
  | nil => intro h; exact absurd rfl h
  | cons c cs ih =>
    intro _ hb hl w
    cases cs with
    | nil =>
      have hc : isWs c = false := by
        simpa [lastNonWs] using hl
      rw [List.cons_append, List.nil_append, wsThenBrace_nws_cons hc]
      simp [hb c (by simp)]
    | cons d ds =>
      cases hws : isWs c with
      | false =>
        rw [List.cons_append, wsThenBrace_nws_cons hws]
        simp [hb c (by simp)]
      | true =>
        rw [List.cons_append, wsThenBrace_ws_cons hws]
        exact ih (by simp) (fun x hx => hb x (by simp [hx]))
          (by rw [← lastNonWs_cons_cons (c := c)]; exact hl) w

theorem lazyTrimBrace_append {g : Str} (hb : ∀ c ∈ g, ¬ c = '}')
    (hl : lastNonWs g = true) (r : Str) :
    lazyTrimBrace (g ++ '}' :: r) = some (g, r) := by
  induction g with
  | nil =>
    have h1 : wsThenBrace ('}' :: r) = some r := by
      rw [wsThenBrace_nws_cons (by decide)]; simp
    simp [lazyTrimBrace, h1]
  | cons c cs ih =>
    have hnone := wsThenBrace_none_mid (v := c :: cs) (by simp) hb hl ('}' :: r)
    rw [List.cons_append] at hnone ⊢
    have ih' := ih (fun x hx => hb x (by simp [hx]))
      (by cases cs with
          | nil => simp [lastNonWs]
          | cons d ds => rw [← lastNonWs_cons_cons (c := c)]; exact hl)
    simp [lazyTrimBrace, hnone, ih']

theorem lazyTrimBrace_split {s g r : Str} (h : lazyTrimBrace s = some (g, r)) :
    ∃ u, s = g ++ u ++ '}' :: r := by
  induction s generalizing g with
  | nil => simp [lazyTrimBrace] at h
  | cons c cs ih =>
    simp only [lazyTrimBrace] at h
    cases hw : wsThenBrace (c :: cs) with
    | some rest =>
      rw [hw] at h
      simp only [Option.some.injEq, Prod.mk.injEq] at h
      obtain ⟨hg, hr⟩ := h
      subst hg; subst hr
      obtain ⟨w, hsplit⟩ := wsThenBrace_split hw
      exact ⟨w, by simpa using hsplit⟩
    | none =>
      rw [hw] at h
      cases heq : lazyTrimBrace cs with
      | none => rw [heq] at h; cases h
      | some p =>
        obtain ⟨g', rest'⟩ := p
        rw [heq] at h
        simp only [Option.some.injEq, Prod.mk.injEq] at h
        obtain ⟨hg, hr⟩ := h
        subst hg; subst hr
        obtain ⟨u, hu⟩ := ih heq
        exact ⟨u, by simp [hu]⟩

theorem lazyTrimBraceNoNl_append {g : Str} (hb : ∀ c ∈ g, ¬ c = '}' ∧ ¬ c = '\n')
    (hl : lastNonWs g = true) (r : Str) :
    lazyTrimBraceNoNl (g ++ '}' :: r) = some (g, r) := by
  induction g with
  | nil =>
    have h1 : wsThenBrace ('}' :: r) = some r := by
      rw [wsThenBrace_nws_cons (by decide)]; simp
    simp [lazyTrimBraceNoNl, h1]
  | cons c cs ih =>
    have hnone := wsThenBrace_none_mid (v := c :: cs) (by simp)
      (fun x hx => (hb x hx).1) hl ('}' :: r)
    rw [List.cons_append] at hnone ⊢
    have ih' := ih (fun x hx => hb x (by simp [hx]))
      (by cases cs with
          | nil => simp [lastNonWs]
          | cons d ds => rw [← lastNonWs_cons_cons (c := c)]; exact hl)
    simp [lazyTrimBraceNoNl, hnone, (hb c (by simp)).2, ih']

theorem lazyTrimBraceNoNl_split {s g r : Str} (h : lazyTrimBraceNoNl s = some (g, r)) :
    ∃ u, s = g ++ u ++ '}' :: r := by
  induction s generalizing g with
  | nil => simp [lazyTrimBraceNoNl] at h
  | cons c cs ih =>
    simp only [lazyTrimBraceNoNl] at h
    cases hw : wsThenBrace (c :: cs) with
    | some rest =>
      rw [hw] at h
      simp only [Option.some.injEq, Prod.mk.injEq] at h
      obtain ⟨hg, hr⟩ := h
      subst hg; subst hr
      obtain ⟨w, hsplit⟩ := wsThenBrace_split hw
      exact ⟨w, by simpa using hsplit⟩
    | none =>
      rw [hw] at h
      by_cases hc : c = '\n'
      · simp [hc] at h
      · simp only [if_neg hc] at h
        cases heq : lazyTrimBraceNoNl cs with
        | none => rw [heq] at h; cases h
        | some p =>
          obtain ⟨g', rest'⟩ := p
          rw [heq] at h
          simp only [Option.some.injEq, Prod.mk.injEq] at h
          obtain ⟨hg, hr⟩ := h
          subst hg; subst hr
          obtain ⟨u, hu⟩ := ih heq
          exact ⟨u, by simp [hu]⟩

theorem lazyBraceBrace_append {u : Str} (hu : ∀ c ∈ u, ¬ c = '}' ∧ ¬ c = '\n') (r : Str) :
    lazyBraceBrace (u ++ '}' :: '{' :: r) = some (u, r) := by
  induction u with
  | nil => simp [lazyBraceBrace, headIs]
  | cons c cs ih =>
    have hc := hu c (by simp)
    have ih' := ih (fun x hx => hu x (by simp [hx]))
    simp [lazyBraceBrace, hc.1, hc.2, ih']

theorem lazyBraceBrace_split {s u r : Str} (h : lazyBraceBrace s = some (u, r)) :
    s = u ++ '}' :: '{' :: r := by
  induction s generalizing u with
  | nil => simp [lazyBraceBrace] at h
  | cons c cs ih =>
    simp only [lazyBraceBrace] at h
    by_cases h1 : (c = '}' && headIs '{' cs) = true
    · rw [if_pos h1] at h
      simp only [Option.some.injEq, Prod.mk.injEq] at h
      obtain ⟨hg, hr⟩ := h
      subst hg; subst hr
      obtain ⟨hc, hh⟩ := Bool.and_eq_true_iff.mp h1
      have hc' : c = '}' := by simpa using hc
      subst hc'
      cases cs with
      | nil => simp [headIs] at hh
      | cons d ds =>
        have : d = '{' := by simpa [headIs] using hh
        subst this
        simp
    · rw [if_neg h1] at h
      by_cases h2 : c = '\n'
      · simp [h2] at h
      · simp only [if_neg h2] at h
        cases heq : lazyBraceBrace cs with
        | none => rw [heq] at h; cases h
        | some p =>
          obtain ⟨g', rest'⟩ := p
          rw [heq] at h
          simp only [Option.some.injEq, Prod.mk.injEq] at h
          obtain ⟨hg, hr⟩ := h
          subst hg; subst hr
          have := ih heq
          simp [this]

theorem lazyDollar_append {g : Str} (hg : ∀ c ∈ g, ¬ c = '$' ∧ ¬ c = '\n') (r : Str) :
    lazyDollar (g ++ '$' :: r) = some (g, r) := by
  induction g with
  | nil => simp [lazyDollar]
  | cons c cs ih =>
    have hc := hg c (by simp)
    have ih' := ih (fun x hx => hg x (by simp [hx]))
    simp [lazyDollar, hc.1, hc.2, ih']

theorem lazyDollar_split {s g r : Str} (h : lazyDollar s = some (g, r)) :
    s = g ++ '$' :: r := by
  induction s generalizing g with
  | nil => simp [lazyDollar] at h
  | cons c cs ih =>
    by_cases h1 : c = '$'
    · subst h1
      simp [lazyDollar] at h
      obtain ⟨rfl, rfl⟩ := h
      rfl
    · by_cases h2 : c = '\n'
      · subst h2; simp [lazyDollar] at h
      · simp only [lazyDollar, if_neg h1, if_neg h2] at h
        cases heq : lazyDollar cs with
        | none => rw [heq] at h; cases h
        | some p =>
          obtain ⟨g', rest'⟩ := p
          rw [heq] at h
          simp only [Option.some.injEq, Prod.mk.injEq] at h
          obtain ⟨hg, hr⟩ := h
          subst hg; subst hr
          have := ih heq
          simp [this]

/-! ## Generic lemmas about the substitution engines -/

/-- A matcher that consumes at least one character on success. -/
def Consuming {γ : Type} (m : Str → Option (γ × Str)) : Prop :=
  ∀ s g r, m s = some (g, r) → r.length < s.length

theorem subP_fuel {γ : Type} {m : Str → Option (γ × Str)} {repl : γ → Str}
    (hm : Consuming m) :
    ∀ f1 f2 k s, s.length ≤ f1 → s.length ≤ f2 →
      subP m repl f1 k s = subP m repl f2 k s := by
  intro f1
  induction f1 with
  | zero =>
    intro f2 k s h1 _
    have hs : s = [] := List.eq_nil_of_length_eq_zero (Nat.le_zero.mp h1)
    subst hs
    cases f2 <;> simp [subP]
  | succ f ih =>
    intro f2 k s h1 h2
    cases s with
    | nil => cases f2 <;> simp [subP]
    | cons c rest =>
      cases f2 with
      | zero => simp at h2
      | succ f2' =>
        simp only [subP]
        by_cases hk : k = some 0
        · simp [hk]
        · simp only [if_neg hk]
          cases hmc : m (c :: rest) with
          | some gr =>
            obtain ⟨g, r⟩ := gr
            have hr := hm _ _ _ hmc
            simp only [List.length_cons] at hr h1 h2
            exact congrArg (fun t => repl g ++ t) (ih f2' (decCount k) r (by omega) (by omega))
          | none =>
            simp only [List.length_cons] at h1 h2
            exact congrArg (fun t => c :: t) (ih f2' k rest (by omega) (by omega))

theorem subE_fuel {γ : Type} {m : Str → Option (γ × Str)} {repl : γ → Except Err Str}
    (hm : Consuming m) :
    ∀ f1 f2 k s, s.length ≤ f1 → s.length ≤ f2 →
      subE m repl f1 k s = subE m repl f2 k s := by
  intro f1
  induction f1 with
  | zero =>
    intro f2 k s h1 _
    have hs : s = [] := List.eq_nil_of_length_eq_zero (Nat.le_zero.mp h1)
    subst hs
    cases f2 <;> simp [subE]
  | succ f ih =>
    intro f2 k s h1 h2
    cases s with
    | nil => cases f2 <;> simp [subE]
    | cons c rest =>
      cases f2 with
      | zero => simp at h2
      | succ f2' =>
        simp only [subE]
        by_cases hk : k = some 0
        · simp [hk]
        · simp only [if_neg hk]
          cases hmc : m (c :: rest) with
          | some gr =>
            obtain ⟨g, r⟩ := gr
            have hr := hm _ _ _ hmc
            simp only [List.length_cons] at hr h1 h2
            exact congrArg
              (fun x : Except Err Str =>
                match repl g with
                | Except.error e => Except.error e
                | Except.ok h0 =>
                  match x with
                  | Except.error e => Except.error e
                  | Except.ok t => Except.ok (h0 ++ t))
              (ih f2' (decCount k) r (by omega) (by omega))
          | none =>
            simp only [List.length_cons] at h1 h2
            exact congrArg
              (fun x : Except Err Str =>
                match x with
                | Except.error e => Except.error e
                | Except.ok t => Except.ok (c :: t))
              (ih f2' k rest (by omega) (by omega))

theorem findAllG_fuel {γ : Type} {m : Str → Option (γ × Str)} (hm : Consuming m) :
    ∀ f1 f2 s, s.length ≤ f1 → s.length ≤ f2 →
      findAllG m f1 s = findAllG m f2 s := by
  intro f1
  induction f1 with
  | zero =>
    intro f2 s h1 _
    have hs : s = [] := List.eq_nil_of_length_eq_zero (Nat.le_zero.mp h1)
    subst hs
    cases f2 <;> simp [findAllG]
  | succ f ih =>
    intro f2 s h1 h2
    cases s with
    | nil => cases f2 <;> simp [findAllG]
    | cons c rest =>
      cases f2 with
      | zero => simp at h2
      | succ f2' =>
        simp only [findAllG]
        cases hmc : m (c :: rest) with
        | some gr =>
          obtain ⟨g, r⟩ := gr
          have hr := hm _ _ _ hmc
          simp only [List.length_cons] at hr h1 h2
          exact congrArg (fun t => g :: t) (ih f2' r (by omega) (by omega))
        | none =>
          simp only [List.length_cons] at h1 h2
          exact ih f2' rest (by omega) (by omega)

theorem scanMatches_fuel {γ : Type} {m : Str → Option (γ × Str)} (hm : Consuming m) :
    ∀ f1 f2 k s, s.length ≤ f1 → s.length ≤ f2 →
      scanMatches m f1 k s = scanMatches m f2 k s := by
  intro f1
  induction f1 with
  | zero =>
    intro f2 k s h1 _
    have hs : s = [] := List.eq_nil_of_length_eq_zero (Nat.le_zero.mp h1)
    subst hs
    cases f2 <;> simp [scanMatches]
  | succ f ih =>
    intro f2 k s h1 h2
    cases s with
    | nil => cases f2 <;> simp [scanMatches]
    | cons c rest =>
      cases f2 with
      | zero => simp at h2
      | succ f2' =>
        simp only [scanMatches]
        by_cases hk : k = some 0
        · simp [hk]
        · simp only [if_neg hk]
          cases hmc : m (c :: rest) with
          | some gr =>
            obtain ⟨g, r⟩ := gr
            have hr := hm _ _ _ hmc
            simp only [List.length_cons] at hr h1 h2
            exact congrArg (fun t => g :: t) (ih f2' (decCount k) r (by omega) (by omega))
          | none =>
            simp only [List.length_cons] at h1 h2
            exact ih f2' k rest (by omega) (by omega)

theorem reSub_nil {γ : Type} (m : Str → Option (γ × Str)) (repl : γ → Str)
    (k : Option Nat) : reSub m repl k [] = [] := rfl

theorem reSub_zeroCount {γ : Type} (m : Str → Option (γ × Str)) (repl : γ → Str)
    (s : Str) : reSub m repl (some 0) s = s := by
  cases s <;> simp [reSub, subP]

theorem reSub_cons_none {γ : Type} {m : Str → Option (γ × Str)} {repl : γ → Str}
    {c : Char} {s : Str} {k : Option Nat} (h : m (c :: s) = none) (hk : k ≠ some 0) :
    reSub m repl k (c :: s) = c :: reSub m repl k s := by
  simp only [reSub, List.length_cons, subP, if_neg hk, h]

theorem reSub_head {γ : Type} {m : Str → Option (γ × Str)} {repl : γ → Str}
    {c : Char} {s r : Str} {g : γ} {k : Option Nat} (hm : Consuming m)
    (h : m (c :: s) = some (g, r)) (hk : k ≠ some 0) :
    reSub m repl k (c :: s) = repl g ++ reSub m repl (decCount k) r := by
  simp only [reSub, List.length_cons, subP, if_neg hk, h]
  have hr := hm _ _ _ h
  simp only [List.length_cons] at hr
  rw [subP_fuel hm s.length r.length (decCount k) r (by omega) le_rfl]

theorem reSubE_zeroCount {γ : Type} (m : Str → Option (γ × Str))
    (repl : γ → Except Err Str) (s : Str) : reSubE m repl (some 0) s = .ok s := by
  cases s <;> simp [reSubE, subE]

theorem reSubE_cons_none {γ : Type} {m : Str → Option (γ × Str)}
    {repl : γ → Except Err Str} {c : Char} {s : Str} {k : Option Nat}
    (h : m (c :: s) = none) (hk : k ≠ some 0) :
    reSubE m repl k (c :: s) = (reSubE m repl k s).map (fun t => c :: t) := by
  simp only [reSubE, List.length_cons, subE, if_neg hk, h]
  cases subE m repl s.length k s <;> simp [Except.map]

theorem reSubE_head {γ : Type} {m : Str → Option (γ × Str)}
    {repl : γ → Except Err Str} {c : Char} {s r : Str} {g : γ} {k : Option Nat}
    (hm : Consuming m) (h : m (c :: s) = some (g, r)) (hk : k ≠ some 0) :
    reSubE m repl k (c :: s) =
      match repl g with
      | .error e => .error e
      | .ok h0 =>
        match reSubE m repl (decCount k) r with
        | .error e => .error e
        | .ok t => .ok (h0 ++ t) := by
  simp only [reSubE, List.length_cons, subE, if_neg hk, h]
  have hr := hm _ _ _ h
  simp only [List.length_cons] at hr
  rw [subE_fuel hm s.length r.length (decCount k) r (by omega) le_rfl]

theorem reFind_nil {γ : Type} (m : Str → Option (γ × Str)) : reFind m [] = [] := rfl

theorem reFind_cons_none {γ : Type} {m : Str → Option (γ × Str)} {c : Char} {s : Str}
    (h : m (c :: s) = none) : reFind m (c :: s) = reFind m s := by
  simp only [reFind, List.length_cons, findAllG, h]

theorem reFind_head {γ : Type} {m : Str → Option (γ × Str)} {c : Char} {s r : Str}
    {g : γ} (hm : Consuming m) (h : m (c :: s) = some (g, r)) :
    reFind m (c :: s) = g :: reFind m r := by
  simp only [reFind, List.length_cons, findAllG, h]
  have hr := hm _ _ _ h
  simp only [List.length_cons] at hr
  rw [findAllG_fuel hm s.length r.length r (by omega) le_rfl]

theorem reScan_nil {γ : Type} (m : Str → Option (γ × Str)) (k : Option Nat) :
    reScan m k [] = [] := rfl

theorem reScan_zeroCount {γ : Type} (m : Str → Option (γ × Str)) (s : Str) :
    reScan m (some 0) s = [] := by
  cases s <;> simp [reScan, scanMatches]

theorem reScan_cons_none {γ : Type} {m : Str → Option (γ × Str)} {c : Char} {s : Str}
    {k : Option Nat} (h : m (c :: s) = none) (hk : k ≠ some 0) :
    reScan m k (c :: s) = reScan m k s := by
  simp only [reScan, List.length_cons, scanMatches, if_neg hk, h]

theorem reScan_head {γ : Type} {m : Str → Option (γ × Str)} {c : Char} {s r : Str}
    {g : γ} {k : Option Nat} (hm : Consuming m) (h : m (c :: s) = some (g, r))
    (hk : k ≠ some 0) :
    reScan m k (c :: s) = g :: reScan m (decCount k) r := by
  simp only [reScan, List.length_cons, scanMatches, if_neg hk, h]
  have hr := hm _ _ _ h
  simp only [List.length_cons] at hr
  rw [scanMatches_fuel hm s.length r.length (decCount k) r (by omega) le_rfl]

/-! ## Safe prefixes: regions in which a matcher can never start a match -/

/-- No match of `m` starts at any position of `p`, whatever follows. -/
def SafeM {γ : Type} (m : Str → Option (γ × Str)) (p : Str) : Prop :=
  ∀ i, i < p.length → ∀ rest, m (List.drop i p ++ rest) = none

theorem safeM_nil {γ : Type} (m : Str → Option (γ × Str)) : SafeM m [] := by
  intro i hi
  simp at hi

theorem safeM_tail {γ : Type} {m : Str → Option (γ × Str)} {c : Char} {p : Str}
    (h : SafeM m (c :: p)) : SafeM m p := by
  intro i hi rest
  have := h (i + 1) (by simpa using hi) rest
  simpa using this

theorem safeM_head_none {γ : Type} {m : Str → Option (γ × Str)} {c : Char} {p : Str}
    (h : SafeM m (c :: p)) (rest : Str) : m (c :: (p ++ rest)) = none := by
  have := h 0 (by simp) rest
  simpa using this

theorem safeM_cons {γ : Type} {m : Str → Option (γ × Str)} {c : Char} {p : Str}
    (h0 : ∀ rest, m (c :: (p ++ rest)) = none) (hp : SafeM m p) : SafeM m (c :: p) := by
  intro i hi rest
  cases i with
  | zero => simpa using h0 rest
  | succ j =>
    have := hp j (by simpa using hi) rest
    simpa using this

theorem safeM_append {γ : Type} {m : Str → Option (γ × Str)} {p q : Str}
    (h1 : SafeM m p) (h2 : SafeM m q) : SafeM m (p ++ q) := by
  intro i hi rest
  rcases Nat.lt_or_ge i p.length with h | h
  · have := h1 i h (q ++ rest)
    rw [List.drop_append_eq_append_drop, Nat.sub_eq_zero_of_le (le_of_lt h),
      List.drop_zero, List.append_assoc]
    exact this
  · have hlen : i - p.length < q.length := by
      simp only [List.length_append] at hi
      omega
    rw [List.drop_append_eq_append_drop]
    have hnil : List.drop i p = [] := by
      rw [List.drop_eq_nil_iff]
      exact h
    rw [hnil, List.nil_append]
    exact h2 _ hlen rest

theorem safeM_of_head {γ : Type} {m : Str → Option (γ × Str)} {p : Str}
    (hh : ∀ c, c ∈ p → ∀ t, m (c :: t) = none) : SafeM m p := by
  induction p with
  | nil => exact safeM_nil m
  | cons c p' ih =>
    exact safeM_cons (fun rest => hh c (by simp) (p' ++ rest))
      (ih (fun d hd t => hh d (by simp [hd]) t))

theorem reSub_append_safe {γ : Type} {m : Str → Option (γ × Str)} {repl : γ → Str}
    {k : Option Nat} {t : Str} :
    ∀ p, SafeM m p → reSub m repl k (p ++ t) = p ++ reSub m repl k t := by
  intro p
  induction p with
  | nil => simp
  | cons c p' ih =>
    intro hp
    by_cases hk : k = some 0
    · subst hk
      rw [reSub_zeroCount, reSub_zeroCount]
    · have h0 : m (c :: (p' ++ t)) = none := safeM_head_none hp t
      rw [List.cons_append, reSub_cons_none h0 hk, ih (safeM_tail hp)]
      rfl

theorem reSub_safe_id {γ : Type} {m : Str → Option (γ × Str)} {repl : γ → Str}
    {k : Option Nat} (p : Str) (hp : SafeM m p) : reSub m repl k p = p := by
  have := @reSub_append_safe γ m repl k [] p hp
  simpa [reSub_nil] using this

theorem reSubE_append_safe {γ : Type} {m : Str → Option (γ × Str)}
    {repl : γ → Except Err Str} {k : Option Nat} {t : Str} :
    ∀ p, SafeM m p →
      reSubE m repl k (p ++ t) = (reSubE m repl k t).map (fun w => p ++ w) := by
  intro p
  induction p with
  | nil =>
    intro _
    simp only [List.nil_append]
    cases reSubE m repl k t <;> simp [Except.map]
  | cons c p' ih =>
    intro hp
    by_cases hk : k = some 0
    · subst hk
      rw [reSubE_zeroCount, reSubE_zeroCount]
      simp [Except.map]
    · have h0 : m (c :: (p' ++ t)) = none := safeM_head_none hp t
      rw [List.cons_append, reSubE_cons_none h0 hk, ih (safeM_tail hp)]
      cases reSubE m repl k t <;> simp [Except.map]

theorem reSubE_safe_id {γ : Type} {m : Str → Option (γ × Str)}
    {repl : γ → Except Err Str} {k : Option Nat} (p : Str) (hp : SafeM m p) :
    reSubE m repl k p = .ok p := by
  have := @reSubE_append_safe γ m repl k [] p hp
  simpa [reSubE, subE, Except.map] using this

theorem reFind_append_safe {γ : Type} {m : Str → Option (γ × Str)} {t : Str} :
    ∀ p, SafeM m p → reFind m (p ++ t) = reFind m t := by
  intro p
  induction p with
  | nil => simp
  | cons c p' ih =>
    intro hp
    have h0 : m (c :: (p' ++ t)) = none := safeM_head_none hp t
    rw [List.cons_append, reFind_cons_none h0, ih (safeM_tail hp)]

theorem reFind_safe_nil {γ : Type} {m : Str → Option (γ × Str)} (p : Str)
    (hp : SafeM m p) : reFind m p = [] := by
  have := @reFind_append_safe γ m [] p hp
  simpa using this

theorem reScan_append_safe {γ : Type} {m : Str → Option (γ × Str)} {k : Option Nat}
    {t : Str} : ∀ p, SafeM m p → reScan m k (p ++ t) = reScan m k t := by
  intro p
  induction p with
  | nil => simp
  | cons c p' ih =>
    intro hp
    by_cases hk : k = some 0
    · subst hk
      rw [reScan_zeroCount, reScan_zeroCount]
    · have h0 : m (c :: (p' ++ t)) = none := safeM_head_none hp t
      rw [List.cons_append, reScan_cons_none h0 hk, ih (safeM_tail hp)]

/-! ## Relating a raising substitution to its visited matches -/

theorem subE_ok_all {γ : Type} {m : Str → Option (γ × Str)} {repl : γ → Except Err Str} :
    ∀ fuel k s w, subE m repl fuel k s = .ok w →
      ∀ g, g ∈ scanMatches m fuel k s → ∃ h, repl g = .ok h := by
  intro fuel
  induction fuel with
  | zero =>
    intro k s w _ g hg
    simp [scanMatches] at hg
  | succ f ih =>
    intro k s w hok g hg
    cases s with
    | nil => simp [scanMatches] at hg
    | cons c rest =>
      by_cases hk : k = some 0
      · simp [scanMatches, hk] at hg
      · simp only [scanMatches, if_neg hk] at hg
        simp only [subE, if_neg hk] at hok
        cases hmc : m (c :: rest) with
        | some gr =>
          obtain ⟨g0, r⟩ := gr
          rw [hmc] at hg
          simp only [List.mem_cons] at hg
          have hok' : (match repl g0 with
              | Except.error e => Except.error e
              | Except.ok h0 =>
                match subE m repl f (decCount k) r with
                | Except.error e => Except.error e
                | Except.ok t => Except.ok (h0 ++ t)) = Except.ok w := by
            rw [hmc] at hok
            exact hok
          cases hrep : repl g0 with
          | error e => rw [hrep] at hok'; cases hok'
          | ok h0 =>
            rw [hrep] at hok'
            cases hrec : subE m repl f (decCount k) r with
            | error e => rw [hrec] at hok'; cases hok'
            | ok t =>
              cases hg with
              | inl hgg => subst hgg; exact ⟨h0, hrep⟩
              | inr hgg => exact ih (decCount k) r t hrec g hgg
        | none =>
          rw [hmc] at hg
          have hok' : (match subE m repl f k rest with
              | Except.error e => Except.error e
              | Except.ok t => Except.ok (c :: t)) = Except.ok w := by
            rw [hmc] at hok
            exact hok
          cases hrec : subE m repl f k rest with
          | error e => rw [hrec] at hok'; cases hok'
          | ok t => exact ih k rest t hrec g hg

theorem reSubE_ok_all {γ : Type} {m : Str → Option (γ × Str)}
    {repl : γ → Except Err Str} {k : Option Nat} {s w : Str}
    (hok : reSubE m repl k s = .ok w) :
    ∀ g, g ∈ reScan m k s → ∃ h, repl g = .ok h :=
  subE_ok_all s.length k s w hok

theorem subE_error_of_all_err {γ : Type} {m : Str → Option (γ × Str)}
    {repl : γ → Except Err Str}
    (hall : ∀ s' g r, m s' = some (g, r) → ∃ e, repl g = .error e) :
    ∀ fuel k s, scanMatches m fuel k s ≠ [] → ∃ e, subE m repl fuel k s = .error e := by
  intro fuel
  induction fuel with
  | zero =>
    intro k s h
    simp [scanMatches] at h
  | succ f ih =>
    intro k s h
    cases s with
    | nil => simp [scanMatches] at h
    | cons c rest =>
      by_cases hk : k = some 0
      · simp [scanMatches, hk] at h
      · simp only [scanMatches, if_neg hk] at h
        simp only [subE, if_neg hk]
        cases hmc : m (c :: rest) with
        | some gr =>
          obtain ⟨g0, r⟩ := gr
          obtain ⟨e, he⟩ := hall _ _ _ hmc
          refine ⟨e, ?_⟩
          show (match repl g0 with
              | Except.error e0 => Except.error e0
              | Except.ok h0 =>
                match subE m repl f (decCount k) r with
                | Except.error e0 => Except.error e0
                | Except.ok t => Except.ok (h0 ++ t)) = Except.error e
          rw [he]
        | none =>
          rw [hmc] at h
          obtain ⟨e, he⟩ := ih k rest h
          refine ⟨e, ?_⟩
          show (match subE m repl f k rest with
              | Except.error e0 => Except.error e0
              | Except.ok t => Except.ok (c :: t)) = Except.error e
          rw [he]

theorem reSubE_error_of_all_err {γ : Type} {m : Str → Option (γ × Str)}
    {repl : γ → Except Err Str} {k : Option Nat} {s : Str}
    (hall : ∀ s' g r, m s' = some (g, r) → ∃ e, repl g = .error e)
    (h : reScan m k s ≠ []) : ∃ e, reSubE m repl k s = .error e :=
  subE_error_of_all_err hall s.length k s h

theorem reScan_ne_of_match {γ : Type} {m : Str → Option (γ × Str)} {k : Option Nat}
    {u : Str} (hk : k ≠ some 0) (hmu : m u ≠ none) (hu : u ≠ []) :
    ∀ x, reScan m k (x ++ u) ≠ [] := by
  have base : scanMatches m u.length k u ≠ [] := by
    cases u with
    | nil => exact absurd rfl hu
    | cons c r =>
      simp only [List.length_cons, scanMatches, if_neg hk]
      cases hmc : m (c :: r) with
      | some gr => obtain ⟨g, rr⟩ := gr; simp
      | none => exact absurd hmc hmu
  intro x
  induction x with
  | nil => simpa [reScan] using base
  | cons c x' ih =>
    rw [List.cons_append]
    cases hmc : m (c :: (x' ++ u)) with
    | some gr =>
      obtain ⟨g, r⟩ := gr
      simp only [reScan, List.length_cons, scanMatches, if_neg hk, hmc]
      simp
    | none =>
      rw [reScan_cons_none hmc hk]
      exact ih

/-! ## Facts about the individual matchers -/

theorem take_len_append (u r : Str) :
    List.take ((u ++ r).length - r.length) (u ++ r) = u := by
  have h : (u ++ r).length - r.length = u.length := by simp
  rw [h]
  exact List.take_left u r

theorem labelAt_cons_ne {c : Char} (h : ¬ c = '\\') (s : Str) :
    labelAt (c :: s) = none := by
  have h1 : startsWith (strL ("\\label")) (c :: s) = none := by
    rw [show strL ("\\label") = '\\' :: strL ("label") from rfl]
    exact startsWith_cons_ne (fun hh => h hh.symm)
  simp [labelAt, h1]

theorem labelAt_bs_ne {c : Char} (h : ¬ c = 'l') (s : Str) :
    labelAt ('\\' :: c :: s) = none := by
  have h2 : ¬ 'l' = c := fun hh => h hh.symm
  have h1 : startsWith (strL ("\\label")) ('\\' :: c :: s) = none := by
    rw [show strL ("\\label") = '\\' :: 'l' :: strL ("abel") from rfl]
    simp [startsWith, h2]
  simp [labelAt, h1]

theorem labelAt_split {s g r : Str} (h : labelAt s = some (g, r)) :
    ∃ u, u ≠ [] ∧ s = u ++ r := by
  unfold labelAt at h
  cases h1 : startsWith (strL ("\\label")) s with
  | none => rw [h1] at h; cases h
  | some r1 =>
    have h' : (match skipWs r1 with
        | [] => none
        | c :: r2 => if c = '{' then lazyBrace r2 else none) = some (g, r) := by
      rw [h1] at h
      exact h
    cases h2 : skipWs r1 with
    | nil => rw [h2] at h'; cases h'
    | cons c r2 =>
      have h'' : (if c = '{' then lazyBrace r2 else none) = some (g, r) := by
        rw [h2] at h'
        exact h'
      by_cases hc : c = '{'
      · rw [if_pos hc] at h''
        subst hc
        have hs := startsWith_split h1
        obtain ⟨w, hw⟩ := skipWs_split r1
        rw [h2] at hw
        have hlz := lazyBrace_split h''
        refine ⟨strL ("\\label") ++ w ++ '{' :: g ++ ['}'], by simp, ?_⟩
        rw [hs, hw, hlz]
        simp
      · rw [if_neg hc] at h''; cases h''

theorem labelAt_consuming : Consuming labelAt := by
  intro s g r h
  obtain ⟨u, hu, hs⟩ := labelAt_split h
  rw [hs]
  simp only [List.length_append]
  cases u with
  | nil => exact absurd rfl hu
  | cons a b => simp

theorem plainChar_spec {c : Char} (h : plainChar c = true) :
    ¬ c = '\\' ∧ ¬ c = '{' ∧ ¬ c = '}' ∧ ¬ c = '.' ∧ isWs c = false ∧ ¬ c.toNat = 39 := by
  simp only [plainChar, Bool.and_eq_true, Bool.not_eq_true', beq_eq_false_iff_ne, ne_eq] at h
  obtain ⟨⟨⟨⟨⟨a, b⟩, c'⟩, d⟩, e⟩, f⟩ := h
  exact ⟨a, b, c', d, e, f⟩

theorem plainChar_not_nl {c : Char} (h : plainChar c = true) : ¬ c = '\n' := by
  intro hnl
  have hws := (plainChar_spec h).2.2.2.2.1
  rw [hnl] at hws
  simp [isWs] at hws

/-- The `\label{L}` directive matches itself and captures the label. -/
theorem labelAt_dir {l : Str} (hl : plainStr l = true) (t : Str) :
    labelAt (labelDir l ++ t) = some (l, t) := by
  have hchars : ∀ c ∈ l, ¬ c = '}' ∧ ¬ c = '\n' := by
    intro c hc
    have hp := List.all_eq_true.mp hl c hc
    exact ⟨(plainChar_spec hp).2.2.1, plainChar_not_nl hp⟩
  have h0 : labelDir l ++ t = strL ("\\label") ++ ('{' :: (l ++ '}' :: t)) := by
    simp [labelDir]
  rw [h0]
  unfold labelAt
  rw [startsWith_self]
  show (match skipWs ('{' :: (l ++ '}' :: t)) with
      | [] => none
      | c :: r2 => if c = '{' then lazyBrace r2 else none) = some (l, t)
  rw [skipWs_nws (by decide)]
  show (if '{' = '{' then lazyBrace (l ++ '}' :: t) else none) = some (l, t)
  rw [if_pos rfl]
  exact lazyBrace_append hchars t

/-! ## Safe prefixes for plain Option-valued scanners -/

/-- No match of the scanner `f` starts at any position of `p`. -/
def SafeE (f : Str → Option Str) (p : Str) : Prop :=
  ∀ i, i < p.length → ∀ rest, f (List.drop i p ++ rest) = none

theorem safeE_nil (f : Str → Option Str) : SafeE f [] := by
  intro i hi
  simp at hi

theorem safeE_tail {f : Str → Option Str} {c : Char} {p : Str}
    (h : SafeE f (c :: p)) : SafeE f p := by
  intro i hi rest
  have := h (i + 1) (by simpa using hi) rest
  simpa using this

theorem safeE_head_none {f : Str → Option Str} {c : Char} {p : Str}
    (h : SafeE f (c :: p)) (rest : Str) : f (c :: (p ++ rest)) = none := by
  have := h 0 (by simp) rest
  simpa using this

theorem safeE_cons {f : Str → Option Str} {c : Char} {p : Str}
    (h0 : ∀ rest, f (c :: (p ++ rest)) = none) (hp : SafeE f p) : SafeE f (c :: p) := by
  intro i hi rest
  cases i with
  | zero => simpa using h0 rest
  | succ j =>
    have := hp j (by simpa using hi) rest
    simpa using this

theorem safeE_append {f : Str → Option Str} {p q : Str}
    (h1 : SafeE f p) (h2 : SafeE f q) : SafeE f (p ++ q) := by
  intro i hi rest
  rcases Nat.lt_or_ge i p.length with h | h
  · have := h1 i h (q ++ rest)
    rw [List.drop_append_eq_append_drop, Nat.sub_eq_zero_of_le (le_of_lt h),
      List.drop_zero, List.append_assoc]
    exact this
  · have hlen : i - p.length < q.length := by
      simp only [List.length_append] at hi
      omega
    rw [List.drop_append_eq_append_drop]
    have hnil : List.drop i p = [] := by
      rw [List.drop_eq_nil_iff]
      exact h
    rw [hnil, List.nil_append]
    exact h2 _ hlen rest

theorem safeE_of_head {f : Str → Option Str} {p : Str}
    (hh : ∀ c, c ∈ p → ∀ t, f (c :: t) = none) : SafeE f p := by
  induction p with
  | nil => exact safeE_nil f
  | cons c p' ih =>
    exact safeE_cons (fun rest => hh c (by simp) (p' ++ rest))
      (ih (fun d hd t => hh d (by simp [hd]) t))

/-! ## Environment-marker lemmas -/

theorem beginEnvAt_cons_ne {c : Char} (h : ¬ c = '\\') (env s : Str) :
    beginEnvAt env (c :: s) = none := by
  have h1 : startsWith (strL ("\\begin")) (c :: s) = none := by
    rw [show strL ("\\begin") = '\\' :: strL ("begin") from rfl]
    exact startsWith_cons_ne (fun hh => h hh.symm)
  simp [beginEnvAt, h1]

theorem endEnvAt_cons_ne {c : Char} (h : ¬ c = '\\') (env s : Str) :
    endEnvAt env (c :: s) = none := by
  have h1 : startsWith (strL ("\\end")) (c :: s) = none := by
    rw [show strL ("\\end") = '\\' :: strL ("end") from rfl]
    exact startsWith_cons_ne (fun hh => h hh.symm)
  simp [endEnvAt, h1]

theorem beginEnvAt_bs_ne {c : Char} (h : ¬ c = 'b') (env s : Str) :
    beginEnvAt env ('\\' :: c :: s) = none := by
  have h2 : ¬ 'b' = c := fun hh => h hh.symm
  have h1 : startsWith (strL ("\\begin")) ('\\' :: c :: s) = none := by
    rw [show strL ("\\begin") = '\\' :: 'b' :: strL ("egin") from rfl]
    simp [startsWith, h2]
  simp [beginEnvAt, h1]

theorem endEnvAt_bs_ne {c : Char} (h : ¬ c = 'e') (env s : Str) :
    endEnvAt env ('\\' :: c :: s) = none := by
  have h2 : ¬ 'e' = c := fun hh => h hh.symm
  have h1 : startsWith (strL ("\\end")) ('\\' :: c :: s) = none := by
    rw [show strL ("\\end") = '\\' :: 'e' :: strL ("nd") from rfl]
    simp [startsWith, h2]
  simp [endEnvAt, h1]

theorem envTailAt_marker {env : Str} (henv : headNonWs env = true) (hne : env ≠ [])
    (t : Str) : envTailAt env (('{' :: (env ++ ['}'])) ++ t) = some t := by
  unfold envTailAt
  rw [show ('{' :: (env ++ ['}'])) ++ t = '{' :: ((env ++ ['}']) ++ t) from rfl]
  rw [skipWs_nws (by decide)]
  show (if '{' = '{' then
      match startsWith env (skipWs ((env ++ ['}']) ++ t)) with
      | none => none
      | some r3 => wsThenBrace r3
    else none) = some t
  rw [if_pos rfl]
  have hskip : skipWs ((env ++ ['}']) ++ t) = (env ++ ['}']) ++ t := by
    cases env with
    | nil => exact absurd rfl hne
    | cons e env' =>
      have he : isWs e = false := by simpa [headNonWs] using henv
      rw [show ((e :: env') ++ ['}']) ++ t = e :: ((env' ++ ['}']) ++ t) from by simp]
      exact skipWs_nws he _
  rw [hskip]
  rw [show (env ++ ['}']) ++ t = env ++ ('}' :: t) from by simp]
  rw [startsWith_self]
  show wsThenBrace ('}' :: t) = some t
  rw [wsThenBrace_nws_cons (by decide)]
  simp

theorem beginEnvAt_marker {env : Str} (henv : headNonWs env = true) (hne : env ≠ [])
    (t : Str) : beginEnvAt env (beginMarker env ++ t) = some t := by
  unfold beginEnvAt beginMarker
  rw [show (strL ("\\begin") ++ '{' :: (env ++ ['}'])) ++ t =
      strL ("\\begin") ++ (('{' :: (env ++ ['}'])) ++ t) from by simp]
  rw [startsWith_self]
  exact envTailAt_marker henv hne t

theorem endEnvAt_marker {env : Str} (henv : headNonWs env = true) (hne : env ≠ [])
    (t : Str) : endEnvAt env (endMarker env ++ t) = some t := by
  unfold endEnvAt endMarker
  rw [show (strL ("\\end") ++ '{' :: (env ++ ['}'])) ++ t =
      strL ("\\end") ++ (('{' :: (env ++ ['}'])) ++ t) from by simp]
  rw [startsWith_self]
  exact envTailAt_marker henv hne t

theorem lazyEnv_cons_end {env : Str} {c : Char} {r rest : Str}
    (h : endEnvAt env (c :: r) = some rest) : lazyEnv env (c :: r) = some ([], rest) := by
  simp [lazyEnv, h]

theorem lazyEnv_cons_step {env : Str} {c : Char} {r : Str}
    (h : endEnvAt env (c :: r) = none) :
    lazyEnv env (c :: r) =
      match lazyEnv env r with
      | some (g, rest) => some (c :: g, rest)
      | none => none := by
  simp [lazyEnv, h]

theorem endMarker_cons (env : Str) :
    endMarker env = '\\' :: ('e' :: 'n' :: 'd' :: ('{' :: (env ++ ['}']))) := by
  unfold endMarker
  rfl

theorem lazyEnv_append {env : Str} (henv : headNonWs env = true) (hne : env ≠ [])
    {t : Str} : ∀ body, SafeE (endEnvAt env) body →
    lazyEnv env (body ++ (endMarker env ++ t)) = some (body, t) := by
  intro body
  induction body with
  | nil =>
    intro _
    rw [List.nil_append]
    have hm := endEnvAt_marker henv hne t
    rw [endMarker_cons] at hm ⊢
    rw [List.cons_append] at hm ⊢
    exact lazyEnv_cons_end hm
  | cons c body' ih =>
    intro hb
    have h0 : endEnvAt env (c :: (body' ++ (endMarker env ++ t))) = none := by
      have := safeE_head_none hb (endMarker env ++ t)
      simpa using this
    rw [List.cons_append, lazyEnv_cons_step h0, ih (safeE_tail hb)]

theorem envBlockAt_block {env : Str} (henv : headNonWs env = true) (hne : env ≠ [])
    {body : Str} (hb : SafeE (endEnvAt env) body) (t : Str) :
    envBlockAt env (envBlock env body ++ t) = some (envBlock env body, t) := by
  unfold envBlockAt
  have h1 : beginEnvAt env (envBlock env body ++ t) =
      some (body ++ (endMarker env ++ t)) := by
    rw [show envBlock env body ++ t =
        beginMarker env ++ (body ++ (endMarker env ++ t)) from by
      simp [envBlock]]
    exact beginEnvAt_marker henv hne _
  simp only [h1, lazyEnv_append henv hne body hb]
  rw [take_len_append]

theorem envInnerAt_block {env : Str} (henv : headNonWs env = true) (hne : env ≠ [])
    {body : Str} (hb : SafeE (endEnvAt env) body) (t : Str) :
    envInnerAt env (envBlock env body ++ t) = some (body, t) := by
  unfold envInnerAt
  have h1 : beginEnvAt env (envBlock env body ++ t) =
      some (body ++ (endMarker env ++ t)) := by
    rw [show envBlock env body ++ t =
        beginMarker env ++ (body ++ (endMarker env ++ t)) from by
      simp [envBlock]]
    exact beginEnvAt_marker henv hne _
  simp only [h1]
  exact lazyEnv_append henv hne body hb

theorem envTailAt_split {env r1 r : Str} (h : envTailAt env r1 = some r) :
    ∃ u, u ≠ [] ∧ r1 = u ++ r := by
  unfold envTailAt at h
  cases h2 : skipWs r1 with
  | nil => rw [h2] at h; cases h
  | cons c r2 =>
    have h' : (if c = '{' then
        match startsWith env (skipWs r2) with
        | none => none
        | some r3 => wsThenBrace r3
      else none) = some r := by
      rw [h2] at h
      exact h
    by_cases hc : c = '{'
    · rw [if_pos hc] at h'
      subst hc
      cases h3 : startsWith env (skipWs r2) with
      | none => rw [h3] at h'; cases h'
      | some r3 =>
        have h'' : wsThenBrace r3 = some r := by
          rw [h3] at h'
          exact h'
        obtain ⟨w1, hw1⟩ := skipWs_split r1
        rw [h2] at hw1
        obtain ⟨w2, hw2⟩ := skipWs_split r2
        have h4 := startsWith_split h3
        obtain ⟨w3, hw3⟩ := wsThenBrace_split h''
        refine ⟨w1 ++ '{' :: w2 ++ env ++ w3 ++ ['}'], by simp, ?_⟩
        rw [hw1, hw2, h4, hw3]
        simp
    · rw [if_neg hc] at h'; cases h'

theorem beginEnvAt_split {env s r : Str} (h : beginEnvAt env s = some r) :
    ∃ u, u ≠ [] ∧ s = u ++ r := by
  unfold beginEnvAt at h
  cases h1 : startsWith (strL ("\\begin")) s with
  | none => rw [h1] at h; cases h
  | some r1 =>
    have h' : envTailAt env r1 = some r := by
      rw [h1] at h
      exact h
    obtain ⟨u, hu, hsplit⟩ := envTailAt_split h'
    refine ⟨strL ("\\begin") ++ u,
      by rw [show strL ("\\begin") = '\\' :: strL ("begin") from rfl]; simp, ?_⟩
    rw [startsWith_split h1, hsplit]
    simp

theorem endEnvAt_split {env s r : Str} (h : endEnvAt env s = some r) :
    ∃ u, u ≠ [] ∧ s = u ++ r := by
  unfold endEnvAt at h
  cases h1 : startsWith (strL ("\\end")) s with
  | none => rw [h1] at h; cases h
  | some r1 =>
    have h' : envTailAt env r1 = some r := by
      rw [h1] at h
      exact h
    obtain ⟨u, hu, hsplit⟩ := envTailAt_split h'
    refine ⟨strL ("\\end") ++ u,
      by rw [show strL ("\\end") = '\\' :: strL ("end") from rfl]; simp, ?_⟩
    rw [startsWith_split h1, hsplit]
    simp

theorem lazyEnv_split {env : Str} :
    ∀ {s g r : Str}, lazyEnv env s = some (g, r) → ∃ u, u ≠ [] ∧ s = g ++ (u ++ r) := by
  intro s
  induction s with
  | nil => intro g r h; simp [lazyEnv] at h
  | cons c cs ih =>
    intro g r h
    cases hE : endEnvAt env (c :: cs) with
    | some rest =>
      rw [lazyEnv_cons_end hE] at h
      simp only [Option.some.injEq, Prod.mk.injEq] at h
      obtain ⟨rfl, rfl⟩ := h
      obtain ⟨u, hu, hsplit⟩ := endEnvAt_split hE
      exact ⟨u, hu, by simpa using hsplit⟩
    | none =>
      rw [lazyEnv_cons_step hE] at h
      cases heq : lazyEnv env cs with
      | none => rw [heq] at h; cases h
      | some p =>
        obtain ⟨g', rest'⟩ := p
        rw [heq] at h
        simp only [Option.some.injEq, Prod.mk.injEq] at h
        obtain ⟨rfl, rfl⟩ := h
        obtain ⟨u, hu, hsplit⟩ := ih heq
        exact ⟨u, hu, by simp [hsplit]⟩

theorem envBlockAt_split {env s g r : Str} (h : envBlockAt env s = some (g, r)) :
    g ≠ [] ∧ s = g ++ r := by
  unfold envBlockAt at h
  cases h1 : beginEnvAt env s with
  | none => rw [h1] at h; cases h
  | some r1 =>
    have h' : (match lazyEnv env r1 with
        | none => none
        | some (_, rest) => some (List.take (s.length - rest.length) s, rest)) =
        some (g, r) := by
      rw [h1] at h
      exact h
    cases h2 : lazyEnv env r1 with
    | none => rw [h2] at h'; cases h'
    | some p =>
      obtain ⟨inner, rest⟩ := p
      rw [h2] at h'
      simp only [Option.some.injEq, Prod.mk.injEq] at h'
      obtain ⟨hg, hr⟩ := h'
      obtain ⟨u1, hu1, hs1⟩ := beginEnvAt_split h1
      obtain ⟨u2, hu2, hs2⟩ := lazyEnv_split h2
      have hs : s = (u1 ++ inner ++ u2) ++ rest := by
        rw [hs1, hs2]
        simp
      have hgval : g = u1 ++ inner ++ u2 := by
        rw [← hg, hs, take_len_append]
      subst hr
      constructor
      · rw [hgval]
        cases u1 with
        | nil => exact absurd rfl hu1
        | cons a b => simp
      · rw [hgval]
        exact hs

theorem envBlockAt_consuming (env : Str) : Consuming (envBlockAt env) := by
  intro s g r h
  obtain ⟨hg, hs⟩ := envBlockAt_split h
  rw [hs]
  simp only [List.length_append]
  cases g with
  | nil => exact absurd rfl hg
  | cons a b => simp

theorem envInnerAt_split {env s g r : Str} (h : envInnerAt env s = some (g, r)) :
    ∃ u1 u2, u1 ≠ [] ∧ s = u1 ++ g ++ (u2 ++ r) := by
  unfold envInnerAt at h
  cases h1 : beginEnvAt env s with
  | none => rw [h1] at h; cases h
  | some r1 =>
    have h' : lazyEnv env r1 = some (g, r) := by
      rw [h1] at h
      exact h
    obtain ⟨u1, hu1, hs1⟩ := beginEnvAt_split h1
    obtain ⟨u2, hu2, hs2⟩ := lazyEnv_split h'
    exact ⟨u1, u2, hu1, by rw [hs1, hs2]; simp⟩

theorem envInnerAt_consuming (env : Str) : Consuming (envInnerAt env) := by
  intro s g r h
  obtain ⟨u1, u2, hu1, hs⟩ := envInnerAt_split h
  rw [hs]
  simp only [List.length_append]
  cases u1 with
  | nil => exact absurd rfl hu1
  | cons a b =>
    cases u2 <;> simp <;> omega

theorem envBlockAt_cons_ne {c : Char} (h : ¬ c = '\\') (env s : Str) :
    envBlockAt env (c :: s) = none := by
  simp [envBlockAt, beginEnvAt_cons_ne h]

theorem envInnerAt_cons_ne {c : Char} (h : ¬ c = '\\') (env s : Str) :
    envInnerAt env (c :: s) = none := by
  simp [envInnerAt, beginEnvAt_cons_ne h]

theorem envBlockAt_bs_ne {c : Char} (h : ¬ c = 'b') (env s : Str) :
    envBlockAt env ('\\' :: c :: s) = none := by
  simp [envBlockAt, beginEnvAt_bs_ne h]

theorem envInnerAt_bs_ne {c : Char} (h : ¬ c = 'b') (env s : Str) :
    envInnerAt env ('\\' :: c :: s) = none := by
  simp [envInnerAt, beginEnvAt_bs_ne h]

/-! ## Safe-prefix instances for the structured buffers -/

theorem cleanSeg_mem {s : Str} {c : Char} (h : cleanSeg s = true) (hc : c ∈ s) :
    ¬ c = '\\' := by
  have := List.all_eq_true.mp h c hc
  simpa using this

theorem cleanSeg_of_plain {s : Str} (h : plainStr s = true) : cleanSeg s = true := by
  rw [cleanSeg, List.all_eq_true]
  intro c hc
  have := (plainChar_spec (List.all_eq_true.mp h c hc)).1
  simpa using this

theorem safeM_labelAt_clean {s : Str} (h : cleanSeg s = true) : SafeM labelAt s :=
  safeM_of_head (fun c hc t => labelAt_cons_ne (cleanSeg_mem h hc) t)

theorem safeM_labelAt_bsSpace : SafeM labelAt ['\\', ' '] := by
  intro i hi rest
  match i, hi with
  | 0, _ =>
    have := labelAt_bs_ne (c := ' ') (by decide) rest
    simpa using this
  | 1, _ =>
    have := labelAt_cons_ne (c := ' ') (by decide) rest
    simpa using this

theorem safeM_labelAt_suffix {n : Str} (hn : plainStr n = true) :
    SafeM labelAt (eqNumSuffix n) := by
  have hpre : SafeM labelAt (strL ("\\ \\ \\ \\ \\ (")) := by
    rw [show strL ("\\ \\ \\ \\ \\ (") =
        ['\\', ' '] ++ (['\\', ' '] ++ (['\\', ' '] ++ (['\\', ' '] ++
          (['\\', ' '] ++ ['('])))) from rfl]
    refine safeM_append safeM_labelAt_bsSpace (safeM_append safeM_labelAt_bsSpace
      (safeM_append safeM_labelAt_bsSpace (safeM_append safeM_labelAt_bsSpace
        (safeM_append safeM_labelAt_bsSpace ?_))))
    exact safeM_of_head (fun c hc t => labelAt_cons_ne (by simp at hc; simp [hc]) t)
  have hn' : SafeM labelAt n := safeM_labelAt_clean (cleanSeg_of_plain hn)
  have hcl : SafeM labelAt (strL (")")) :=
    safeM_of_head (fun c hc t => labelAt_cons_ne (by simp [strL] at hc; simp [hc]) t)
  rw [eqNumSuffix]
  exact safeM_append (safeM_append hpre hn') hcl

theorem safeE_endEnv_clean {env s : Str} (h : cleanSeg s = true) :
    SafeE (endEnvAt env) s :=
  safeE_of_head (fun c hc t => endEnvAt_cons_ne (cleanSeg_mem h hc) env t)

theorem safeE_endEnv_bs_pair {env : Str} {d : Char} (hd : ¬ d = 'e') (hbs : ¬ d = '\\') :
    SafeE (endEnvAt env) ['\\', d] := by
  intro i hi rest
  match i, hi with
  | 0, _ =>
    have := endEnvAt_bs_ne hd env rest
    simpa using this
  | 1, _ =>
    have := endEnvAt_cons_ne hbs env rest
    simpa using this

theorem safeE_endEnv_labelDir {env l : Str} (hl : plainStr l = true) :
    SafeE (endEnvAt env) (labelDir l) := by
  rw [show labelDir l = ['\\', 'l'] ++ (['a', 'b', 'e', 'l', '{'] ++ (l ++ ['}'])) from rfl]
  refine safeE_append (safeE_endEnv_bs_pair (by decide) (by decide)) ?_
  refine safeE_of_head (fun c hc t => endEnvAt_cons_ne ?_ env t)
  rcases List.mem_append.mp hc with h | h
  · simp only [List.mem_cons, List.not_mem_nil, or_false] at h
    rcases h with rfl | rfl | rfl | rfl | rfl <;> decide
  · rcases List.mem_append.mp h with h2 | h2
    · exact (plainChar_spec (List.all_eq_true.mp hl c h2)).1
    · simp only [List.mem_singleton] at h2
      subst h2
      decide

theorem safeE_endEnv_suffix {env n : Str} (hn : plainStr n = true) :
    SafeE (endEnvAt env) (eqNumSuffix n) := by
  have hpre : SafeE (endEnvAt env) (strL ("\\ \\ \\ \\ \\ (")) := by
    rw [show strL ("\\ \\ \\ \\ \\ (") =
        ['\\', ' '] ++ (['\\', ' '] ++ (['\\', ' '] ++ (['\\', ' '] ++
          (['\\', ' '] ++ ['('])))) from rfl]
    refine safeE_append (safeE_endEnv_bs_pair (by decide) (by decide))
      (safeE_append (safeE_endEnv_bs_pair (by decide) (by decide))
        (safeE_append (safeE_endEnv_bs_pair (by decide) (by decide))
          (safeE_append (safeE_endEnv_bs_pair (by decide) (by decide))
            (safeE_append (safeE_endEnv_bs_pair (by decide) (by decide)) ?_))))
    exact safeE_of_head (fun c hc t =>
      endEnvAt_cons_ne (by simp at hc; subst hc; decide) env t)
  have hn' : SafeE (endEnvAt env) n := safeE_endEnv_clean (cleanSeg_of_plain hn)
  have hcl : SafeE (endEnvAt env) (strL (")")) :=
    safeE_of_head (fun c hc t =>
      endEnvAt_cons_ne (by simp [strL] at hc; subst hc; decide) env t)
  rw [eqNumSuffix]
  exact safeE_append (safeE_append hpre hn') hcl

theorem safeM_envBlock_clean {env s : Str} (h : cleanSeg s = true) :
    SafeM (envBlockAt env) s :=
  safeM_of_head (fun c hc t => envBlockAt_cons_ne (cleanSeg_mem h hc) env t)

/-! ## Matching a known directive at the front of the remaining text -/

theorem reFind_match_front {γ : Type} {m : Str → Option (γ × Str)} (hm : Consuming m)
    {u t : Str} {g : γ} (hu : u ≠ []) (h : m (u ++ t) = some (g, t)) :
    reFind m (u ++ t) = g :: reFind m t := by
  cases u with
  | nil => exact absurd rfl hu
  | cons c u' =>
    rw [List.cons_append] at h ⊢
    exact reFind_head hm h

theorem reSub_match_front {γ : Type} {m : Str → Option (γ × Str)} {repl : γ → Str}
    (hm : Consuming m) {u t : Str} {g : γ} {k : Option Nat} (hu : u ≠ [])
    (h : m (u ++ t) = some (g, t)) (hk : k ≠ some 0) :
    reSub m repl k (u ++ t) = repl g ++ reSub m repl (decCount k) t := by
  cases u with
  | nil => exact absurd rfl hu
  | cons c u' =>
    rw [List.cons_append] at h ⊢
    exact reSub_head hm h hk

theorem reSubE_match_front {γ : Type} {m : Str → Option (γ × Str)}
    {repl : γ → Except Err Str} (hm : Consuming m) {u t : Str} {g : γ} {k : Option Nat}
    (hu : u ≠ []) (h : m (u ++ t) = some (g, t)) (hk : k ≠ some 0) :
    reSubE m repl k (u ++ t) =
      match repl g with
      | .error e => .error e
      | .ok h0 =>
        match reSubE m repl (decCount k) t with
        | .error e => .error e
        | .ok t2 => .ok (h0 ++ t2) := by
  cases u with
  | nil => exact absurd rfl hu
  | cons c u' =>
    rw [List.cons_append] at h ⊢
    exact reSubE_head hm h hk

theorem reScan_match_front {γ : Type} {m : Str → Option (γ × Str)} (hm : Consuming m)
    {u t : Str} {g : γ} {k : Option Nat} (hu : u ≠ []) (h : m (u ++ t) = some (g, t))
    (hk : k ≠ some 0) : reScan m k (u ++ t) = g :: reScan m (decCount k) t := by
  cases u with
  | nil => exact absurd rfl hu
  | cons c u' =>
    rw [List.cons_append] at h ⊢
    exact reScan_head hm h hk

/-! ## Rendered label bodies -/

theorem labelDir_ne_nil (l : Str) : labelDir l ≠ [] := by
  rw [show labelDir l = '\\' :: ('l' :: ('a' :: ('b' :: ('e' :: ('l' :: ('{' ::
    (l ++ ['}']))))))) from rfl]
  simp

theorem beginMarker_ne_nil (env : Str) : beginMarker env ≠ [] := by
  rw [show beginMarker env = '\\' :: ('b' :: ('e' :: ('g' :: ('i' :: ('n' :: ('{' ::
    (env ++ ['}']))))))) from rfl]
  simp

theorem envBlock_ne_nil (env body : Str) : envBlock env body ≠ [] := by
  unfold envBlock
  intro h
  rw [List.append_eq_nil] at h
  rw [List.append_eq_nil] at h
  exact beginMarker_ne_nil env h.1.1

theorem renderLabeled_append (items : List (Str × Str)) (last X : Str) :
    renderLabeled items last ++ X = renderLabeled items (last ++ X) := by
  induction items with
  | nil => simp [renderLabeled]
  | cons p rest ih =>
    obtain ⟨s, l⟩ := p
    simp [renderLabeled, ih]

theorem renderSame_append (rep : Str) (items : List (Str × Str)) (last X : Str) :
    renderSame rep items last ++ X = renderSame rep items (last ++ X) := by
  induction items with
  | nil => simp [renderSame]
  | cons p rest ih =>
    obtain ⟨s, l⟩ := p
    simp [renderSame, ih]

theorem renderNumbered_append (items : List (Str × Str)) (ns : List Str) (last X : Str) :
    renderNumbered items ns last ++ X = renderNumbered items ns (last ++ X) := by
  induction items generalizing ns with
  | nil => simp [renderNumbered]
  | cons p rest ih =>
    obtain ⟨s, l⟩ := p
    cases ns with
    | nil => simp [renderNumbered]
    | cons n ns' => simp [renderNumbered, ih]

theorem safeM_labelAt_beginMarker {env : Str} (henv : cleanSeg env = true) :
    SafeM labelAt (beginMarker env) := by
  rw [show beginMarker env = ['\\', 'b'] ++ (['e', 'g', 'i', 'n', '{'] ++ (env ++ ['}']))
    from rfl]
  refine safeM_append ?_ ?_
  · intro i hi rest
    match i, hi with
    | 0, _ =>
      have := labelAt_bs_ne (c := 'b') (by decide) rest
      simpa using this
    | 1, _ =>
      have := labelAt_cons_ne (c := 'b') (by decide) rest
      simpa using this
  · refine safeM_of_head (fun c hc t => labelAt_cons_ne ?_ t)
    rcases List.mem_append.mp hc with h | h
    · simp only [List.mem_cons, List.not_mem_nil, or_false] at h
      rcases h with rfl | rfl | rfl | rfl | rfl <;> decide
    · rcases List.mem_append.mp h with h2 | h2
      · exact cleanSeg_mem henv h2
      · simp only [List.mem_singleton] at h2
        subst h2
        decide

theorem safeM_labelAt_endMarker {env : Str} (henv : cleanSeg env = true) :
    SafeM labelAt (endMarker env) := by
  rw [show endMarker env = ['\\', 'e'] ++ (['n', 'd', '{'] ++ (env ++ ['}'])) from rfl]
  refine safeM_append ?_ ?_
  · intro i hi rest
    match i, hi with
    | 0, _ =>
      have := labelAt_bs_ne (c := 'e') (by decide) rest
      simpa using this
    | 1, _ =>
      have := labelAt_cons_ne (c := 'e') (by decide) rest
      simpa using this
  · refine safeM_of_head (fun c hc t => labelAt_cons_ne ?_ t)
    rcases List.mem_append.mp hc with h | h
    · simp only [List.mem_cons, List.not_mem_nil, or_false] at h
      rcases h with rfl | rfl | rfl <;> decide
    · rcases List.mem_append.mp h with h2 | h2
      · exact cleanSeg_mem henv h2
      · simp only [List.mem_singleton] at h2
        subst h2
        decide

theorem safeE_endEnv_renderLabeled {env : Str} :
    ∀ (items : List (Str × Str)) {tail : Str},
      (∀ p ∈ items, cleanSeg p.1 = true ∧ plainStr p.2 = true) →
      SafeE (endEnvAt env) tail →
      SafeE (endEnvAt env) (renderLabeled items tail) := by
  intro items
  induction items with
  | nil => intro tail _ ht; simpa [renderLabeled] using ht
  | cons p rest ih =>
    intro tail hok ht
    obtain ⟨s, l⟩ := p
    have hcl := (hok (s, l) (by simp)).1
    have hpl := (hok (s, l) (by simp)).2
    rw [renderLabeled, List.append_assoc]
    exact safeE_append (safeE_endEnv_clean hcl)
      (safeE_append (safeE_endEnv_labelDir hpl)
        (ih (fun q hq => hok q (by simp [hq])) ht))

theorem safeE_endEnv_renderSame {env n : Str} (hn : plainStr n = true) :
    ∀ (items : List (Str × Str)) {tail : Str},
      (∀ p ∈ items, cleanSeg p.1 = true) →
      SafeE (endEnvAt env) tail →
      SafeE (endEnvAt env) (renderSame (eqNumSuffix n) items tail) := by
  intro items
  induction items with
  | nil => intro tail _ ht; simpa [renderSame] using ht
  | cons p rest ih =>
    intro tail hok ht
    obtain ⟨s, l⟩ := p
    have hcl := hok (s, l) (by simp)
    rw [renderSame, List.append_assoc]
    exact safeE_append (safeE_endEnv_clean hcl)
      (safeE_append (safeE_endEnv_suffix hn)
        (ih (fun q hq => hok q (by simp [hq])) ht))

theorem safeE_endEnv_renderNumbered {env : Str} :
    ∀ (items : List (Str × Str)) (ns : List Str) {tail : Str},
      (∀ p ∈ items, cleanSeg p.1 = true) →
      (∀ n ∈ ns, plainStr n = true) →
      SafeE (endEnvAt env) tail →
      SafeE (endEnvAt env) (renderNumbered items ns tail) := by
  intro items
  induction items with
  | nil => intro ns tail _ _ ht; simpa [renderNumbered] using ht
  | cons p rest ih =>
    intro ns tail hok hns ht
    obtain ⟨s, l⟩ := p
    cases ns with
    | nil => simpa [renderNumbered] using ht
    | cons n ns' =>
      have hcl := hok (s, l) (by simp)
      rw [renderNumbered, List.append_assoc]
      exact safeE_append (safeE_endEnv_clean hcl)
        (safeE_append (safeE_endEnv_suffix (hns n (by simp)))
          (ih ns' (fun q hq => hok q (by simp [hq])) (fun n2 hn2 => hns n2 (by simp [hn2])) ht))

/-! ## The label passes on structured block bodies -/

theorem reFind_labelAt_render :
    ∀ (items : List (Str × Str)) {tail : Str},
      (∀ p ∈ items, cleanSeg p.1 = true ∧ plainStr p.2 = true) →
      SafeM labelAt tail →
      reFind labelAt (renderLabeled items tail) = items.map Prod.snd := by
  intro items
  induction items with
  | nil =>
    intro tail _ htail
    simpa [renderLabeled] using reFind_safe_nil tail htail
  | cons p rest ih =>
    intro tail hok htail
    obtain ⟨s, l⟩ := p
    have hcl : cleanSeg s = true := (hok (s, l) (by simp)).1
    have hpl : plainStr l = true := (hok (s, l) (by simp)).2
    rw [renderLabeled, List.append_assoc]
    rw [reFind_append_safe _ (safeM_labelAt_clean hcl)]
    rw [reFind_match_front labelAt_consuming (labelDir_ne_nil l) (labelAt_dir hpl _)]
    rw [ih (fun q hq => hok q (by simp [hq])) htail]
    simp

theorem reSub_labels_all {rep : Str} :
    ∀ (items : List (Str × Str)) {tail : Str} {k : Nat},
      (∀ p ∈ items, cleanSeg p.1 = true ∧ plainStr p.2 = true) →
      SafeM labelAt tail → items.length ≤ k →
      reSub labelAt (fun _ => rep) (some k) (renderLabeled items tail) =
        renderSame rep items tail := by
  intro items
  induction items with
  | nil =>
    intro tail k _ htail _
    simpa [renderLabeled, renderSame] using reSub_safe_id tail htail
  | cons p rest ih =>
    intro tail k hok htail hk
    obtain ⟨s, l⟩ := p
    have hcl : cleanSeg s = true := (hok (s, l) (by simp)).1
    have hpl : plainStr l = true := (hok (s, l) (by simp)).2
    have hk0 : (some k : Option Nat) ≠ some 0 := by
      simp only [List.length_cons] at hk
      simp only [ne_eq, Option.some.injEq]
      omega
    rw [renderLabeled, List.append_assoc]
    rw [reSub_append_safe _ (safeM_labelAt_clean hcl)]
    rw [reSub_match_front labelAt_consuming (labelDir_ne_nil l) (labelAt_dir hpl _) hk0]
    have hdec : decCount (some k) = some (k - 1) := rfl
    rw [hdec]
    rw [ih (fun q hq => hok q (by simp [hq])) htail
      (by simp only [List.length_cons] at hk; omega)]
    simp [renderSame]

theorem alignLabelFold_render {lm : Str → Option Str} :
    ∀ (items : List (Str × Str)) (ns : List Str) (A : Str) {tail : Str},
      (∀ p ∈ items, cleanSeg p.1 = true ∧ plainStr p.2 = true) →
      SafeM labelAt A → SafeM labelAt tail →
      List.map (fun p => lm p.2) items = List.map some ns →
      (∀ n ∈ ns, plainStr n = true) →
      alignLabelFold lm (items.map Prod.snd) (A ++ renderLabeled items tail) =
        .ok (A ++ renderNumbered items ns tail) := by
  intro items
  induction items with
  | nil =>
    intro ns A tail _ _ _ hmap _
    cases ns with
    | nil => simp [alignLabelFold, renderLabeled, renderNumbered]
    | cons n ns' => simp at hmap
  | cons p rest ih =>
    intro ns A tail hok hA htail hmap hns
    obtain ⟨s, l⟩ := p
    cases ns with
    | nil => simp at hmap
    | cons n ns' =>
      simp only [List.map_cons, List.cons.injEq] at hmap
      obtain ⟨hlm, hmap'⟩ := hmap
      have hcl : cleanSeg s = true := (hok (s, l) (by simp)).1
      have hpl : plainStr l = true := (hok (s, l) (by simp)).2
      have hn : plainStr n = true := hns n (by simp)
      rw [show (((s, l) :: rest).map Prod.snd) = l :: rest.map Prod.snd from rfl]
      have hstep : alignLabelFold lm (l :: List.map Prod.snd rest)
          (A ++ renderLabeled ((s, l) :: rest) tail) =
          alignLabelFold lm (List.map Prod.snd rest)
            (reSub labelAt (fun _ => eqNumSuffix n) (some 1)
              (A ++ renderLabeled ((s, l) :: rest) tail)) := by
        rw [alignLabelFold]
        rw [hlm]
      rw [hstep]
      have hbuf : A ++ renderLabeled ((s, l) :: rest) tail =
          (A ++ s) ++ (labelDir l ++ renderLabeled rest tail) := by
        rw [renderLabeled]
        simp
      rw [hbuf]
      have hsub : reSub labelAt (fun _ => eqNumSuffix n) (some 1)
          ((A ++ s) ++ (labelDir l ++ renderLabeled rest tail)) =
          (A ++ s) ++ (eqNumSuffix n ++ renderLabeled rest tail) := by
        rw [reSub_append_safe _ (safeM_append hA (safeM_labelAt_clean hcl))]
        rw [reSub_match_front labelAt_consuming (labelDir_ne_nil l) (labelAt_dir hpl _)
          (by simp)]
        have hzero : decCount (some 1) = some 0 := rfl
        rw [hzero, reSub_zeroCount]
      rw [hsub]
      have hres := ih ns' ((A ++ s) ++ eqNumSuffix n)
        (fun q hq => hok q (by simp [hq]))
        (safeM_append (safeM_append hA (safeM_labelAt_clean hcl))
          (safeM_labelAt_suffix hn))
        htail hmap' (fun n2 hn2 => hns n2 (by simp [hn2]))
      rw [show (A ++ s) ++ (eqNumSuffix n ++ renderLabeled rest tail) =
          ((A ++ s) ++ eqNumSuffix n) ++ renderLabeled rest tail from by simp]
      rw [hres]
      rw [renderNumbered]
      simp

/-! ## The equation and align passes on structured blocks -/

theorem blk_as_marker_render (env : Str) (items : List (Str × Str)) (last : Str) :
    envBlock env (renderLabeled items last) =
      beginMarker env ++ renderLabeled items (last ++ endMarker env) := by
  rw [envBlock, List.append_assoc, renderLabeled_append]

theorem process_equation_render {lm : Str → Option Str} {s0 l1 : Str}
    {rest : List (Str × Str)} {last n1 : Str}
    (hok : ∀ p ∈ (s0, l1) :: rest, cleanSeg p.1 = true ∧ plainStr p.2 = true)
    (hlast : cleanSeg last = true) (hlm : lm l1 = some n1) (hn1 : plainStr n1 = true)
    (hcount : ((s0, l1) :: rest).length ≤ 16) :
    process_equation lm (envBlock equationEnv (renderLabeled ((s0, l1) :: rest) last)) =
      .ok (wrapEquationTpl (renderSame (eqNumSuffix n1) ((s0, l1) :: rest) last)) := by
  have hEnvClean : cleanSeg equationEnv = true := by decide
  have hEnvHead : headNonWs equationEnv = true := by decide
  have hEnvNe : equationEnv ≠ [] := by decide
  have htail : SafeM labelAt (last ++ endMarker equationEnv) :=
    safeM_append (safeM_labelAt_clean hlast) (safeM_labelAt_endMarker hEnvClean)
  have hfind : reFind labelAt
      (envBlock equationEnv (renderLabeled ((s0, l1) :: rest) last)) =
      l1 :: rest.map Prod.snd := by
    rw [blk_as_marker_render]
    rw [reFind_append_safe _ (safeM_labelAt_beginMarker hEnvClean)]
    rw [reFind_labelAt_render _ hok htail]
    simp
  have h1 : process_equation lm
      (envBlock equationEnv (renderLabeled ((s0, l1) :: rest) last)) =
      (match lm l1 with
       | none => Except.error (Err.keyError l1)
       | some n => Except.ok (wrapEquation (reSub labelAt (fun _ => eqNumSuffix n)
           (some 16) (envBlock equationEnv (renderLabeled ((s0, l1) :: rest) last))))) := by
    unfold process_equation
    rw [hfind]
  rw [h1, hlm]
  show Except.ok (wrapEquation (reSub labelAt (fun _ => eqNumSuffix n1) (some 16)
      (envBlock equationEnv (renderLabeled ((s0, l1) :: rest) last)))) =
    Except.ok (wrapEquationTpl (renderSame (eqNumSuffix n1) ((s0, l1) :: rest) last))
  have hsubB : reSub labelAt (fun _ => eqNumSuffix n1) (some 16)
      (envBlock equationEnv (renderLabeled ((s0, l1) :: rest) last)) =
      envBlock equationEnv (renderSame (eqNumSuffix n1) ((s0, l1) :: rest) last) := by
    rw [blk_as_marker_render]
    rw [reSub_append_safe _ (safeM_labelAt_beginMarker hEnvClean)]
    rw [reSub_labels_all _ hok htail hcount]
    rw [← renderSame_append]
    rw [envBlock]
    simp
  rw [hsubB]
  have hbodySafe : SafeE (endEnvAt equationEnv)
      (renderSame (eqNumSuffix n1) ((s0, l1) :: rest) last) :=
    safeE_endEnv_renderSame hn1 _ (fun q hq => (hok q hq).1) (safeE_endEnv_clean hlast)
  have hwrap : wrapEquation
      (envBlock equationEnv (renderSame (eqNumSuffix n1) ((s0, l1) :: rest) last)) =
      wrapEquationTpl (renderSame (eqNumSuffix n1) ((s0, l1) :: rest) last) := by
    unfold wrapEquation
    rw [← List.append_nil (envBlock equationEnv
      (renderSame (eqNumSuffix n1) ((s0, l1) :: rest) last))]
    rw [reSub_match_front (envInnerAt_consuming equationEnv) (envBlock_ne_nil _ _)
      (envInnerAt_block hEnvHead hEnvNe hbodySafe []) (by simp)]
    rw [reSub_nil]
    simp
  rw [hwrap]

theorem convert_equations_render {lm : Str → Option Str} {pre post s0 l1 : Str}
    {rest : List (Str × Str)} {last n1 : Str}
    (hpre : cleanSeg pre = true) (hpost : cleanSeg post = true)
    (hok : ∀ p ∈ (s0, l1) :: rest, cleanSeg p.1 = true ∧ plainStr p.2 = true)
    (hlast : cleanSeg last = true) (hlm : lm l1 = some n1) (hn1 : plainStr n1 = true)
    (hcount : ((s0, l1) :: rest).length ≤ 16) :
    convert_equations lm
      (pre ++ envBlock equationEnv (renderLabeled ((s0, l1) :: rest) last) ++ post) =
      .ok (pre ++ wrapEquationTpl (renderSame (eqNumSuffix n1) ((s0, l1) :: rest) last)
        ++ post) := by
  have hEnvHead : headNonWs equationEnv = true := by decide
  have hEnvNe : equationEnv ≠ [] := by decide
  have hbodySafe : SafeE (endEnvAt equationEnv) (renderLabeled ((s0, l1) :: rest) last) :=
    safeE_endEnv_renderLabeled _ hok (safeE_endEnv_clean hlast)
  have hsub : reSubE (envBlockAt equationEnv) (process_equation lm) (some 16)
      (pre ++ envBlock equationEnv (renderLabeled ((s0, l1) :: rest) last) ++ post) =
      .ok (pre ++ wrapEquationTpl (renderSame (eqNumSuffix n1) ((s0, l1) :: rest) last)
        ++ post) := by
    rw [List.append_assoc]
    rw [reSubE_append_safe _ (safeM_envBlock_clean hpre)]
    rw [reSubE_match_front (envBlockAt_consuming equationEnv) (envBlock_ne_nil _ _)
      (envBlockAt_block hEnvHead hEnvNe hbodySafe post) (by simp)]
    rw [process_equation_render hok hlast hlm hn1 hcount]
    rw [reSubE_safe_id post (safeM_envBlock_clean hpost)]
    simp [Except.map]
  unfold convert_equations
  rw [hsub]

theorem process_align_render {lm : Str → Option Str} {items : List (Str × Str)}
    {last : Str} {ns : List Str}
    (hok : ∀ p ∈ items, cleanSeg p.1 = true ∧ plainStr p.2 = true)
    (hlast : cleanSeg last = true)
    (hmap : List.map (fun p => lm p.2) items = List.map some ns)
    (hns : ∀ n ∈ ns, plainStr n = true) :
    process_align lm (envBlock alignEnv (renderLabeled items last)) =
      .ok (wrapAlignTpl (renderNumbered items ns last)) := by
  have hEnvClean : cleanSeg alignEnv = true := by decide
  have hEnvHead : headNonWs alignEnv = true := by decide
  have hEnvNe : alignEnv ≠ [] := by decide
  have htail : SafeM labelAt (last ++ endMarker alignEnv) :=
    safeM_append (safeM_labelAt_clean hlast) (safeM_labelAt_endMarker hEnvClean)
  have hfind : reFind labelAt (envBlock alignEnv (renderLabeled items last)) =
      items.map Prod.snd := by
    rw [blk_as_marker_render]
    rw [reFind_append_safe _ (safeM_labelAt_beginMarker hEnvClean)]
    rw [reFind_labelAt_render _ hok htail]
  have hfold : alignLabelFold lm (items.map Prod.snd)
      (envBlock alignEnv (renderLabeled items last)) =
      .ok (envBlock alignEnv (renderNumbered items ns last)) := by
    rw [blk_as_marker_render]
    rw [alignLabelFold_render items ns (beginMarker alignEnv) hok
      (safeM_labelAt_beginMarker hEnvClean) htail hmap hns]
    rw [← renderNumbered_append]
    rw [envBlock]
    simp
  have hbodySafe : SafeE (endEnvAt alignEnv) (renderNumbered items ns last) :=
    safeE_endEnv_renderNumbered _ ns (fun q hq => (hok q hq).1) hns
      (safeE_endEnv_clean hlast)
  have hwrap : reSub (envInnerAt alignEnv) wrapAlignTpl (some 16)
      (envBlock alignEnv (renderNumbered items ns last)) =
      wrapAlignTpl (renderNumbered items ns last) := by
    rw [← List.append_nil (envBlock alignEnv (renderNumbered items ns last))]
    rw [reSub_match_front (envInnerAt_consuming alignEnv) (envBlock_ne_nil _ _)
      (envInnerAt_block hEnvHead hEnvNe hbodySafe []) (by simp)]
    rw [reSub_nil]
    simp
  unfold process_align
  rw [hfind, hfold]
  show Except.ok (reSub (envInnerAt alignEnv) wrapAlignTpl (some 16)
      (envBlock alignEnv (renderNumbered items ns last))) =
    Except.ok (wrapAlignTpl (renderNumbered items ns last))
  rw [hwrap]

theorem convert_aligned_render {lm : Str → Option Str} {pre post : Str}
    {items : List (Str × Str)} {last : Str} {ns : List Str}
    (hpre : cleanSeg pre = true) (hpost : cleanSeg post = true)
    (hok : ∀ p ∈ items, cleanSeg p.1 = true ∧ plainStr p.2 = true)
    (hlast : cleanSeg last = true)
    (hmap : List.map (fun p => lm p.2) items = List.map some ns)
    (hns : ∀ n ∈ ns, plainStr n = true) :
    convert_aligned lm (pre ++ envBlock alignEnv (renderLabeled items last) ++ post) =
      .ok (pre ++ wrapAlignTpl (renderNumbered items ns last) ++ post) := by
  have hEnvHead : headNonWs alignEnv = true := by decide
  have hEnvNe : alignEnv ≠ [] := by decide
  have hbodySafe : SafeE (endEnvAt alignEnv) (renderLabeled items last) :=
    safeE_endEnv_renderLabeled _ hok (safeE_endEnv_clean hlast)
  have hsub : reSubE (envBlockAt alignEnv) (process_align lm) (some 16)
      (pre ++ envBlock alignEnv (renderLabeled items last) ++ post) =
      .ok (pre ++ wrapAlignTpl (renderNumbered items ns last) ++ post) := by
    rw [List.append_assoc]
    rw [reSubE_append_safe _ (safeM_envBlock_clean hpre)]
    rw [reSubE_match_front (envBlockAt_consuming alignEnv) (envBlock_ne_nil _ _)
      (envBlockAt_block hEnvHead hEnvNe hbodySafe post) (by simp)]
    rw [process_align_render hok hlast hmap hns]
    rw [reSubE_safe_id post (safeM_envBlock_clean hpost)]
    simp [Except.map]
  unfold convert_aligned
  rw [hsub]

/-! ## Body extraction: pattern miss is a no-op -/

theorem greedyToLastEnd_none {s : Str} (h : hasEndMark s = false) :
    greedyToLastEnd s = none := by
  induction s with
  | nil => rfl
  | cons c r ih =>
    simp only [hasEndMark, Bool.or_eq_false_iff] at h
    have hend : docEndAt (c :: r) = none := by
      cases hq : docEndAt (c :: r)
      · rfl
      · rw [hq] at h
        simp at h
    simp [greedyToLastEnd, ih h.2, hend]

theorem findDocSpan_none {b : Str} (h : hasDocPair b = false) : findDocSpan b = none := by
  induction b with
  | nil => rfl
  | cons c r ih =>
    simp only [hasDocPair, Bool.or_eq_false_iff] at h
    obtain ⟨h1, h2⟩ := h
    cases hq : docBeginAt (c :: r) with
    | none => simp [findDocSpan, hq, ih h2]
    | some after =>
      rw [hq] at h1
      have : hasEndMark after = false := h1
      simp [findDocSpan, hq, greedyToLastEnd_none this, ih h2]

/-- C7: when the buffer contains no document-start/document-end marker pair,
the body-extraction pass leaves the buffer byte-identical (the pattern miss
is the caught `IndexError`, a no-op, not an error). -/
theorem claim7_extract_miss {b : Str} (h : hasDocPair b = false) :
    extract_text b = b := by
  unfold extract_text
  rw [findDocSpan_none h]

/-- Witness for C7 at a concrete marker-free buffer. -/
theorem claim7_witness :
    hasDocPair (strL ("no markers here $x$ \\title{t}")) = false ∧
    extract_text (strL ("no markers here $x$ \\title{t}")) =
      strL ("no markers here $x$ \\title{t}") :=
  ⟨by decide, claim7_extract_miss (by decide)⟩

/-! ## C2: the equation-number suffix -/

/-- C2 (counterexample): the formatted numeric suffix the code inserts is five
backslash-space pairs, not four plain spaces.  At this input the pass succeeds
and its output contains `\ \ \ \ \ (1)` and no occurrence of `    (1)`. -/
theorem claim2_counterexample :
    convert_equations lmAB (strL ("\\begin{equation}x=y \\label{a}\\end{equation}")) =
      .ok (strL ("<p align=\"center\"> \n $latex \\displaystyle x=y \\ \\ \\ \\ \\ (1) $</p>")) ∧
    occursIn (strL ("    (1)"))
      (strL ("<p align=\"center\"> \n $latex \\displaystyle x=y \\ \\ \\ \\ \\ (1) $</p>")) = false ∧
    occursIn (strL ("\\ \\ \\ \\ \\ (1)"))
      (strL ("<p align=\"center\"> \n $latex \\displaystyle x=y \\ \\ \\ \\ \\ (1) $</p>")) = true := by
  refine ⟨by rfl, by decide, by decide⟩

/-- C2 (amended): for an equation block whose first embedded label is present
in the table, the label reference inside the block is replaced by the
formatted numeric suffix consisting of five escaped spaces (backslash-space
pairs) followed by the label's number in parentheses, and the block is
wrapped. -/
theorem claim2_amended {lm : Str → Option Str} {pre post s0 s1 l n : Str}
    (hpre : cleanSeg pre = true) (hpost : cleanSeg post = true)
    (hs0 : cleanSeg s0 = true) (hs1 : cleanSeg s1 = true)
    (hl : plainStr l = true) (hn : plainStr n = true) (hlm : lm l = some n) :
    convert_equations lm
      (pre ++ envBlock equationEnv (s0 ++ labelDir l ++ s1) ++ post) =
      .ok (pre ++ wrapEquationTpl (s0 ++ eqNumSuffix n ++ s1) ++ post) := by
  have h := @convert_equations_render lm pre post s0 l [] s1 n
    hpre hpost (by
      intro p hp
      simp only [List.mem_singleton] at hp
      subst hp
      exact ⟨hs0, hl⟩)
    hs1 hlm hn (by simp)
  simpa [renderLabeled, renderSame] using h

/-- Witness for C2 (amended) at a concrete equation block. -/
theorem claim2_witness :
    convert_equations lmAB
      (strL ("pre ") ++ envBlock equationEnv
        (strL ("x=y ") ++ labelDir (strL ("a")) ++ []) ++ strL (" post")) =
      .ok (strL ("pre ") ++ wrapEquationTpl
        (strL ("x=y ") ++ eqNumSuffix (strL ("1")) ++ []) ++ strL (" post")) :=
  claim2_amended (by decide) (by decide) (by decide) (by decide) (by decide)
    (by decide) (by decide)

/-! ## C10: multiple labels in one equation block -/

/-- C10 (counterexample to the unrestricted claim): `re.sub` is called with
`re.DOTALL` (= 16) in the positional `count` slot, so at most the first 16
label references of an equation block are replaced; in a block with 17 the
17th `\label` survives into the output, refuting "every label reference in
the block is replaced". -/
theorem claim10_counterexample :
    (match convert_equations lmAB
        (envBlock equationEnv
          (renderLabeled (List.replicate 17 ([], strL ("a"))) [])) with
      | .ok w => occursIn (labelDir (strL ("a"))) w
      | .error _ => false) = true := by
  decide

/-- C10 (amended): in an equation block with several label references only
the first label is looked up, and the label references in the block — all of
them when there are at most 16, the cap the positional-`re.DOTALL` count
puts on the substitution, which the hypothesis makes explicit; beyond 16 the
later ones survive — are replaced with the number assigned to that first
label; the table is never consulted on the later labels (the hypotheses
constrain `lm` only at `l1`). -/
theorem claim10_amended {lm : Str → Option Str} {pre post s0 l1 : Str}
    {rest : List (Str × Str)} {last n1 : Str}
    (hrest : rest ≠ [])
    (hpre : cleanSeg pre = true) (hpost : cleanSeg post = true)
    (hok : ∀ p ∈ (s0, l1) :: rest, cleanSeg p.1 = true ∧ plainStr p.2 = true)
    (hlast : cleanSeg last = true) (hlm : lm l1 = some n1) (hn1 : plainStr n1 = true)
    (hcount : ((s0, l1) :: rest).length ≤ 16) :
    convert_equations lm
      (pre ++ envBlock equationEnv (renderLabeled ((s0, l1) :: rest) last) ++ post) =
      .ok (pre ++ wrapEquationTpl (renderSame (eqNumSuffix n1) ((s0, l1) :: rest) last)
        ++ post) :=
  convert_equations_render hpre hpost hok hlast hlm hn1 hcount

/-- Witness for C10 (amended): a block with labels `a` and `zz`; the table
defines only `a`, and both references are replaced by the number of `a`. -/
theorem claim10_witness :
    convert_equations lmAB
      ([] ++ envBlock equationEnv
        (renderLabeled [(strL ("x "), strL ("a")), (strL (" y "), strL ("zz"))]
          (strL (" z"))) ++ []) =
      .ok ([] ++ wrapEquationTpl
        (renderSame (eqNumSuffix (strL ("1")))
          [(strL ("x "), strL ("a")), (strL (" y "), strL ("zz"))] (strL (" z"))) ++ []) :=
  claim10_amended (by decide) (by decide) (by decide)
    (by
      intro p hp
      simp only [List.mem_cons, List.not_mem_nil, or_false] at hp
      rcases hp with rfl | rfl <;> exact ⟨by decide, by decide⟩)
    (by decide) (by decide) (by decide) (by decide)

/-! ## C3: aligned blocks number labels in order -/

/-- C3: an align block with N label references, all present in the table, is
numbered left to right: the i-th reference is replaced (one `count=1`
substitution per label) by the suffix of the i-th extracted label's number. -/
theorem claim3_align_numbering {lm : Str → Option Str} {pre post : Str}
    {items : List (Str × Str)} {last : Str} {ns : List Str}
    (hpre : cleanSeg pre = true) (hpost : cleanSeg post = true)
    (hok : ∀ p ∈ items, cleanSeg p.1 = true ∧ plainStr p.2 = true)
    (hlast : cleanSeg last = true)
    (hmap : List.map (fun p => lm p.2) items = List.map some ns)
    (hns : ∀ n ∈ ns, plainStr n = true) :
    convert_aligned lm (pre ++ envBlock alignEnv (renderLabeled items last) ++ post) =
      .ok (pre ++ wrapAlignTpl (renderNumbered items ns last) ++ post) :=
  convert_aligned_render hpre hpost hok hlast hmap hns

/-- Witness for C3: two labels `a` and `b` are numbered 1 and 2 respectively. -/
theorem claim3_witness :
    convert_aligned lmAB
      (strL ("s ") ++ envBlock alignEnv
        (renderLabeled [(strL ("x "), strL ("a")), (strL (" y "), strL ("b"))]
          (strL (" z"))) ++ strL (" t")) =
      .ok (strL ("s ") ++ wrapAlignTpl
        (renderNumbered [(strL ("x "), strL ("a")), (strL (" y "), strL ("b"))]
          [strL ("1"), strL ("2")] (strL (" z"))) ++ strL (" t")) :=
  claim3_align_numbering (by decide) (by decide)
    (by
      intro p hp
      simp only [List.mem_cons, List.not_mem_nil, or_false] at hp
      rcases hp with rfl | rfl <;> exact ⟨by decide, by decide⟩)
    (by decide) (by decide)
    (by
      intro n hn
      simp only [List.mem_cons, List.not_mem_nil, or_false] at hn
      rcases hn with rfl | rfl <;> decide)

/-! ## C5: atomicity of passes -/

/-- C5 (counterexample): the reference pass is not atomic.  With label `zz`
missing, the pass aborts with the buffer already partially rewritten — the
first reference was substituted before the failing lookup. -/
theorem claim5_counterexample :
    convert_references lmAB (strL ("see \\eqref{a} and \\eqref{zz} end")) =
      .error (Err.keyError (strL ("zz")), strL ("see (1) and \\eqref{zz} end")) ∧
    strL ("see (1) and \\eqref{zz} end") ≠ strL ("see \\eqref{a} and \\eqref{zz} end") := by
  refine ⟨by rfl, by decide⟩

/-- C5 (amended): the single-substitution passes are atomic — when the
equation or align pass aborts with a lookup failure, the buffer it carries is
exactly its input — but the reference pass may abort with a partially
rewritten buffer. -/
theorem claim5_amended (lm : Str → Option Str) (b : Str) :
    (∀ e w, convert_equations lm b = .error (e, w) → w = b) ∧
    (∀ e w, convert_aligned lm b = .error (e, w) → w = b) := by
  constructor
  · intro e w h
    unfold convert_equations at h
    cases hres : reSubE (envBlockAt equationEnv) (process_equation lm) (some 16) b with
    | ok w2 => rw [hres] at h; cases h
    | error e2 =>
      rw [hres] at h
      simp only [Except.error.injEq, Prod.mk.injEq] at h
      exact h.2.symm
  · intro e w h
    unfold convert_aligned at h
    cases hres : reSubE (envBlockAt alignEnv) (process_align lm) (some 16) b with
    | ok w2 => rw [hres] at h; cases h
    | error e2 =>
      rw [hres] at h
      simp only [Except.error.injEq, Prod.mk.injEq] at h
      exact h.2.symm

/-- Witness for C5 (amended): a concrete failing equation pass carries its
unchanged input buffer. -/
theorem claim5_witness :
    convert_equations (fun _ => none) (envBlock equationEnv (labelDir (strL ("z")))) =
      .error (Err.keyError (strL ("z")), envBlock equationEnv (labelDir (strL ("z")))) ∧
    envBlock equationEnv (labelDir (strL ("z"))) =
      envBlock equationEnv (labelDir (strL ("z"))) :=
  ⟨by rfl, (claim5_amended (fun _ => none) (envBlock equationEnv
    (labelDir (strL ("z"))))).1 (Err.keyError (strL ("z")))
    (envBlock equationEnv (labelDir (strL ("z")))) (by rfl)⟩

/-! ## C8: title stripping removes more than the first occurrence -/

/-- C8 (counterexample): with two title declarations the pass removes both —
the claimed "any further occurrences remain" is false (the positional
`re.DOTALL` is `count=16`, not a flag). -/
theorem claim8_counterexample :
    strip_title_elements (strL ("\\title{a}\n\\title{b}\nrest")) = strL ("\n\nrest") ∧
    occursIn (strL ("\\title{b}")) (strL ("\n\nrest")) = false := by
  refine ⟨by decide, by decide⟩

/-! ## C9: the formatting rewrites are not order-insensitive -/

/-- C9 (counterexample): on a hyperlink nested in an emphasis directive the
six orders disagree: emphasis-first mangles the hyperlink, hyperlink-first
resolves both. -/
theorem claim9_counterexample :
    hrefSub (bfSub (emSub (strL ("\x7b\\em \\href\x7bu\x7d\x7bt\x7d\x7d")))) ≠
      emSub (bfSub (hrefSub (strL ("\x7b\\em \\href\x7bu\x7d\x7bt\x7d\x7d")))) := by
  decide

/-! ## String-escaped literals behave as literal patterns -/

theorem patMatchAt_esc (q : Char) (ps2 s : Str) :
    patMatchAt ('\\' :: q :: ps2) s =
      match s with
      | [] => none
      | d :: ds => if escChar q = d then patMatchAt ps2 ds else none := by
  cases s <;> simp [patMatchAt]

theorem patMatchAt_lit {p : Char} (ps2 s : Str) (h1 : ¬ p = '\\') (h2 : ¬ p = '.') :
    patMatchAt (p :: ps2) s =
      match s with
      | [] => none
      | d :: ds => if p = d then patMatchAt ps2 ds else none := by
  cases ps2 with
  | nil =>
    cases s with
    | nil => rw [patMatchAt.eq_2, if_neg h1, if_neg h2]
    | cons d ds => rw [patMatchAt.eq_3, if_neg h1, if_neg h2]
  | cons q ps3 =>
    cases s with
    | nil => rw [patMatchAt.eq_4, if_neg h1, if_neg h2]
    | cons d ds => rw [patMatchAt.eq_5, if_neg h1, if_neg h2]

theorem patMatch_litPat :
    ∀ (u : Str), (∀ c ∈ u, ¬ c = '.') →
      ∀ s, patMatchAt (stringEscape u) s = startsWith u s := by
  intro u
  induction u with
  | nil => intro _ s; rfl
  | cons c cs ih =>
    intro hu s
    have ih' := ih (fun d hd => hu d (by simp [hd]))
    have hdot : ¬ c = '.' := hu c (by simp)
    have key : ∀ q : Char, escChar q = c →
        patMatchAt ('\\' :: q :: stringEscape cs) s = startsWith (c :: cs) s := by
      intro q hq
      rw [patMatchAt_esc, hq]
      cases s with
      | nil => simp [startsWith]
      | cons d ds =>
        simp only [startsWith]
        by_cases hd : c = d
        · rw [if_pos hd, if_pos hd, ih']
        · rw [if_neg hd, if_neg hd]
    by_cases h1 : c = '\\'
    · subst h1
      rw [show stringEscape ('\\' :: cs) = '\\' :: '\\' :: stringEscape cs from by
        simp [stringEscape]]
      exact key '\\' (by decide)
    by_cases h2 : c = '\n'
    · subst h2
      rw [show stringEscape ('\n' :: cs) = '\\' :: 'n' :: stringEscape cs from by
        simp [stringEscape]]
      exact key 'n' (by decide)
    by_cases h3 : c = '\t'
    · subst h3
      rw [show stringEscape ('\t' :: cs) = '\\' :: 't' :: stringEscape cs from by
        simp [stringEscape]]
      exact key 't' (by decide)
    by_cases h4 : c = '\r'
    · subst h4
      rw [show stringEscape ('\r' :: cs) = '\\' :: 'r' :: stringEscape cs from by
        simp [stringEscape]]
      exact key 'r' (by decide)
    by_cases h5 : c.toNat = 39
    · rw [show stringEscape (c :: cs) = '\\' :: c :: stringEscape cs from by
        simp [stringEscape, h1, h2, h3, h4, h5]]
      refine key c ?_
      unfold escChar
      have hn : ¬ c = 'n' := by
        intro hcon
        rw [hcon] at h5
        exact absurd h5 (by decide)
      have ht : ¬ c = 't' := by
        intro hcon
        rw [hcon] at h5
        exact absurd h5 (by decide)
      have hr : ¬ c = 'r' := by
        intro hcon
        rw [hcon] at h5
        exact absurd h5 (by decide)
      simp [hn, ht, hr]
    · rw [show stringEscape (c :: cs) = c :: stringEscape cs from by
        simp [stringEscape, h1, h2, h3, h4, h5]]
      rw [patMatchAt_lit _ _ h1 hdot]
      cases s with
      | nil => simp [startsWith]
      | cons d ds =>
        simp only [startsWith]
        by_cases hd : c = d
        · rw [if_pos hd, if_pos hd, ih']
        · rw [if_neg hd, if_neg hd]

theorem escLitAt_lit {u : Str} (hu : ∀ c ∈ u, ¬ c = '.') (s : Str) :
    escLitAt u s =
      match startsWith u s with
      | none => none
      | some r => some (List.take (s.length - r.length) s, r) := by
  unfold escLitAt
  rw [patMatch_litPat u hu s]

theorem escLitAt_self {u : Str} (hu : ∀ c ∈ u, ¬ c = '.') (t : Str) :
    escLitAt u (u ++ t) = some (u, t) := by
  rw [escLitAt_lit hu, startsWith_self]
  show some (List.take ((u ++ t).length - t.length) (u ++ t), t) = some (u, t)
  rw [take_len_append]

theorem escLitAt_none {u s : Str} (hu : ∀ c ∈ u, ¬ c = '.')
    (h : startsWith u s = none) : escLitAt u s = none := by
  rw [escLitAt_lit hu, h]

theorem escLitAt_matchText {u s g r : Str} (hu : ∀ c ∈ u, ¬ c = '.')
    (h : escLitAt u s = some (g, r)) : g = u ∧ s = u ++ r := by
  rw [escLitAt_lit hu] at h
  cases hq : startsWith u s with
  | none => rw [hq] at h; cases h
  | some r2 =>
    have h' : some (List.take (s.length - r2.length) s, r2) = some (g, r) := by
      rw [hq] at h
      exact h
    simp only [Option.some.injEq, Prod.mk.injEq] at h'
    obtain ⟨hg, hr⟩ := h'
    subst hr
    have hs := startsWith_split hq
    constructor
    · rw [← hg, hs, take_len_append]
    · exact hs

theorem escLit_consuming {u : Str} (hu : ∀ c ∈ u, ¬ c = '.') (hne : u ≠ []) :
    Consuming (escLitAt u) := by
  intro s g r h
  obtain ⟨_, hs⟩ := escLitAt_matchText hu h
  rw [hs]
  simp only [List.length_append]
  cases u with
  | nil => exact absurd rfl hne
  | cons a b => simp

/-! ## Literal occurrence facts -/

theorem occursIn_of_startsWith {p s r : Str} (h : startsWith p s = some r) :
    occursIn p s = true := by
  cases s with
  | nil => simp [occursIn, h]
  | cons c cs => simp [occursIn, h]

theorem occursIn_tail_false {p : Str} {c : Char} {s : Str}
    (h : occursIn p (c :: s) = false) : occursIn p s = false := by
  simp only [occursIn, Bool.or_eq_false_iff] at h
  exact h.2

theorem occursIn_head_none {p : Str} {c : Char} {s : Str}
    (h : occursIn p (c :: s) = false) : startsWith p (c :: s) = none := by
  simp only [occursIn, Bool.or_eq_false_iff] at h
  cases hq : startsWith p (c :: s) with
  | none => rfl
  | some r =>
    have := h.1
    rw [hq] at this
    simp at this

theorem occursIn_nil_pat (s : Str) : occursIn [] s = true := by
  cases s <;> simp [occursIn, startsWith]

theorem startsWith_of_append {n a y r : Str} (h : startsWith n (a ++ y) = some r)
    (hlen : n.length ≤ a.length) : ∃ r2, startsWith n a = some r2 := by
  induction n generalizing a with
  | nil => exact ⟨a, rfl⟩
  | cons p ps ih =>
    cases a with
    | nil => simp at hlen
    | cons d ds =>
      rw [List.cons_append] at h
      simp only [startsWith] at h ⊢
      by_cases hp : p = d
      · rw [if_pos hp] at h ⊢
        exact ih h (by simpa using hlen)
      · rw [if_neg hp] at h
        cases h

theorem dropLast_cons_ne {c : Char} {l : Str} (hl : l ≠ []) :
    (c :: l).dropLast = c :: l.dropLast := by
  cases l with
  | nil => exact absurd rfl hl
  | cons d ds => rfl

theorem dropLast_append_ne {a n : Str} (hn : n ≠ []) :
    (a ++ n).dropLast = a ++ n.dropLast := by
  induction a with
  | nil => simp
  | cons c a' ih =>
    have hne2 : a' ++ n ≠ [] := by
      intro hcon
      rw [List.append_eq_nil] at hcon
      exact hn hcon.2
    rw [List.cons_append, dropLast_cons_ne hne2, ih]
    rfl

/-! ## Macro substitution: untouched buffers and leftmost replacement -/

theorem reSub_escLit_noocc {n b : Str} (hn : ∀ c ∈ n, ¬ c = '.') :
    ∀ s, occursIn n s = false → reSub (escLitAt n) (fun _ => b) none s = s := by
  intro s
  induction s with
  | nil => intro _; rfl
  | cons c cs ih =>
    intro h
    rw [reSub_cons_none (escLitAt_none hn (occursIn_head_none h)) (by simp)]
    rw [ih (occursIn_tail_false h)]

theorem convert_newcommands_noocc :
    ∀ (nm : List (Str × Str)) (bf : Str),
      (∀ p ∈ nm, (∀ c ∈ p.1, ¬ c = '.') ∧ occursIn p.1 bf = false) →
      convert_newcommands nm bf = bf := by
  intro nm
  induction nm with
  | nil => intro bf _; rfl
  | cons p rest ih =>
    intro bf h
    show convert_newcommands rest (reSub (escLitAt p.1) (fun _ => p.2) none bf) = bf
    rw [reSub_escLit_noocc (h p (by simp)).1 bf (h p (by simp)).2]
    exact ih bf (fun q hq => h q (by simp [hq]))

theorem reSub_escLit_leftmost {n b : Str} (hn : ∀ c ∈ n, ¬ c = '.') :
    ∀ x y, occursIn n (List.dropLast (x ++ n)) = false →
      reSub (escLitAt n) (fun _ => b) none (x ++ n ++ y) =
        x ++ b ++ reSub (escLitAt n) (fun _ => b) none y := by
  intro x
  induction x with
  | nil =>
    intro y h
    have hne : n ≠ [] := by
      intro hcon
      subst hcon
      rw [occursIn_nil_pat] at h
      cases h
    rw [List.nil_append]
    rw [reSub_match_front (escLit_consuming hn hne) hne (escLitAt_self hn y) (by simp)]
    simp [decCount]
  | cons c x' ih =>
    intro y h
    have hne : n ≠ [] := by
      intro hcon
      subst hcon
      rw [occursIn_nil_pat] at h
      cases h
    have hxn : x' ++ n ≠ [] := by
      intro hcon
      rw [List.append_eq_nil] at hcon
      exact hne hcon.2
    have hdl : List.dropLast ((c :: x') ++ n) = c :: List.dropLast (x' ++ n) := by
      rw [List.cons_append, dropLast_cons_ne hxn]
    have htail : occursIn n (List.dropLast (x' ++ n)) = false := by
      rw [hdl] at h
      exact occursIn_tail_false h
    have hnone : escLitAt n ((c :: x') ++ n ++ y) = none := by
      apply escLitAt_none hn
      cases hq : startsWith n ((c :: x') ++ n ++ y) with
      | none => rfl
      | some r =>
        exfalso
        have hrw : (c :: x') ++ n ++ y =
            ((c :: x') ++ n.dropLast) ++ (n.getLast hne :: y) := by
          conv_lhs => rw [show n = n.dropLast ++ [n.getLast hne] from
            (List.dropLast_append_getLast hne).symm]
          simp
        rw [hrw] at hq
        have hlen : n.length ≤ ((c :: x') ++ n.dropLast).length := by
          simp only [List.length_append, List.length_cons, List.length_dropLast]
          cases n with
          | nil => exact absurd rfl hne
          | cons a as => simp; omega
        obtain ⟨r2, hr2⟩ := startsWith_of_append hq hlen
        have hoc := occursIn_of_startsWith hr2
        rw [dropLast_append_ne hne] at h
        rw [show (c :: x') ++ n.dropLast = c :: (x' ++ n.dropLast) from by simp] at hoc h
        rw [hoc] at h
        cases h
    have hshape : (c :: x') ++ n ++ y = c :: (x' ++ n ++ y) := by simp
    rw [hshape]
    rw [reSub_cons_none (by rw [← hshape]; exact hnone) (by simp)]
    rw [ih y htail]
    simp

/-! ## C4: macro substitution -/

/-- C4 (counterexample): a macro name that is a prefix of a longer token does
alter that token: with the macro `\foo` mapped to `X`, the buffer `\foobar`
(whose token is absent from the table) becomes `Xbar`. -/
theorem claim4_counterexample :
    convert_newcommands [(strL ("\\foo"), strL ("X"))] (strL ("\\foobar")) =
      strL ("Xbar") ∧
    strL ("Xbar") ≠ strL ("\\foobar") := by
  refine ⟨by rfl, by decide⟩

/-- C4 (amended): macro substitution replaces the literal occurrences of each
macro name with its body — a buffer containing no occurrence of any macro
name is left untouched, and the leftmost occurrence of a name is replaced
with scanning continuing after the replacement — but a backslash-prefixed
token absent from the table is NOT protected: any embedded occurrence of a
macro name inside it (for instance as a prefix) is replaced as well. -/
theorem claim4_amended :
    (∀ (nm : List (Str × Str)) (bf : Str),
      (∀ p ∈ nm, (∀ c ∈ p.1, ¬ c = '.') ∧ occursIn p.1 bf = false) →
      convert_newcommands nm bf = bf) ∧
    (∀ (n b x y : Str), (∀ c ∈ n, ¬ c = '.') →
      occursIn n (List.dropLast (x ++ n)) = false →
      reSub (escLitAt n) (fun _ => b) none (x ++ n ++ y) =
        x ++ b ++ reSub (escLitAt n) (fun _ => b) none y) :=
  ⟨convert_newcommands_noocc, fun n b x y hn h => reSub_escLit_leftmost hn x y h⟩

/-- Witness for C4 (amended) at concrete macro tables and buffers. -/
theorem claim4_witness :
    convert_newcommands [(strL ("\\foo"), strL ("X"))] (strL ("no macros here")) =
      strL ("no macros here") ∧
    reSub (escLitAt (strL ("\\foo"))) (fun _ => strL ("X")) none
      (strL ("say ") ++ strL ("\\foo") ++ strL (" end")) =
      strL ("say ") ++ strL ("X") ++
        reSub (escLitAt (strL ("\\foo"))) (fun _ => strL ("X")) none (strL (" end")) :=
  ⟨claim4_amended.1 [(strL ("\\foo"), strL ("X"))] (strL ("no macros here"))
      (by
        intro p hp
        simp only [List.mem_singleton] at hp
        subst hp
        exact ⟨by decide, by decide⟩),
    claim4_amended.2 (strL ("\\foo")) (strL ("X")) (strL ("say ")) (strL (" end"))
      (by decide) (by decide)⟩

/-! ## Reference directives: matcher computations -/

theorem lastNonWs_of_plain {l : Str} (hl : plainStr l = true) : lastNonWs l = true := by
  induction l with
  | nil => rfl
  | cons c l2 ih =>
    cases l2 with
    | nil =>
      have hc := List.all_eq_true.mp hl c (by simp)
      simp [lastNonWs, (plainChar_spec hc).2.2.2.2.1]
    | cons d l3 =>
      rw [lastNonWs_cons_cons]
      exact ih (by
        rw [plainStr, List.all_eq_true]
        intro x hx
        exact List.all_eq_true.mp hl x (by simp [hx]))

theorem skipWs_plain_front {l : Str} (hl : plainStr l = true) (t : Str) :
    skipWs (l ++ '}' :: t) = l ++ '}' :: t := by
  cases l with
  | nil => exact skipWs_nws (by decide) t
  | cons c l2 =>
    have hc := List.all_eq_true.mp hl c (by simp)
    rw [List.cons_append]
    exact skipWs_nws (plainChar_spec hc).2.2.2.2.1 _

theorem mkRef_ne_nil (tag l : Str) : mkRef tag l ≠ [] := by simp [mkRef]

theorem mkRef_no_dot {tag l : Str} (htag : ∀ c ∈ tag, ¬ c = '.')
    (hl : plainStr l = true) : ∀ c ∈ mkRef tag l, ¬ c = '.' := by
  intro c hc
  simp only [mkRef, List.mem_cons, List.mem_append, List.mem_singleton] at hc
  rcases hc with rfl | hc | rfl | hc | rfl | hc
  · decide
  · exact htag c hc
  · decide
  · exact (plainChar_spec (List.all_eq_true.mp hl c hc)).2.2.2.1
  · decide
  · simp at hc

theorem refLabelAt_mkRef {tag l : Str} (hl : plainStr l = true) (t : Str) :
    refLabelAt tag (mkRef tag l ++ t) = some (l, t) := by
  have hchars : ∀ c ∈ l, ¬ c = '}' := by
    intro c hc
    exact (plainChar_spec (List.all_eq_true.mp hl c hc)).2.2.1
  have h0 : mkRef tag l ++ t = ('\\' :: tag) ++ ('{' :: (l ++ '}' :: t)) := by
    simp [mkRef]
  rw [h0]
  unfold refLabelAt
  rw [startsWith_self]
  show (match skipWs ('{' :: (l ++ '}' :: t)) with
      | [] => none
      | c :: r2 => if c = '{' then lazyTrimBrace (skipWs r2) else none) = some (l, t)
  rw [skipWs_nws (by decide)]
  show (if '{' = '{' then lazyTrimBrace (skipWs (l ++ '}' :: t)) else none) = some (l, t)
  rw [if_pos rfl, skipWs_plain_front hl]
  exact lazyTrimBrace_append hchars (lastNonWs_of_plain hl) t

theorem skipWs_length_le (s : Str) : (skipWs s).length ≤ s.length := by
  obtain ⟨w, hw⟩ := skipWs_split s
  conv_rhs => rw [hw]
  simp

theorem refLabelAt_consuming (tag : Str) : Consuming (refLabelAt tag) := by
  intro s g r h
  unfold refLabelAt at h
  cases h1 : startsWith ('\\' :: tag) s with
  | none => rw [h1] at h; cases h
  | some r1 =>
    have h' : (match skipWs r1 with
        | [] => none
        | c :: r2 => if c = '{' then lazyTrimBrace (skipWs r2) else none) =
        some (g, r) := by
      rw [h1] at h
      exact h
    cases h2 : skipWs r1 with
    | nil => rw [h2] at h'; cases h'
    | cons c r2 =>
      have h'' : (if c = '{' then lazyTrimBrace (skipWs r2) else none) = some (g, r) := by
        rw [h2] at h'
        exact h'
      by_cases hc : c = '{'
      · rw [if_pos hc] at h''
        have hs := startsWith_split h1
        obtain ⟨u, hlz⟩ := lazyTrimBrace_split h''
        have hr1 : (c :: r2).length ≤ r1.length := by
          rw [← h2]
          exact skipWs_length_le r1
        have hr2 : (g ++ u ++ '}' :: r).length ≤ r2.length := by
          rw [← hlz]
          exact skipWs_length_le r2
        rw [hs]
        simp only [List.length_cons, List.length_append] at hr1 hr2 ⊢
        omega
      · rw [if_neg hc] at h''; cases h''

theorem refInstAt_mkRef {tag l : Str} (hl : plainStr l = true) (t : Str) :
    refInstAt tag (mkRef tag l ++ t) = some (mkRef tag l, t) := by
  have hchars : ∀ c ∈ l, ¬ c = '}' ∧ ¬ c = '\n' := by
    intro c hc
    have hp := List.all_eq_true.mp hl c hc
    exact ⟨(plainChar_spec hp).2.2.1, plainChar_not_nl hp⟩
  have h0 : mkRef tag l ++ t = ('\\' :: tag) ++ ('{' :: (l ++ '}' :: t)) := by
    simp [mkRef]
  unfold refInstAt
  rw [h0, startsWith_self]
  show (match '{' :: (l ++ '}' :: t) with
      | [] => none
      | c :: r =>
        if c = '{' then
          match lazyBrace r with
          | some (_, rest) =>
            some (List.take ((('\\' :: tag) ++ ('{' :: (l ++ '}' :: t))).length -
              rest.length) (('\\' :: tag) ++ ('{' :: (l ++ '}' :: t))), rest)
          | none => none
        else none) = some (mkRef tag l, t)
  show (if '{' = '{' then
      match lazyBrace (l ++ '}' :: t) with
      | some (_, rest) =>
        some (List.take ((('\\' :: tag) ++ ('{' :: (l ++ '}' :: t))).length -
          rest.length) (('\\' :: tag) ++ ('{' :: (l ++ '}' :: t))), rest)
      | none => none
     else none) = some (mkRef tag l, t)
  rw [if_pos rfl, lazyBrace_append hchars t]
  show some (List.take ((('\\' :: tag) ++ ('{' :: (l ++ '}' :: t))).length - t.length)
      (('\\' :: tag) ++ ('{' :: (l ++ '}' :: t))), t) = some (mkRef tag l, t)
  rw [show ('\\' :: tag) ++ ('{' :: (l ++ '}' :: t)) = mkRef tag l ++ t from by
    simp [mkRef]]
  rw [take_len_append]

theorem refInstAt_consuming (tag : Str) : Consuming (refInstAt tag) := by
  intro s g r h
  unfold refInstAt at h
  split at h
  · cases h
  · rename_i r1 h1
    split at h
    · cases h
    · rename_i c r0
      split at h
      · split at h
        · rename_i g2 rest h2
          simp only [Option.some.injEq, Prod.mk.injEq] at h
          obtain ⟨_, hr⟩ := h
          subst hr
          have hs := startsWith_split h1
          have hlz := lazyBrace_split h2
          rw [hs, hlz]
          simp only [List.length_cons, List.length_append]
          omega
        · cases h
      · cases h

theorem refInstAt_cons_ne {tag : Str} {c : Char} (hc : ¬ c = '\\') (s : Str) :
    refInstAt tag (c :: s) = none := by
  have h1 : startsWith ('\\' :: tag) (c :: s) = none :=
    startsWith_cons_ne (fun h => hc h.symm)
  simp [refInstAt, h1]

theorem escRef_head_ne {tag l : Str} (hu : ∀ c ∈ mkRef tag l, ¬ c = '.') {c : Char}
    (hc : ¬ c = '\\') (t : Str) : escLitAt (mkRef tag l) (c :: t) = none := by
  apply escLitAt_none hu
  rw [show mkRef tag l = '\\' :: (tag ++ '{' :: (l ++ ['}'])) from rfl]
  exact startsWith_cons_ne (fun h => hc h.symm)

theorem safeM_escRef_clean {tag l p : Str} (hu : ∀ c ∈ mkRef tag l, ¬ c = '.')
    (hp : cleanSeg p = true) : SafeM (escLitAt (mkRef tag l)) p :=
  safeM_of_head (fun c hc t => escRef_head_ne hu (cleanSeg_mem hp hc) t)

theorem safeM_refInst_clean {tag p : Str} (hp : cleanSeg p = true) :
    SafeM (refInstAt tag) p :=
  safeM_of_head (fun c hc t => refInstAt_cons_ne (cleanSeg_mem hp hc) t)

theorem quantTail_no_plus {r : Str} (h : ∀ c ∈ r, ¬ c = '+') :
    quantTail r = (false, r) := by
  cases r with
  | nil => rfl
  | cons c t =>
    show (if c = '+' then (true, t) else (false, c :: t)) = (false, c :: t)
    rw [if_neg (h c (List.mem_cons_self _ _))]

theorem stringEscape_no_plus {l : Str} (h : ∀ c ∈ l, ¬ c = '+') :
    ∀ c ∈ stringEscape l, ¬ c = '+' := by
  induction l with
  | nil => intro c hc; simp [stringEscape] at hc
  | cons x xs ih =>
    have ih' := ih (fun d hd => h d (List.mem_cons_of_mem _ hd))
    have hx : ¬ x = '+' := h x (List.mem_cons_self _ _)
    intro c hc
    rw [show stringEscape (x :: xs) =
        (if x = '\\' then ['\\', '\\']
         else if x = '\n' then ['\\', 'n']
         else if x = '\t' then ['\\', 't']
         else if x = '\r' then ['\\', 'r']
         else if x.toNat = 39 then ['\\', x]
         else [x]) ++ stringEscape xs from by simp [stringEscape]] at hc
    rcases List.mem_append.mp hc with hc | hc
    · have hblock : c = '\\' ∨ c = 'n' ∨ c = 't' ∨ c = 'r' ∨ c = x := by
        by_cases e1 : x = '\\'
        · rw [if_pos e1] at hc; simp at hc; exact Or.inl hc
        · rw [if_neg e1] at hc
          by_cases e2 : x = '\n'
          · rw [if_pos e2] at hc; simp at hc
            rcases hc with rfl | rfl
            · exact Or.inl rfl
            · exact Or.inr (Or.inl rfl)
          · rw [if_neg e2] at hc
            by_cases e3 : x = '\t'
            · rw [if_pos e3] at hc; simp at hc
              rcases hc with rfl | rfl
              · exact Or.inl rfl
              · exact Or.inr (Or.inr (Or.inl rfl))
            · rw [if_neg e3] at hc
              by_cases e4 : x = '\r'
              · rw [if_pos e4] at hc; simp at hc
                rcases hc with rfl | rfl
                · exact Or.inl rfl
                · exact Or.inr (Or.inr (Or.inr (Or.inl rfl)))
              · rw [if_neg e4] at hc
                by_cases e5 : x.toNat = 39
                · rw [if_pos e5] at hc; simp at hc
                  rcases hc with rfl | rfl
                  · exact Or.inl rfl
                  · exact Or.inr (Or.inr (Or.inr (Or.inr rfl)))
                · rw [if_neg e5] at hc; simp at hc
                  exact Or.inr (Or.inr (Or.inr (Or.inr hc)))
      rcases hblock with rfl | rfl | rfl | rfl | rfl
      · decide
      · decide
      · decide
      · decide
      · exact hx
    · exact ih' c hc

theorem parseReF_bs_nil (fuel : Nat) :
    parseReF (fuel + 1) ['\\'] = [(RAtom.fail, false)] := rfl

theorem parseReF_bs_cons (fuel : Nat) (q : Char) (r2 : Str) :
    parseReF (fuel + 1) ('\\' :: q :: r2) =
      (RAtom.lit (escChar q), (quantTail r2).1) :: parseReF fuel (quantTail r2).2 := rfl

theorem parseReF_dot (fuel : Nat) (r : Str) :
    parseReF (fuel + 1) ('.' :: r) =
      (RAtom.dot, (quantTail r).1) :: parseReF fuel (quantTail r).2 := rfl

theorem parseReF_litc {c : Char} (h1 : ¬ c = '\\') (h2 : ¬ c = '.') (fuel : Nat) (r : Str) :
    parseReF (fuel + 1) (c :: r) =
      (RAtom.lit c, (quantTail r).1) :: parseReF fuel (quantTail r).2 := by
  simp only [parseReF, if_neg h1, if_neg h2]

theorem matchQ_false_nil (mf : Nat) (a : RAtom) (ps : List (RAtom × Bool)) :
    matchQ (mf + 1) ((a, false) :: ps) [] = none := rfl

theorem matchQ_false_cons (mf : Nat) (a : RAtom) (ps : List (RAtom × Bool))
    (c : Char) (r : Str) :
    matchQ (mf + 1) ((a, false) :: ps) (c :: r) =
      if ratomMatch a c then matchQ mf ps r else none := rfl

theorem patMatchAt_dot_nil (ps : Str) : patMatchAt ('.' :: ps) [] = none := by
  cases ps <;> rfl

theorem patMatchAt_dot_cons (ps : Str) (d : Char) (ds : Str) :
    patMatchAt ('.' :: ps) (d :: ds) =
      if d = '\n' then none else patMatchAt ps ds := by
  cases ps <;> rfl

theorem patMatchAt_esc_nil (q : Char) (ps2 : Str) :
    patMatchAt ('\\' :: q :: ps2) [] = none := rfl

theorem patMatchAt_esc_cons (q : Char) (ps2 : Str) (d : Char) (ds : Str) :
    patMatchAt ('\\' :: q :: ps2) (d :: ds) =
      if escChar q = d then patMatchAt ps2 ds else none := rfl

theorem patMatchAt_litc_nil {c : Char} (h1 : ¬ c = '\\') (h2 : ¬ c = '.') (ps : Str) :
    patMatchAt (c :: ps) [] = none := by
  rw [patMatchAt_lit ps [] h1 h2]

theorem patMatchAt_litc_cons {c : Char} (h1 : ¬ c = '\\') (h2 : ¬ c = '.') (ps : Str)
    (d : Char) (ds : Str) :
    patMatchAt (c :: ps) (d :: ds) = if c = d then patMatchAt ps ds else none := by
  rw [patMatchAt_lit ps (d :: ds) h1 h2]

theorem matchQ_parse_lit :
    ∀ (pf : Nat) (p : Str), (∀ c ∈ p, ¬ c = '+') → p.length ≤ pf →
      ∀ (s : Str) (mf : Nat), p.length < mf →
        matchQ mf (parseReF pf p) s = patMatchAt p s := by
  intro pf
  induction pf with
  | zero =>
    intro p _ hlen s mf hmf
    have hp0 : p = [] := List.length_eq_zero.mp (Nat.le_zero.mp hlen)
    subst hp0
    cases mf with
    | zero => omega
    | succ m => rfl
  | succ pf ih =>
    intro p hp hlen s mf hmf
    cases p with
    | nil =>
      cases mf with
      | zero => omega
      | succ m => rfl
    | cons c r =>
      by_cases h1 : c = '\\'
      · subst h1
        cases r with
        | nil =>
          cases mf with
          | zero => omega
          | succ m => cases s <;> rfl
        | cons q r2 =>
          have hq : quantTail r2 = (false, r2) :=
            quantTail_no_plus (fun d hd => hp d (by simp [hd]))
          have hq1 : (quantTail r2).1 = false := by rw [hq]
          have hq2 : (quantTail r2).2 = r2 := by rw [hq]
          have hp' : ∀ x ∈ r2, ¬ x = '+' := fun x hx => hp x (by simp [hx])
          have hlen' : r2.length ≤ pf := by
            simp only [List.length_cons] at hlen; omega
          rw [parseReF_bs_cons, hq1, hq2]
          cases s with
          | nil =>
            cases mf with
            | zero => omega
            | succ m => rw [matchQ_false_nil, patMatchAt_esc_nil]
          | cons d ds =>
            cases mf with
            | zero => omega
            | succ m =>
              have hm' : r2.length < m := by
                simp only [List.length_cons] at hmf; omega
              rw [matchQ_false_cons, patMatchAt_esc_cons]
              by_cases hd : escChar q = d
              · have hra : ratomMatch (RAtom.lit (escChar q)) d = true := by
                  show (escChar q == d) = true
                  exact beq_iff_eq.mpr hd
                rw [if_pos hra, if_pos hd]
                exact ih r2 hp' hlen' ds m hm'
              · have hra : ¬ ratomMatch (RAtom.lit (escChar q)) d = true := by
                  show ¬ (escChar q == d) = true
                  simp [hd]
                rw [if_neg hra, if_neg hd]
      · by_cases h2 : c = '.'
        · subst h2
          have hq : quantTail r = (false, r) :=
            quantTail_no_plus (fun d hd => hp d (by simp [hd]))
          have hq1 : (quantTail r).1 = false := by rw [hq]
          have hq2 : (quantTail r).2 = r := by rw [hq]
          have hp' : ∀ x ∈ r, ¬ x = '+' := fun x hx => hp x (by simp [hx])
          have hlen' : r.length ≤ pf := by
            simp only [List.length_cons] at hlen; omega
          rw [parseReF_dot, hq1, hq2]
          cases s with
          | nil =>
            cases mf with
            | zero => omega
            | succ m => rw [matchQ_false_nil, patMatchAt_dot_nil]
          | cons d ds =>
            cases mf with
            | zero => omega
            | succ m =>
              have hm' : r.length < m := by
                simp only [List.length_cons] at hmf; omega
              rw [matchQ_false_cons, patMatchAt_dot_cons]
              by_cases hd : d = '\n'
              · have hra : ¬ ratomMatch RAtom.dot d = true := by
                  show ¬ (!(d == '\n')) = true
                  simp [hd]
                rw [if_neg hra, if_pos hd]
              · have hra : ratomMatch RAtom.dot d = true := by
                  show (!(d == '\n')) = true
                  simp [hd]
                rw [if_pos hra, if_neg hd]
                exact ih r hp' hlen' ds m hm'
        · have hq : quantTail r = (false, r) :=
            quantTail_no_plus (fun d hd => hp d (by simp [hd]))
          have hq1 : (quantTail r).1 = false := by rw [hq]
          have hq2 : (quantTail r).2 = r := by rw [hq]
          have hp' : ∀ x ∈ r, ¬ x = '+' := fun x hx => hp x (by simp [hx])
          have hlen' : r.length ≤ pf := by
            simp only [List.length_cons] at hlen; omega
          rw [parseReF_litc h1 h2, hq1, hq2]
          cases s with
          | nil =>
            cases mf with
            | zero => omega
            | succ m => rw [matchQ_false_nil, patMatchAt_litc_nil h1 h2]
          | cons d ds =>
            cases mf with
            | zero => omega
            | succ m =>
              have hm' : r.length < m := by
                simp only [List.length_cons] at hmf; omega
              rw [matchQ_false_cons, patMatchAt_litc_cons h1 h2]
              by_cases hd : c = d
              · have hra : ratomMatch (RAtom.lit c) d = true := by
                  show (c == d) = true
                  exact beq_iff_eq.mpr hd
                rw [if_pos hra, if_pos hd]
                exact ih r hp' hlen' ds m hm'
              · have hra : ¬ ratomMatch (RAtom.lit c) d = true := by
                  show ¬ (c == d) = true
                  simp [hd]
                rw [if_neg hra, if_neg hd]

theorem escReAt_eq_escLit {lit : Str} (hplus : ∀ c ∈ lit, ¬ c = '+') (s : Str) :
    escReAt lit s = escLitAt lit s := by
  have hm : matchQ ((stringEscape lit).length + s.length + 2)
      (parseRe (stringEscape lit)) s = patMatchAt (stringEscape lit) s :=
    matchQ_parse_lit (stringEscape lit).length (stringEscape lit)
      (stringEscape_no_plus hplus) (le_refl _) s _ (by omega)
  unfold escReAt escLitAt
  rw [hm]

theorem mkRef_no_plus {tag l : Str} (htag : ∀ c ∈ tag, ¬ c = '+')
    (hl : ∀ c ∈ l, ¬ c = '+') : ∀ c ∈ mkRef tag l, ¬ c = '+' := by
  intro c hc
  simp only [mkRef, List.mem_cons, List.mem_append, List.mem_singleton] at hc
  rcases hc with rfl | hc | rfl | hc | rfl | hc
  · decide
  · exact htag c hc
  · decide
  · exact hl c hc
  · decide
  · simp at hc

theorem reLiteralStr_plain {l : Str} (h : reLiteralStr l = true) : plainStr l = true := by
  unfold reLiteralStr at h
  unfold plainStr
  rw [List.all_eq_true] at h ⊢
  intro c hc
  have hx := h c hc
  unfold reLiteralChar at hx
  simp only [Bool.and_eq_true] at hx
  exact hx.1.1

theorem reLiteralStr_no_plus {l : Str} (h : reLiteralStr l = true) :
    ∀ c ∈ l, ¬ c = '+' := by
  intro c hc
  unfold reLiteralStr at h
  rw [List.all_eq_true] at h
  have hx := h c hc
  unfold reLiteralChar at hx
  simp only [Bool.and_eq_true, decide_eq_true_eq] at hx
  exact hx.2.1

theorem processref_mkRef_miss {lm : Str → Option Str} {tag l : Str}
    (hl : plainStr l = true) (hn : lm l = none) :
    processref lm tag (mkRef tag l) = .error (.keyError l) := by
  have hfront : refLabelAt tag (mkRef tag l ++ []) = some (l, []) := refLabelAt_mkRef hl []
  have hfind : reFind (refLabelAt tag) (mkRef tag l) = [l] := by
    have hx := reFind_match_front (refLabelAt_consuming tag) (mkRef_ne_nil tag l) hfront
    rw [List.append_nil] at hx
    rw [hx, reFind_nil]
  unfold processref
  rw [hfind]
  show (match lm l with
      | none => Except.error (Err.keyError l)
      | some n0 =>
        Except.ok (reSub (refLabelAt tag) (fun _ => refFormat tag n0) none (mkRef tag l)))
      = Except.error (Err.keyError l)
  rw [hn]

theorem convert_equations_missing {lm : Str → Option Str} {pre post s0 l1 : Str}
    {rest : List (Str × Str)} {last : Str}
    (hpre : cleanSeg pre = true)
    (hok : ∀ p ∈ (s0, l1) :: rest, cleanSeg p.1 = true ∧ plainStr p.2 = true)
    (hlast : cleanSeg last = true) (hlm : lm l1 = none) :
    convert_equations lm
      (pre ++ envBlock equationEnv (renderLabeled ((s0, l1) :: rest) last) ++ post) =
      .error (Err.keyError l1,
        pre ++ envBlock equationEnv (renderLabeled ((s0, l1) :: rest) last) ++ post) := by
  have hEnvClean : cleanSeg equationEnv = true := by decide
  have hEnvHead : headNonWs equationEnv = true := by decide
  have hEnvNe : equationEnv ≠ [] := by decide
  have htail : SafeM labelAt (last ++ endMarker equationEnv) :=
    safeM_append (safeM_labelAt_clean hlast) (safeM_labelAt_endMarker hEnvClean)
  have hfind : reFind labelAt
      (envBlock equationEnv (renderLabeled ((s0, l1) :: rest) last)) =
      l1 :: rest.map Prod.snd := by
    rw [blk_as_marker_render]
    rw [reFind_append_safe _ (safeM_labelAt_beginMarker hEnvClean)]
    rw [reFind_labelAt_render _ hok htail]
    simp
  have hproc : process_equation lm
      (envBlock equationEnv (renderLabeled ((s0, l1) :: rest) last)) =
      .error (.keyError l1) := by
    unfold process_equation
    rw [hfind]
    show (match lm l1 with
       | none => Except.error (Err.keyError l1)
       | some n => Except.ok (wrapEquation (reSub labelAt (fun _ => eqNumSuffix n)
           (some 16) (envBlock equationEnv (renderLabeled ((s0, l1) :: rest) last)))))
       = Except.error (Err.keyError l1)
    rw [hlm]
  have hbodySafe : SafeE (endEnvAt equationEnv)
      (renderLabeled ((s0, l1) :: rest) last) :=
    safeE_endEnv_renderLabeled _ hok (safeE_endEnv_clean hlast)
  have hsub : reSubE (envBlockAt equationEnv) (process_equation lm) (some 16)
      (pre ++ envBlock equationEnv (renderLabeled ((s0, l1) :: rest) last) ++ post) =
      .error (.keyError l1) := by
    rw [List.append_assoc]
    rw [reSubE_append_safe _ (safeM_envBlock_clean hpre)]
    rw [reSubE_match_front (envBlockAt_consuming equationEnv) (envBlock_ne_nil _ _)
      (envBlockAt_block hEnvHead hEnvNe hbodySafe post) (by simp)]
    rw [hproc]
    rfl
  unfold convert_equations
  rw [hsub]

theorem convert_aligned_missing {lm : Str → Option Str} {pre post s0 l1 : Str}
    {rest : List (Str × Str)} {last : Str}
    (hpre : cleanSeg pre = true)
    (hok : ∀ p ∈ (s0, l1) :: rest, cleanSeg p.1 = true ∧ plainStr p.2 = true)
    (hlast : cleanSeg last = true) (hlm : lm l1 = none) :
    convert_aligned lm
      (pre ++ envBlock alignEnv (renderLabeled ((s0, l1) :: rest) last) ++ post) =
      .error (Err.keyError l1,
        pre ++ envBlock alignEnv (renderLabeled ((s0, l1) :: rest) last) ++ post) := by
  have hEnvClean : cleanSeg alignEnv = true := by decide
  have hEnvHead : headNonWs alignEnv = true := by decide
  have hEnvNe : alignEnv ≠ [] := by decide
  have htail : SafeM labelAt (last ++ endMarker alignEnv) :=
    safeM_append (safeM_labelAt_clean hlast) (safeM_labelAt_endMarker hEnvClean)
  have hfind : reFind labelAt
      (envBlock alignEnv (renderLabeled ((s0, l1) :: rest) last)) =
      l1 :: rest.map Prod.snd := by
    rw [blk_as_marker_render]
    rw [reFind_append_safe _ (safeM_labelAt_beginMarker hEnvClean)]
    rw [reFind_labelAt_render _ hok htail]
    simp
  have hproc : process_align lm
      (envBlock alignEnv (renderLabeled ((s0, l1) :: rest) last)) =
      .error (.keyError l1) := by
    unfold process_align
    rw [hfind]
    show (match alignLabelFold lm (l1 :: rest.map Prod.snd)
        (envBlock alignEnv (renderLabeled ((s0, l1) :: rest) last)) with
      | Except.error e => Except.error e
      | Except.ok b2 => Except.ok (reSub (envInnerAt alignEnv) wrapAlignTpl (some 16) b2))
      = Except.error (Err.keyError l1)
    show (match (match lm l1 with
        | none => Except.error (Err.keyError l1)
        | some n => alignLabelFold lm (rest.map Prod.snd)
            (reSub labelAt (fun _ => eqNumSuffix n) (some 1)
              (envBlock alignEnv (renderLabeled ((s0, l1) :: rest) last)))) with
      | Except.error e => Except.error e
      | Except.ok b2 => Except.ok (reSub (envInnerAt alignEnv) wrapAlignTpl (some 16) b2))
      = Except.error (Err.keyError l1)
    rw [hlm]
  have hbodySafe : SafeE (endEnvAt alignEnv)
      (renderLabeled ((s0, l1) :: rest) last) :=
    safeE_endEnv_renderLabeled _ hok (safeE_endEnv_clean hlast)
  have hsub : reSubE (envBlockAt alignEnv) (process_align lm) (some 16)
      (pre ++ envBlock alignEnv (renderLabeled ((s0, l1) :: rest) last) ++ post) =
      .error (.keyError l1) := by
    rw [List.append_assoc]
    rw [reSubE_append_safe _ (safeM_envBlock_clean hpre)]
    rw [reSubE_match_front (envBlockAt_consuming alignEnv) (envBlock_ne_nil _ _)
      (envBlockAt_block hEnvHead hEnvNe hbodySafe post) (by simp)]
    rw [hproc]
    rfl
  unfold convert_aligned
  rw [hsub]

theorem convert_references_missing {lm : Str → Option Str} {s t l : Str}
    (hs : cleanSeg s = true) (hrl : reLiteralStr l = true) (hn : lm l = none) :
    convert_references lm (s ++ mkRef myeqnoTag l ++ t) =
      .error (Err.keyError l, s ++ mkRef myeqnoTag l ++ t) := by
  have hl : plainStr l = true := reLiteralStr_plain hrl
  have hu : ∀ c ∈ mkRef myeqnoTag l, ¬ c = '.' := mkRef_no_dot (by decide) hl
  have hbr : escReAt (mkRef myeqnoTag l) = escLitAt (mkRef myeqnoTag l) :=
    funext (fun x => escReAt_eq_escLit
      (mkRef_no_plus (by decide) (reLiteralStr_no_plus hrl)) x)
  have hfind : reFind (refInstAt myeqnoTag) (s ++ mkRef myeqnoTag l ++ t) =
      mkRef myeqnoTag l :: reFind (refInstAt myeqnoTag) t := by
    rw [List.append_assoc, reFind_append_safe _ (safeM_refInst_clean hs),
      reFind_match_front (refInstAt_consuming myeqnoTag) (mkRef_ne_nil myeqnoTag l)
        (refInstAt_mkRef hl t)]
  have hinner : reSubE (escLitAt (mkRef myeqnoTag l)) (processref lm myeqnoTag)
      (some 16) (mkRef myeqnoTag l ++ t) = .error (.keyError l) := by
    rw [reSubE_match_front (escLit_consuming hu (mkRef_ne_nil myeqnoTag l))
      (mkRef_ne_nil myeqnoTag l) (escLitAt_self hu t) (by simp)]
    rw [processref_mkRef_miss hl hn]
  have hsub : reSubE (escLitAt (mkRef myeqnoTag l)) (processref lm myeqnoTag)
      (some 16) (s ++ mkRef myeqnoTag l ++ t) = .error (.keyError l) := by
    rw [List.append_assoc, reSubE_append_safe _ (safeM_escRef_clean hu hs), hinner]
    rfl
  unfold convert_references
  rw [hfind]
  show (match (match reSubE (escReAt (mkRef myeqnoTag l)) (processref lm myeqnoTag)
      (some 16) (s ++ mkRef myeqnoTag l ++ t) with
    | Except.error e => Except.error (e, s ++ mkRef myeqnoTag l ++ t)
    | Except.ok b2 => refSubFold lm myeqnoTag (reFind (refInstAt myeqnoTag) t) b2) with
    | Except.error e => Except.error e
    | Except.ok b1 => refSubFold lm eqrefTag (reFind (refInstAt eqrefTag) b1) b1)
    = Except.error (Err.keyError l, s ++ mkRef myeqnoTag l ++ t)
  rw [hbr, hsub]

/-! ## C1: a missing label aborts the run before any output -/

/-- C1 (counterexample to the unrestricted claim): an in-text reference
directive whose unmapped label contains a regex metacharacter does NOT abort
the run.  `string_escape` leaves `+` unescaped, so the compiled pattern
`\\myeqno\x7bab+\x7d` reads `b+` as a quantifier and never matches the
directive text itself (after one `b` it demands `+` or more `b`s): the
lookup that would raise `KeyError` is never reached and the full run
completes, returning an output buffer with the directive left in place. -/
theorem claim1_counterexample :
    mainRun (fun _ => none) [] (strL ("see \\myeqno\x7bab+\x7d end")) =
      some (strL ("see \\myeqno\x7bab+\x7d end")) ∧
    occursIn (mkRef myeqnoTag (strL ("ab+"))) (strL ("see \\myeqno\x7bab+\x7d end")) =
      true := by
  exact ⟨by rfl, by decide⟩

/-- C1 (amended): when the extracted label of an equation block, of an align
block, or of an in-text reference directive — for the reference pass, a
label free of regex metacharacters, so that its string-escaped pattern
really matches the directive — has no entry in the label table, the pass
raises an uncaught `KeyError` carrying that label (the passes return an
error rather than a buffer), and `mainRun` — which serializes only as its
final step — returns `none`: the run dies at the failing pass and no output
is produced. -/
theorem claim1_amended :
    (∀ (lm : Str → Option Str) (pre post s0 l1 : Str) (rest : List (Str × Str))
      (last : Str),
      cleanSeg pre = true →
      (∀ p ∈ (s0, l1) :: rest, cleanSeg p.1 = true ∧ plainStr p.2 = true) →
      cleanSeg last = true → lm l1 = none →
      convert_equations lm
        (pre ++ envBlock equationEnv (renderLabeled ((s0, l1) :: rest) last) ++ post) =
        .error (Err.keyError l1,
          pre ++ envBlock equationEnv (renderLabeled ((s0, l1) :: rest) last) ++ post)) ∧
    (∀ (lm : Str → Option Str) (pre post s0 l1 : Str) (rest : List (Str × Str))
      (last : Str),
      cleanSeg pre = true →
      (∀ p ∈ (s0, l1) :: rest, cleanSeg p.1 = true ∧ plainStr p.2 = true) →
      cleanSeg last = true → lm l1 = none →
      convert_aligned lm
        (pre ++ envBlock alignEnv (renderLabeled ((s0, l1) :: rest) last) ++ post) =
        .error (Err.keyError l1,
          pre ++ envBlock alignEnv (renderLabeled ((s0, l1) :: rest) last) ++ post)) ∧
    (∀ (lm : Str → Option Str) (s t l : Str),
      cleanSeg s = true → reLiteralStr l = true → lm l = none →
      convert_references lm (s ++ mkRef myeqnoTag l ++ t) =
        .error (Err.keyError l, s ++ mkRef myeqnoTag l ++ t)) ∧
    (∀ (lm : Str → Option Str) (nm : List (Str × Str)) (c : Str) (e : Err × Str),
      convert_equations lm (pipelineBefore nm c) = .error e →
      mainRun lm nm c = none) ∧
    (∀ (lm : Str → Option Str) (nm : List (Str × Str)) (c : Str) (w1 : Str)
      (e : Err × Str),
      convert_equations lm (pipelineBefore nm c) = .ok w1 →
      convert_aligned lm w1 = .error e →
      mainRun lm nm c = none) ∧
    (∀ (lm : Str → Option Str) (nm : List (Str × Str)) (c : Str) (w1 w2 : Str)
      (e : Err × Str),
      convert_equations lm (pipelineBefore nm c) = .ok w1 →
      convert_aligned lm w1 = .ok w2 →
      convert_references lm (convert_sections w2) = .error e →
      mainRun lm nm c = none) := by
  refine ⟨?_, ?_, ?_, ?_, ?_, ?_⟩
  · intro lm pre post s0 l1 rest last hpre hok hlast hlm
    exact convert_equations_missing hpre hok hlast hlm
  · intro lm pre post s0 l1 rest last hpre hok hlast hlm
    exact convert_aligned_missing hpre hok hlast hlm
  · intro lm s t l hs hl hn
    exact convert_references_missing hs hl hn
  · intro lm nm c e h
    unfold mainRun
    rw [h]
  · intro lm nm c w1 e h1 h2
    unfold mainRun
    rw [h1]
    show (match convert_aligned lm w1 with
      | Except.error _ => none
      | Except.ok w2 =>
        match convert_references lm (convert_sections w2) with
        | Except.error _ => none
        | Except.ok w3 => some (convert_formatting w3)) = none
    rw [h2]
  · intro lm nm c w1 w2 e h1 h2 h3
    unfold mainRun
    rw [h1]
    show (match convert_aligned lm w1 with
      | Except.error _ => none
      | Except.ok w2 =>
        match convert_references lm (convert_sections w2) with
        | Except.error _ => none
        | Except.ok w3 => some (convert_formatting w3)) = none
    rw [h2]
    show (match convert_references lm (convert_sections w2) with
      | Except.error _ => none
      | Except.ok w3 => some (convert_formatting w3)) = none
    rw [h3]

/-- Witness for C1: a concrete equation block, align block and reference
directive with the unmapped label `zz`, and a concrete full run returning no
output buffer. -/
theorem claim1_witness :
    convert_equations lmAB
      ([] ++ envBlock equationEnv (renderLabeled [([], strL ("zz"))] []) ++ []) =
      .error (Err.keyError (strL ("zz")),
        [] ++ envBlock equationEnv (renderLabeled [([], strL ("zz"))] []) ++ []) ∧
    convert_aligned lmAB
      ([] ++ envBlock alignEnv (renderLabeled [([], strL ("zz"))] []) ++ []) =
      .error (Err.keyError (strL ("zz")),
        [] ++ envBlock alignEnv (renderLabeled [([], strL ("zz"))] []) ++ []) ∧
    convert_references lmAB
      (strL ("see ") ++ mkRef myeqnoTag (strL ("zz")) ++ strL ("!")) =
      .error (Err.keyError (strL ("zz")),
        strL ("see ") ++ mkRef myeqnoTag (strL ("zz")) ++ strL ("!")) ∧
    mainRun lmAB []
      (strL ("\\begin\x7bequation\x7d\\label\x7bzz\x7dx\\end\x7bequation\x7d")) =
      none :=
  ⟨claim1_amended.1 lmAB [] [] [] (strL ("zz")) [] []
      (by decide)
      (by
        intro p hp
        simp only [List.mem_singleton] at hp
        subst hp
        exact ⟨by decide, by decide⟩)
      (by decide) (by decide),
    claim1_amended.2.1 lmAB [] [] [] (strL ("zz")) [] []
      (by decide)
      (by
        intro p hp
        simp only [List.mem_singleton] at hp
        subst hp
        exact ⟨by decide, by decide⟩)
      (by decide) (by decide),
    claim1_amended.2.2.1 lmAB (strL ("see ")) (strL ("!")) (strL ("zz"))
      (by decide) (by decide) (by decide),
    claim1_amended.2.2.2.1 lmAB []
      (strL ("\\begin\x7bequation\x7d\\label\x7bzz\x7dx\\end\x7bequation\x7d"))
      (Err.keyError (strL ("zz")),
        pipelineBefore []
          (strL ("\\begin\x7bequation\x7d\\label\x7bzz\x7dx\\end\x7bequation\x7d")))
      (by rfl)⟩

/-! ## Title stripping: matcher computations -/

theorem greedyBraceLine_append {t : Str} (ht : ∀ c ∈ t, ¬ c = '}' ∧ ¬ c = '\n')
    {u : Str} (hu : greedyBraceLine u = none) :
    greedyBraceLine (t ++ '}' :: u) = some u := by
  induction t with
  | nil =>
    show greedyBraceLine ('}' :: u) = some u
    rw [show greedyBraceLine ('}' :: u) =
      (if ('}' : Char) = '\n' then none
       else match greedyBraceLine u with
         | some rest => some rest
         | none => if ('}' : Char) = '}' then some u else none) from rfl]
    rw [if_neg (by decide), hu]
    show (if ('}' : Char) = '}' then some u else none) = some u
    rw [if_pos rfl]
  | cons c t' ih =>
    have hc := ht c (by simp)
    have ih' := ih (fun x hx => ht x (by simp [hx]))
    rw [List.cons_append]
    rw [show greedyBraceLine (c :: (t' ++ '}' :: u)) =
      (if c = '\n' then none
       else match greedyBraceLine (t' ++ '}' :: u) with
         | some rest => some rest
         | none => if c = '}' then some (t' ++ '}' :: u) else none) from rfl]
    rw [if_neg hc.2, ih']

theorem greedyBraceLine_length :
    ∀ {s rest : Str}, greedyBraceLine s = some rest → rest.length < s.length := by
  intro s
  induction s with
  | nil => intro rest h; cases h
  | cons c r ih =>
    intro rest h
    rw [show greedyBraceLine (c :: r) =
      (if c = '\n' then none
       else match greedyBraceLine r with
         | some rest0 => some rest0
         | none => if c = '}' then some r else none) from rfl] at h
    by_cases hc : c = '\n'
    · rw [if_pos hc] at h; cases h
    · rw [if_neg hc] at h
      cases hg : greedyBraceLine r with
      | some rest0 =>
        rw [hg] at h
        have h' : some rest0 = some rest := h
        simp only [Option.some.injEq] at h'
        subst h'
        have := ih hg
        simp only [List.length_cons]
        omega
      | none =>
        rw [hg] at h
        by_cases hb : c = '}'
        · rw [if_pos hb] at h
          have h' : some r = some rest := h
          simp only [Option.some.injEq] at h'
          subst h'
          simp
        · rw [if_neg hb] at h; cases h

theorem titleDirAt_consuming (name : Str) : Consuming (titleDirAt name) := by
  intro s g r h
  unfold titleDirAt at h
  split at h
  · cases h
  · rename_i r1 h1
    split at h
    · cases h
    · rename_i c r0
      split at h
      · split at h
        · rename_i rest h2
          simp only [Option.some.injEq, Prod.mk.injEq] at h
          obtain ⟨_, hr⟩ := h
          subst hr
          have hs := startsWith_split h1
          have hlen := greedyBraceLine_length h2
          rw [hs]
          simp only [List.length_cons, List.length_append]
          omega
        · cases h
      · cases h

theorem titleDirAt_cons_ne {nm : Str} {c : Char} (hc : ¬ c = '\\') (s : Str) :
    titleDirAt ('\\' :: nm) (c :: s) = none := by
  have h1 : startsWith ('\\' :: nm) (c :: s) = none :=
    startsWith_cons_ne (fun h => hc h.symm)
  simp [titleDirAt, h1]

theorem titleDirAt_match {name t : Str} (ht : ∀ c ∈ t, ¬ c = '}' ∧ ¬ c = '\n')
    {u : Str} (hu : greedyBraceLine u = none) :
    titleDirAt name ((name ++ '{' :: (t ++ ['}'])) ++ u) = some ((), u) := by
  rw [show (name ++ '{' :: (t ++ ['}'])) ++ u = name ++ ('{' :: (t ++ '}' :: u)) from by
    simp]
  unfold titleDirAt
  rw [startsWith_self]
  show (if '{' = '{' then
      match greedyBraceLine (t ++ '}' :: u) with
      | some rest => some ((), rest)
      | none => none
    else none) = some ((), u)
  rw [if_pos rfl, greedyBraceLine_append ht hu]

theorem startsWith_title_author (a t : Str) :
    startsWith (strL ("\\title")) ((strL ("\\author") ++ '{' :: (a ++ ['}'])) ++ t) =
      none := by
  rw [show strL ("\\title") = '\\' :: 't' :: strL ("itle") from rfl]
  rw [show (strL ("\\author") ++ '{' :: (a ++ ['}'])) ++ t =
    '\\' :: 'a' :: ((strL ("uthor") ++ '{' :: (a ++ ['}'])) ++ t) from rfl]
  simp [startsWith]

theorem startsWith_author_title (a t : Str) :
    startsWith (strL ("\\author")) ((strL ("\\title") ++ '{' :: (a ++ ['}'])) ++ t) =
      none := by
  rw [show strL ("\\author") = '\\' :: 'a' :: strL ("uthor") from rfl]
  rw [show (strL ("\\title") ++ '{' :: (a ++ ['}'])) ++ t =
    '\\' :: 't' :: ((strL ("itle") ++ '{' :: (a ++ ['}'])) ++ t) from rfl]
  simp [startsWith]

theorem renderT_titleD (t : Str) (rest : List TItem) :
    renderT (TItem.titleD t :: rest) =
      (strL ("\\title") ++ '{' :: (t ++ ['}'])) ++ renderT rest := by
  simp [renderT]

theorem renderT_authorD (t : Str) (rest : List TItem) :
    renderT (TItem.authorD t :: rest) =
      (strL ("\\author") ++ '{' :: (t ++ ['}'])) ++ renderT rest := by
  simp [renderT]

theorem startsNl_render {rest : List TItem} (h : startsNl rest = true) :
    greedyBraceLine (renderT rest) = none := by
  cases rest with
  | nil => rfl
  | cons i r =>
    cases i with
    | seg s =>
      cases s with
      | nil => simp [startsNl] at h
      | cons c s' =>
        have hc : c = '\n' := by simpa [startsNl] using h
        subst hc
        show greedyBraceLine ('\n' :: (s' ++ renderT r)) = none
        rw [show greedyBraceLine ('\n' :: (s' ++ renderT r)) =
          (if ('\n' : Char) = '\n' then none
           else match greedyBraceLine (s' ++ renderT r) with
             | some rest0 => some rest0
             | none => if ('\n' : Char) = '}' then some (s' ++ renderT r) else none)
          from rfl]
        rw [if_pos rfl]
    | titleD t => simp [startsNl] at h
    | authorD t => simp [startsNl] at h

theorem tItemsOk_seg {s : Str} {rest : List TItem}
    (h : tItemsOk (TItem.seg s :: rest) = true) :
    cleanSeg s = true ∧ tItemsOk rest = true := by
  have h' : (cleanSeg s && tItemsOk rest) = true := h
  exact Bool.and_eq_true_iff.mp h'

theorem tItemsOk_titleD {t : Str} {rest : List TItem}
    (h : tItemsOk (TItem.titleD t :: rest) = true) :
    t.all (fun c => c != '\\' && c != '}' && c != '\n') = true ∧
      startsNl rest = true ∧ tItemsOk rest = true := by
  have h' : (t.all (fun c => c != '\\' && c != '}' && c != '\n') && startsNl rest &&
      tItemsOk rest) = true := h
  simp only [Bool.and_eq_true] at h'
  exact ⟨h'.1.1, h'.1.2, h'.2⟩

theorem tItemsOk_authorD {t : Str} {rest : List TItem}
    (h : tItemsOk (TItem.authorD t :: rest) = true) :
    t.all (fun c => c != '\\' && c != '}' && c != '\n') = true ∧
      startsNl rest = true ∧ tItemsOk rest = true := by
  have h' : (t.all (fun c => c != '\\' && c != '}' && c != '\n') && startsNl rest &&
      tItemsOk rest) = true := h
  simp only [Bool.and_eq_true] at h'
  exact ⟨h'.1.1, h'.1.2, h'.2⟩

theorem titleArg_chars {t : Str}
    (h : t.all (fun c => c != '\\' && c != '}' && c != '\n') = true) :
    (∀ c ∈ t, ¬ c = '}' ∧ ¬ c = '\n') ∧ (∀ c ∈ t, ¬ c = '\\') := by
  constructor
  · intro c hc
    have hx := List.all_eq_true.mp h c hc
    simp only [Bool.and_eq_true, bne_iff_ne, ne_eq] at hx
    exact ⟨hx.1.2, hx.2⟩
  · intro c hc
    have hx := List.all_eq_true.mp h c hc
    simp only [Bool.and_eq_true, bne_iff_ne, ne_eq] at hx
    exact hx.1.1

theorem safeM_titleDir_clean {nm p : Str} (hp : cleanSeg p = true) :
    SafeM (titleDirAt ('\\' :: nm)) p :=
  safeM_of_head (fun c hc t => titleDirAt_cons_ne (cleanSeg_mem hp hc) t)

theorem safeM_title_authorBlock {a : Str} (ha : ∀ c ∈ a, ¬ c = '\\') :
    SafeM (titleDirAt (strL ("\\title"))) (strL ("\\author") ++ '{' :: (a ++ ['}'])) := by
  rw [show strL ("\\author") ++ '{' :: (a ++ ['}']) =
    '\\' :: (strL ("author") ++ '{' :: (a ++ ['}'])) from rfl]
  apply safeM_cons
  · intro rest
    have h1 := startsWith_title_author a rest
    rw [show (strL ("\\author") ++ '{' :: (a ++ ['}'])) ++ rest =
      '\\' :: (strL ("author") ++ '{' :: (a ++ '}' :: rest)) from by
        rw [show strL ("\\author") = '\\' :: strL ("author") from rfl]
        simp] at h1
    simp [titleDirAt, h1]
  · apply safeM_of_head
    intro c hc t
    have hcbs : ¬ c = '\\' := by
      simp only [List.mem_append, List.mem_cons, List.mem_singleton] at hc
      rcases hc with hc | rfl | hc | rfl | hc
      · have hlit : ∀ x ∈ strL ("author"), ¬ x = '\\' := by decide
        exact hlit c hc
      · decide
      · exact ha c hc
      · decide
      · simp at hc
    rw [show strL ("\\title") = '\\' :: strL ("title") from rfl]
    exact titleDirAt_cons_ne hcbs t

theorem safeM_author_titleBlock {a : Str} (ha : ∀ c ∈ a, ¬ c = '\\') :
    SafeM (titleDirAt (strL ("\\author"))) (strL ("\\title") ++ '{' :: (a ++ ['}'])) := by
  rw [show strL ("\\title") ++ '{' :: (a ++ ['}']) =
    '\\' :: (strL ("title") ++ '{' :: (a ++ ['}'])) from rfl]
  apply safeM_cons
  · intro rest
    have h1 := startsWith_author_title a rest
    rw [show (strL ("\\title") ++ '{' :: (a ++ ['}'])) ++ rest =
      '\\' :: (strL ("title") ++ '{' :: (a ++ '}' :: rest)) from by
        rw [show strL ("\\title") = '\\' :: strL ("title") from rfl]
        simp] at h1
    simp [titleDirAt, h1]
  · apply safeM_of_head
    intro c hc t
    have hcbs : ¬ c = '\\' := by
      simp only [List.mem_append, List.mem_cons, List.mem_singleton] at hc
      rcases hc with hc | rfl | hc | rfl | hc
      · have hlit : ∀ x ∈ strL ("title"), ¬ x = '\\' := by decide
        exact hlit c hc
      · decide
      · exact ha c hc
      · decide
      · simp at hc
    rw [show strL ("\\author") = '\\' :: strL ("author") from rfl]
    exact titleDirAt_cons_ne hcbs t

theorem titleBlock_ne_nil (t : Str) : strL ("\\title") ++ '{' :: (t ++ ['}']) ≠ [] := by
  simp

theorem authorBlock_ne_nil (t : Str) :
    strL ("\\author") ++ '{' :: (t ++ ['}']) ≠ [] := by
  simp

theorem titleRound :
    ∀ (items : List TItem) (k : Nat), tItemsOk items = true →
      countTitles items ≤ k →
      reSub (titleDirAt (strL ("\\title"))) (fun _ => []) (some k) (renderT items) =
        renderT (dropTitles items) := by
  intro items
  induction items with
  | nil => intro k _ _; exact reSub_nil _ _ _
  | cons i rest ih =>
    intro k hok hcnt
    cases i with
    | seg s =>
      have hf := tItemsOk_seg hok
      show reSub _ _ _ (s ++ renderT rest) = renderT (TItem.seg s :: dropTitles rest)
      rw [show strL ("\\title") = '\\' :: strL ("title") from rfl]
      rw [reSub_append_safe _ (safeM_titleDir_clean hf.1)]
      rw [show ('\\' :: strL ("title")) = strL ("\\title") from rfl]
      rw [ih k hf.2 hcnt]
      rfl
    | titleD t =>
      have hf := tItemsOk_titleD hok
      have hchars := titleArg_chars hf.1
      have hk1 : 1 ≤ k := by
        have hc : countTitles (TItem.titleD t :: rest) = countTitles rest + 1 := rfl
        omega
      have hcnt' : countTitles rest ≤ k - 1 := by
        have hc : countTitles (TItem.titleD t :: rest) = countTitles rest + 1 := rfl
        omega
      rw [renderT_titleD]
      rw [reSub_match_front (titleDirAt_consuming _) (titleBlock_ne_nil t)
        (titleDirAt_match hchars.1 (startsNl_render hf.2.1)) (by
          intro hq
          simp only [Option.some.injEq] at hq
          omega)]
      rw [show decCount (some k) = some (k - 1) from rfl]
      rw [ih (k - 1) hf.2.2 hcnt']
      rfl
    | authorD t =>
      have hf := tItemsOk_authorD hok
      have hchars := titleArg_chars hf.1
      rw [renderT_authorD]
      rw [reSub_append_safe _ (safeM_title_authorBlock hchars.2)]
      rw [ih k hf.2.2 hcnt]
      rw [← renderT_authorD]
      rfl

theorem authorRound :
    ∀ (items : List TItem) (k : Nat), tItemsOk items = true →
      countAuthors items ≤ k →
      reSub (titleDirAt (strL ("\\author"))) (fun _ => []) (some k) (renderT items) =
        renderT (dropAuthors items) := by
  intro items
  induction items with
  | nil => intro k _ _; exact reSub_nil _ _ _
  | cons i rest ih =>
    intro k hok hcnt
    cases i with
    | seg s =>
      have hf := tItemsOk_seg hok
      show reSub _ _ _ (s ++ renderT rest) = renderT (TItem.seg s :: dropAuthors rest)
      rw [show strL ("\\author") = '\\' :: strL ("author") from rfl]
      rw [reSub_append_safe _ (safeM_titleDir_clean hf.1)]
      rw [show ('\\' :: strL ("author")) = strL ("\\author") from rfl]
      rw [ih k hf.2 hcnt]
      rfl
    | titleD t =>
      have hf := tItemsOk_titleD hok
      have hchars := titleArg_chars hf.1
      rw [renderT_titleD]
      rw [reSub_append_safe _ (safeM_author_titleBlock hchars.2)]
      rw [ih k hf.2.2 hcnt]
      rw [← renderT_titleD]
      rfl
    | authorD t =>
      have hf := tItemsOk_authorD hok
      have hchars := titleArg_chars hf.1
      have hk1 : 1 ≤ k := by
        have hc : countAuthors (TItem.authorD t :: rest) = countAuthors rest + 1 := rfl
        omega
      have hcnt' : countAuthors rest ≤ k - 1 := by
        have hc : countAuthors (TItem.authorD t :: rest) = countAuthors rest + 1 := rfl
        omega
      rw [renderT_authorD]
      rw [reSub_match_front (titleDirAt_consuming _) (authorBlock_ne_nil t)
        (titleDirAt_match hchars.1 (startsNl_render hf.2.1)) (by
          intro hq
          simp only [Option.some.injEq] at hq
          omega)]
      rw [show decCount (some k) = some (k - 1) from rfl]
      rw [ih (k - 1) hf.2.2 hcnt']
      rfl

theorem startsNl_dropTitles {rest : List TItem} (h : startsNl rest = true) :
    startsNl (dropTitles rest) = true := by
  cases rest with
  | nil => rfl
  | cons i r =>
    cases i with
    | seg s =>
      cases s with
      | nil => simp [startsNl] at h
      | cons c s' => exact h
    | titleD t => simp [startsNl] at h
    | authorD t => simp [startsNl] at h

theorem tItemsOk_dropTitles :
    ∀ {items : List TItem}, tItemsOk items = true → tItemsOk (dropTitles items) = true := by
  intro items
  induction items with
  | nil => intro _; rfl
  | cons i rest ih =>
    intro hok
    cases i with
    | seg s =>
      have hf := tItemsOk_seg hok
      show (cleanSeg s && tItemsOk (dropTitles rest)) = true
      rw [hf.1, ih hf.2]
      rfl
    | titleD t =>
      exact ih (tItemsOk_titleD hok).2.2
    | authorD t =>
      have hf := tItemsOk_authorD hok
      show (t.all (fun c => c != '\\' && c != '}' && c != '\n') &&
        startsNl (dropTitles rest) && tItemsOk (dropTitles rest)) = true
      rw [hf.1, startsNl_dropTitles hf.2.1, ih hf.2.2]
      rfl

theorem countAuthors_dropTitles :
    ∀ items : List TItem, countAuthors (dropTitles items) = countAuthors items := by
  intro items
  induction items with
  | nil => rfl
  | cons i rest ih =>
    cases i with
    | seg s =>
      show countAuthors (TItem.seg s :: dropTitles rest) = countAuthors rest
      rw [show countAuthors (TItem.seg s :: dropTitles rest) =
        countAuthors (dropTitles rest) from rfl, ih]
    | titleD t => exact ih
    | authorD t =>
      show countAuthors (TItem.authorD t :: dropTitles rest) =
        countAuthors rest + 1
      rw [show countAuthors (TItem.authorD t :: dropTitles rest) =
        countAuthors (dropTitles rest) + 1 from rfl, ih]

/-! ## C8: the title-stripping pass -/

/-- C8 (amended): the title pass removes not just the first occurrence: on a
well-formed buffer (declarations ending their lines, arguments free of
braces, newlines and backslashes, segments starting no directive) with at
most 16 title and at most 16 author declarations — the positional
`re.DOTALL` (= 16) sits in the count slot of `re.sub` — it removes ALL of
them: the result is the rendering with every title and every author
declaration deleted. -/
theorem claim8_amended {items : List TItem} (hok : tItemsOk items = true)
    (hT : countTitles items ≤ 16) (hA : countAuthors items ≤ 16) :
    strip_title_elements (renderT items) = renderT (dropAuthors (dropTitles items)) := by
  unfold strip_title_elements
  show reSub (titleDirAt (strL ("\\author"))) (fun _ => []) (some 16)
      (reSub (titleDirAt (strL ("\\title"))) (fun _ => []) (some 16) (renderT items)) =
    renderT (dropAuthors (dropTitles items))
  rw [titleRound items 16 hok hT]
  rw [authorRound (dropTitles items) 16 (tItemsOk_dropTitles hok)
    (by rw [countAuthors_dropTitles]; exact hA)]

/-- Witness for C8 (amended): a buffer with two title declarations and one
author declaration loses all three. -/
theorem claim8_witness :
    strip_title_elements (renderT
      [TItem.titleD (strL ("A")), TItem.seg (strL ("\nx")),
       TItem.titleD (strL ("B")), TItem.seg (strL ("\ny")),
       TItem.authorD (strL ("C")), TItem.seg (strL ("\nz"))]) =
    renderT (dropAuthors (dropTitles
      [TItem.titleD (strL ("A")), TItem.seg (strL ("\nx")),
       TItem.titleD (strL ("B")), TItem.seg (strL ("\ny")),
       TItem.authorD (strL ("C")), TItem.seg (strL ("\nz"))])) :=
  claim8_amended (by decide) (by decide) (by decide)

/-! ## Inline formatting: matcher computations -/

theorem braceTok_cons_ne {tok : Str} {c : Char} (h : ¬ c = '{') (s : Str) :
    braceTokAt tok (c :: s) = none := by
  simp [braceTokAt, h]

theorem startsWith_bs_brace {nm X : Str} :
    ∀ {u : Str}, (∀ c ∈ u, ¬ c = '\\') →
      startsWith ('\\' :: nm) (skipWs (u ++ '}' :: X)) = none := by
  intro u
  induction u with
  | nil =>
    intro _
    rw [List.nil_append, skipWs_nws (by decide)]
    exact startsWith_cons_ne (by decide)
  | cons c u' ih =>
    intro hu
    rw [List.cons_append]
    cases hw : isWs c with
    | true =>
      rw [skipWs_ws hw]
      exact ih (fun x hx => hu x (by simp [hx]))
    | false =>
      rw [skipWs_nws hw]
      exact startsWith_cons_ne (fun h => (hu c (by simp)) h.symm)

theorem braceTok_brace_none {nm u X : Str} (hu : ∀ c ∈ u, ¬ c = '\\') :
    braceTokAt ('\\' :: nm) ('{' :: (u ++ '}' :: X)) = none := by
  show (if ('{' : Char) = '{' then
      match startsWith ('\\' :: nm) (skipWs (u ++ '}' :: X)) with
      | some r2 => lazyTrimBraceNoNl (skipWs r2)
      | none => none
    else none) = none
  rw [if_pos rfl, startsWith_bs_brace hu]

theorem braceTok_bs_ne {nm Z : Str} {c1 c2 : Char} (h : ¬ c1 = c2) :
    braceTokAt ('\\' :: c1 :: nm) ('{' :: ('\\' :: c2 :: Z)) = none := by
  show (if ('{' : Char) = '{' then
      match startsWith ('\\' :: c1 :: nm) (skipWs ('\\' :: c2 :: Z)) with
      | some r2 => lazyTrimBraceNoNl (skipWs r2)
      | none => none
    else none) = none
  rw [if_pos rfl, skipWs_nws (by decide)]
  rw [show startsWith ('\\' :: c1 :: nm) ('\\' :: c2 :: Z) =
    (if c1 = c2 then startsWith nm Z else none) from by simp [startsWith]]
  rw [if_neg h]

theorem braceTokAt_consuming (tok : Str) : Consuming (braceTokAt tok) := by
  intro s g r h
  cases s with
  | nil => cases h
  | cons c r0 =>
    have h' : (if c = '{' then
        match startsWith tok (skipWs r0) with
        | some r2 => lazyTrimBraceNoNl (skipWs r2)
        | none => none
      else none) = some (g, r) := h
    by_cases hc : c = '{'
    · rw [if_pos hc] at h'
      cases h1 : startsWith tok (skipWs r0) with
      | none => rw [h1] at h'; cases h'
      | some r2 =>
        have h'' : lazyTrimBraceNoNl (skipWs r2) = some (g, r) := by
          rw [h1] at h'
          exact h'
        obtain ⟨u, hlz⟩ := lazyTrimBraceNoNl_split h''
        have hs1 := startsWith_split h1
        have hle1 : (tok ++ r2).length ≤ r0.length := by
          rw [← hs1]
          exact skipWs_length_le r0
        have hle2 : (g ++ u ++ '}' :: r).length ≤ r2.length := by
          rw [← hlz]
          exact skipWs_length_le r2
        simp only [List.length_cons, List.length_append] at hle1 hle2 ⊢
        omega
    · rw [if_neg hc] at h'
      cases h'

theorem fmtArgOk_chars {s : Str} (h : fmtArgOk s = true) :
    (∀ c ∈ s, ¬ c = '}' ∧ ¬ c = '\n') ∧ (∀ c ∈ s, ¬ c = '\\' ∧ ¬ c = '{') ∧
      headNonWs s = true ∧ lastNonWs s = true := by
  have h' : (s.all (fun c => c != '\\' && c != '{' && c != '}' && c != '\n') &&
      headNonWs s && lastNonWs s) = true := h
  simp only [Bool.and_eq_true] at h'
  refine ⟨?_, ?_, h'.1.2, h'.2⟩
  · intro c hc
    have hx := List.all_eq_true.mp h'.1.1 c hc
    simp only [Bool.and_eq_true, bne_iff_ne, ne_eq] at hx
    exact ⟨hx.1.2, hx.2⟩
  · intro c hc
    have hx := List.all_eq_true.mp h'.1.1 c hc
    simp only [Bool.and_eq_true, bne_iff_ne, ne_eq] at hx
    exact ⟨hx.1.1.1, hx.1.1.2⟩

theorem skipWs_fmtArg {s : Str} (h : headNonWs s = true) (X : Str) :
    skipWs (s ++ '}' :: X) = s ++ '}' :: X := by
  cases s with
  | nil => exact skipWs_nws (by decide) X
  | cons c s' =>
    have hc : isWs c = false := by
      simpa [headNonWs] using h
    rw [List.cons_append]
    exact skipWs_nws hc _

theorem braceTok_match {nm arg X : Str} (ha : fmtArgOk arg = true) :
    braceTokAt ('\\' :: nm)
      ('{' :: (('\\' :: nm) ++ ' ' :: (arg ++ '}' :: X))) = some (arg, X) := by
  obtain ⟨h1, _, h3, h4⟩ := fmtArgOk_chars ha
  show (if ('{' : Char) = '{' then
      match startsWith ('\\' :: nm) (skipWs (('\\' :: nm) ++ ' ' :: (arg ++ '}' :: X))) with
      | some r2 => lazyTrimBraceNoNl (skipWs r2)
      | none => none
    else none) = some (arg, X)
  rw [if_pos rfl]
  rw [show skipWs (('\\' :: nm) ++ ' ' :: (arg ++ '}' :: X)) =
    ('\\' :: nm) ++ ' ' :: (arg ++ '}' :: X) from by
      rw [List.cons_append]
      exact skipWs_nws (by decide) _]
  rw [startsWith_self]
  show lazyTrimBraceNoNl (skipWs (' ' :: (arg ++ '}' :: X))) = some (arg, X)
  rw [skipWs_ws (by decide), skipWs_fmtArg h3]
  exact lazyTrimBraceNoNl_append h1 h4 X

theorem hrefAt_cons_ne {c : Char} (hc : ¬ c = '\\') (s : Str) :
    hrefAt (c :: s) = none := by
  have h1 : startsWith (strL ("\\href")) (c :: s) = none := by
    rw [show strL ("\\href") = '\\' :: strL ("href") from rfl]
    exact startsWith_cons_ne (fun h => hc h.symm)
  simp [hrefAt, h1]

theorem hrefAt_bs_ne {c : Char} (hc : ¬ c = 'h') (s : Str) :
    hrefAt ('\\' :: c :: s) = none := by
  have h1 : startsWith (strL ("\\href")) ('\\' :: c :: s) = none := by
    rw [show strL ("\\href") = '\\' :: 'h' :: strL ("ref") from rfl]
    rw [show startsWith ('\\' :: 'h' :: strL ("ref")) ('\\' :: c :: s) =
      (if 'h' = c then startsWith (strL ("ref")) s else none) from by simp [startsWith]]
    rw [if_neg (fun h => hc h.symm)]
  simp [hrefAt, h1]

theorem hrefAt_match {u t : Str} (hu : ∀ c ∈ u, ¬ c = '}' ∧ ¬ c = '\n')
    (ht : ∀ c ∈ t, ¬ c = '}' ∧ ¬ c = '\n') (X : Str) :
    hrefAt ((strL ("\\href") ++ '{' :: (u ++ '}' :: '{' :: (t ++ ['}']))) ++ X) =
      some ((u, t), X) := by
  rw [show (strL ("\\href") ++ '{' :: (u ++ '}' :: '{' :: (t ++ ['}']))) ++ X =
    strL ("\\href") ++ ('{' :: (u ++ '}' :: '{' :: (t ++ '}' :: X))) from by simp]
  unfold hrefAt
  rw [startsWith_self]
  show (match skipWs ('{' :: (u ++ '}' :: '{' :: (t ++ '}' :: X))) with
    | [] => none
    | c :: r2 =>
      if c = '{' then
        match lazyBraceBrace r2 with
        | some (u0, r3) =>
          match lazyBrace r3 with
          | some (t0, rest) => some ((u0, t0), rest)
          | none => none
        | none => none
      else none) = some ((u, t), X)
  rw [skipWs_nws (by decide)]
  show (if ('{' : Char) = '{' then
      match lazyBraceBrace (u ++ '}' :: '{' :: (t ++ '}' :: X)) with
      | some (u0, r3) =>
        match lazyBrace r3 with
        | some (t0, rest) => some ((u0, t0), rest)
        | none => none
      | none => none
    else none) = some ((u, t), X)
  rw [if_pos rfl, lazyBraceBrace_append hu]
  show (match lazyBrace (t ++ '}' :: X) with
    | some (t0, rest) => some ((u, t0), rest)
    | none => none) = some ((u, t), X)
  rw [lazyBrace_append ht X]

theorem hrefAt_consuming : Consuming hrefAt := by
  intro s g r h
  unfold hrefAt at h
  cases h1 : startsWith (strL ("\\href")) s with
  | none => rw [h1] at h; cases h
  | some r1 =>
    have h' : (match skipWs r1 with
        | [] => none
        | c :: r2 =>
          if c = '{' then
            match lazyBraceBrace r2 with
            | some (u0, r3) =>
              match lazyBrace r3 with
              | some (t0, rest) => some ((u0, t0), rest)
              | none => none
            | none => none
          else none) = some (g, r) := by
      rw [h1] at h
      exact h
    cases h2 : skipWs r1 with
    | nil => rw [h2] at h'; cases h'
    | cons c r2 =>
      have h0 : (if c = '{' then
          match lazyBraceBrace r2 with
          | some (u0, r3) =>
            match lazyBrace r3 with
            | some (t0, rest) => some ((u0, t0), rest)
            | none => none
          | none => none
        else none) = some (g, r) := by
        rw [h2] at h'
        exact h'
      clear h'
      have h' := h0
      by_cases hc : c = '{'
      · rw [if_pos hc] at h'
        cases h3 : lazyBraceBrace r2 with
        | none => rw [h3] at h'; cases h'
        | some p =>
          obtain ⟨u0, r3⟩ := p
          have hA : (match lazyBrace r3 with
              | some (t0, rest) => some ((u0, t0), rest)
              | none => none) = some (g, r) := by
            rw [h3] at h'
            exact h'
          cases h4 : lazyBrace r3 with
          | none =>
            rw [h4] at hA
            cases hA
          | some q =>
            obtain ⟨t0, rest⟩ := q
            have hB : some ((u0, t0), rest) = some (g, r) := by
              rw [h4] at hA
              exact hA
            simp only [Option.some.injEq, Prod.mk.injEq] at hB
            obtain ⟨_, hr⟩ := hB
            subst hr
            have hs1 := startsWith_split h1
            have hsk : (c :: r2).length ≤ r1.length := by
              rw [← h2]
              exact skipWs_length_le r1
            have hbb := lazyBraceBrace_split h3
            have hlb := lazyBrace_split h4
            rw [hs1]
            rw [hbb] at hsk
            rw [hlb] at hsk
            simp only [List.length_cons, List.length_append] at hsk ⊢
            omega
      · rw [if_neg hc] at h'
        cases h'

theorem renderFmt_emph (s : Str) (rest : List FmtItem) :
    renderFmt (FmtItem.emph s :: rest) =
      ('{' :: (strL ("\\em ") ++ s ++ ['}'])) ++ renderFmt rest := by
  simp [renderFmt]

theorem renderFmt_bold (s : Str) (rest : List FmtItem) :
    renderFmt (FmtItem.bold s :: rest) =
      ('{' :: (strL ("\\bf ") ++ s ++ ['}'])) ++ renderFmt rest := by
  simp [renderFmt]

theorem renderFmt_link (u t : Str) (rest : List FmtItem) :
    renderFmt (FmtItem.link u t :: rest) =
      (strL ("\\href") ++ '{' :: (u ++ '}' :: '{' :: (t ++ ['}']))) ++ renderFmt rest := by
  simp [renderFmt]

theorem fmtOk_tail {i : FmtItem} {rest : List FmtItem}
    (h : fmtItemsOk (i :: rest) = true) : fmtItemsOk rest = true := by
  rw [fmtItemsOk, List.all_eq_true] at h ⊢
  intro j hj
  exact h j (by simp [hj])

theorem fmtOk_plain {s : Str} {rest : List FmtItem}
    (h : fmtItemsOk (FmtItem.plain s :: rest) = true) :
    ∀ c ∈ s, ¬ c = '\\' ∧ ¬ c = '{' := by
  rw [fmtItemsOk, List.all_eq_true] at h
  have hx := h (FmtItem.plain s) (by simp)
  intro c hc
  have hy := List.all_eq_true.mp hx c hc
  simp only [Bool.and_eq_true, bne_iff_ne, ne_eq] at hy
  exact hy

theorem fmtOk_emph {s : Str} {rest : List FmtItem}
    (h : fmtItemsOk (FmtItem.emph s :: rest) = true) : fmtArgOk s = true := by
  rw [fmtItemsOk, List.all_eq_true] at h
  exact h (FmtItem.emph s) (by simp)

theorem fmtOk_bold {s : Str} {rest : List FmtItem}
    (h : fmtItemsOk (FmtItem.bold s :: rest) = true) : fmtArgOk s = true := by
  rw [fmtItemsOk, List.all_eq_true] at h
  exact h (FmtItem.bold s) (by simp)

theorem fmtOk_link {u t : Str} {rest : List FmtItem}
    (h : fmtItemsOk (FmtItem.link u t :: rest) = true) :
    (∀ c ∈ u, ¬ c = '\\' ∧ ¬ c = '{' ∧ ¬ c = '}' ∧ ¬ c = '\n') ∧
      (∀ c ∈ t, ¬ c = '\\' ∧ ¬ c = '{' ∧ ¬ c = '}' ∧ ¬ c = '\n') := by
  rw [fmtItemsOk, List.all_eq_true] at h
  have hx := h (FmtItem.link u t) (by simp)
  have hx' : (u.all (fun c => c != '\\' && c != '{' && c != '}' && c != '\n') &&
      t.all (fun c => c != '\\' && c != '{' && c != '}' && c != '\n')) = true := hx
  obtain ⟨hu, ht⟩ := Bool.and_eq_true_iff.mp hx'
  constructor
  · intro c hc
    have hy := List.all_eq_true.mp hu c hc
    simp only [Bool.and_eq_true, bne_iff_ne, ne_eq] at hy
    exact ⟨hy.1.1.1, hy.1.1.2, hy.1.2, hy.2⟩
  · intro c hc
    have hy := List.all_eq_true.mp ht c hc
    simp only [Bool.and_eq_true, bne_iff_ne, ne_eq] at hy
    exact ⟨hy.1.1.1, hy.1.1.2, hy.1.2, hy.2⟩

theorem safeM_braceTok_plain {tok s : Str} (hs : ∀ c ∈ s, ¬ c = '{') :
    SafeM (braceTokAt tok) s :=
  safeM_of_head (fun c hc t => braceTok_cons_ne (hs c hc) t)

theorem safeM_braceTok_other {c1 : Char} {nm1 : Str} {c2 : Char} {w s : Str}
    (hne : ¬ c1 = c2) (hc2 : ¬ c2 = '{') (hw : ∀ c ∈ w, ¬ c = '{')
    (hs : ∀ c ∈ s, ¬ c = '{') :
    SafeM (braceTokAt ('\\' :: c1 :: nm1)) ('{' :: ('\\' :: c2 :: (w ++ s ++ ['}']))) := by
  apply safeM_cons
  · intro rest
    rw [show ('\\' :: c2 :: (w ++ s ++ ['}'])) ++ rest =
      '\\' :: c2 :: (w ++ s ++ '}' :: rest) from by simp]
    exact braceTok_bs_ne hne
  · apply safeM_cons
    · intro rest
      exact braceTok_cons_ne (by decide) _
    · apply safeM_of_head
      intro c hc t
      apply braceTok_cons_ne _ t
      simp only [List.mem_cons, List.mem_append, List.mem_singleton] at hc
      rcases hc with rfl | (hc | hc) | rfl | hc
      · exact hc2
      · exact hw c hc
      · exact hs c hc
      · decide
      · simp at hc

theorem safeM_braceTok_linkBlock {nm u t : Str}
    (hu : ∀ c ∈ u, ¬ c = '\\' ∧ ¬ c = '{')
    (ht : ∀ c ∈ t, ¬ c = '\\' ∧ ¬ c = '{') :
    SafeM (braceTokAt ('\\' :: nm))
      (strL ("\\href") ++ '{' :: (u ++ '}' :: '{' :: (t ++ ['}']))) := by
  rw [show strL ("\\href") ++ '{' :: (u ++ '}' :: '{' :: (t ++ ['}'])) =
    (strL ("\\href") ++ ('{' :: (u ++ ['}']))) ++ ('{' :: (t ++ ['}'])) from by simp]
  apply safeM_append
  apply safeM_append
  · apply safeM_braceTok_plain
    intro c hc
    have hlit : ∀ x ∈ strL ("\\href"), ¬ x = '{' := by decide
    exact hlit c hc
  · apply safeM_cons
    · intro rest
      rw [show (u ++ ['}']) ++ rest = u ++ '}' :: rest from by simp]
      exact braceTok_brace_none (fun c hc => (hu c hc).1)
    · apply safeM_of_head
      intro c hc x
      apply braceTok_cons_ne _ x
      simp only [List.mem_append, List.mem_singleton] at hc
      rcases hc with hc | rfl
      · exact (hu c hc).2
      · decide
  · apply safeM_cons
    · intro rest
      rw [show (t ++ ['}']) ++ rest = t ++ '}' :: rest from by simp]
      exact braceTok_brace_none (fun c hc => (ht c hc).1)
    · apply safeM_of_head
      intro c hc x
      apply braceTok_cons_ne _ x
      simp only [List.mem_append, List.mem_singleton] at hc
      rcases hc with hc | rfl
      · exact (ht c hc).2
      · decide

theorem safeM_hrefAt_clean {s : Str} (hs : ∀ c ∈ s, ¬ c = '\\') : SafeM hrefAt s :=
  safeM_of_head (fun c hc t => hrefAt_cons_ne (hs c hc) t)

theorem safeM_hrefAt_tok {c2 : Char} {w s : Str} (hc2 : ¬ c2 = 'h')
    (hc2b : ¬ c2 = '\\')
    (hw : ∀ c ∈ w, ¬ c = '\\') (hs : ∀ c ∈ s, ¬ c = '\\') :
    SafeM hrefAt ('{' :: ('\\' :: c2 :: (w ++ s ++ ['}']))) := by
  apply safeM_cons
  · intro rest
    exact hrefAt_cons_ne (by decide) _
  · apply safeM_cons
    · intro rest
      rw [show (c2 :: (w ++ s ++ ['}'])) ++ rest = c2 :: (w ++ s ++ '}' :: rest) from by
        simp]
      exact hrefAt_bs_ne hc2 _
    · apply safeM_of_head
      intro c hc t
      apply hrefAt_cons_ne _ t
      simp only [List.mem_cons, List.mem_append, List.mem_singleton] at hc
      rcases hc with rfl | (hc | hc) | rfl | hc
      · exact hc2b
      · exact hw c hc
      · exact hs c hc
      · decide
      · simp at hc

theorem emPass : ∀ items : List FmtItem, fmtItemsOk items = true →
    emSub (renderFmt items) = renderFmt (items.map emRw) := by
  have hdef : emAt = braceTokAt ('\\' :: 'e' :: strL ("m")) := rfl
  intro items
  induction items with
  | nil => intro _; rfl
  | cons i rest ih =>
    intro hok
    have ih' := ih (fmtOk_tail hok)
    unfold emSub at ih' ⊢
    rw [hdef] at ih' ⊢
    cases i with
    | plain s =>
      have hp := fmtOk_plain hok
      show reSub (braceTokAt ('\\' :: 'e' :: strL ("m"))) _ none (s ++ renderFmt rest) =
        s ++ renderFmt (rest.map emRw)
      rw [reSub_append_safe _ (safeM_braceTok_plain (fun c hc => (hp c hc).2)), ih']
    | emph s =>
      have ha := fmtOk_emph hok
      rw [renderFmt_emph]
      have hm : braceTokAt ('\\' :: 'e' :: strL ("m"))
          (('{' :: (strL ("\\em ") ++ s ++ ['}'])) ++ renderFmt rest) =
          some (s, renderFmt rest) := by
        rw [show ('{' :: (strL ("\\em ") ++ s ++ ['}'])) ++ renderFmt rest =
          '{' :: (('\\' :: 'e' :: strL ("m")) ++ ' ' :: (s ++ '}' :: renderFmt rest))
          from by
            rw [show strL ("\\em ") = ('\\' :: 'e' :: strL ("m")) ++ [' '] from rfl]
            simp]
        exact braceTok_match ha
      rw [reSub_match_front (braceTokAt_consuming _) (by simp) hm (by simp)]
      rw [show decCount none = none from rfl, ih']
      show strL ("<i>") ++ s ++ strL ("</i>") ++ renderFmt (rest.map emRw) =
        (strL ("<i>") ++ s ++ strL ("</i>")) ++ renderFmt (rest.map emRw)
      simp
    | bold s =>
      have ha := fmtOk_bold hok
      have hchars := fmtArgOk_chars ha
      rw [renderFmt_bold]
      rw [show ('{' :: (strL ("\\bf ") ++ s ++ ['}'])) =
        '{' :: ('\\' :: 'b' :: (strL ("f ") ++ s ++ ['}'])) from rfl]
      rw [reSub_append_safe _ (safeM_braceTok_other (by decide) (by decide)
        (by decide) (fun c hc => (hchars.2.1 c hc).2)), ih']
      simp [renderFmt]
      rw [show strL ("\\bf ") = '\\' :: 'b' :: strL ("f ") from rfl]
      simp
    | link u t =>
      have hl := fmtOk_link hok
      rw [renderFmt_link]
      rw [reSub_append_safe _ (safeM_braceTok_linkBlock
        (fun c hc => ⟨(hl.1 c hc).1, (hl.1 c hc).2.1⟩)
        (fun c hc => ⟨(hl.2 c hc).1, (hl.2 c hc).2.1⟩)), ih']
      simp [renderFmt]

theorem bfPass : ∀ items : List FmtItem, fmtItemsOk items = true →
    bfSub (renderFmt items) = renderFmt (items.map bfRw) := by
  have hdef : bfAt = braceTokAt ('\\' :: 'b' :: strL ("f")) := rfl
  intro items
  induction items with
  | nil => intro _; rfl
  | cons i rest ih =>
    intro hok
    have ih' := ih (fmtOk_tail hok)
    unfold bfSub at ih' ⊢
    rw [hdef] at ih' ⊢
    cases i with
    | plain s =>
      have hp := fmtOk_plain hok
      show reSub (braceTokAt ('\\' :: 'b' :: strL ("f"))) _ none (s ++ renderFmt rest) =
        s ++ renderFmt (rest.map bfRw)
      rw [reSub_append_safe _ (safeM_braceTok_plain (fun c hc => (hp c hc).2)), ih']
    | emph s =>
      have ha := fmtOk_emph hok
      have hchars := fmtArgOk_chars ha
      rw [renderFmt_emph]
      rw [show ('{' :: (strL ("\\em ") ++ s ++ ['}'])) =
        '{' :: ('\\' :: 'e' :: (strL ("m ") ++ s ++ ['}'])) from rfl]
      rw [reSub_append_safe _ (safeM_braceTok_other (by decide) (by decide)
        (by decide) (fun c hc => (hchars.2.1 c hc).2)), ih']
      simp [renderFmt]
      rw [show strL ("\\em ") = '\\' :: 'e' :: strL ("m ") from rfl]
      simp
    | bold s =>
      have ha := fmtOk_bold hok
      rw [renderFmt_bold]
      have hm : braceTokAt ('\\' :: 'b' :: strL ("f"))
          (('{' :: (strL ("\\bf ") ++ s ++ ['}'])) ++ renderFmt rest) =
          some (s, renderFmt rest) := by
        rw [show ('{' :: (strL ("\\bf ") ++ s ++ ['}'])) ++ renderFmt rest =
          '{' :: (('\\' :: 'b' :: strL ("f")) ++ ' ' :: (s ++ '}' :: renderFmt rest))
          from by
            rw [show strL ("\\bf ") = ('\\' :: 'b' :: strL ("f")) ++ [' '] from rfl]
            simp]
        exact braceTok_match ha
      rw [reSub_match_front (braceTokAt_consuming _) (by simp) hm (by simp)]
      rw [show decCount none = none from rfl, ih']
      show strL ("<strong>") ++ s ++ strL ("</strong>") ++ renderFmt (rest.map bfRw) =
        (strL ("<strong>") ++ s ++ strL ("</strong>")) ++ renderFmt (rest.map bfRw)
      simp
    | link u t =>
      have hl := fmtOk_link hok
      rw [renderFmt_link]
      rw [reSub_append_safe _ (safeM_braceTok_linkBlock
        (fun c hc => ⟨(hl.1 c hc).1, (hl.1 c hc).2.1⟩)
        (fun c hc => ⟨(hl.2 c hc).1, (hl.2 c hc).2.1⟩)), ih']
      simp [renderFmt]

theorem hrefPass : ∀ items : List FmtItem, fmtItemsOk items = true →
    hrefSub (renderFmt items) = renderFmt (items.map hrefRw) := by
  intro items
  induction items with
  | nil => intro _; rfl
  | cons i rest ih =>
    intro hok
    have ih' := ih (fmtOk_tail hok)
    unfold hrefSub at ih' ⊢
    cases i with
    | plain s =>
      have hp := fmtOk_plain hok
      show reSub hrefAt _ none (s ++ renderFmt rest) =
        s ++ renderFmt (rest.map hrefRw)
      rw [reSub_append_safe _ (safeM_hrefAt_clean (fun c hc => (hp c hc).1)), ih']
    | emph s =>
      have ha := fmtOk_emph hok
      have hchars := fmtArgOk_chars ha
      rw [renderFmt_emph]
      rw [show ('{' :: (strL ("\\em ") ++ s ++ ['}'])) =
        '{' :: ('\\' :: 'e' :: (strL ("m ") ++ s ++ ['}'])) from rfl]
      rw [reSub_append_safe _ (safeM_hrefAt_tok (by decide) (by decide)
        (by decide) (fun c hc => (hchars.2.1 c hc).1)), ih']
      simp [renderFmt]
      rw [show strL ("\\em ") = '\\' :: 'e' :: strL ("m ") from rfl]
      simp
    | bold s =>
      have ha := fmtOk_bold hok
      have hchars := fmtArgOk_chars ha
      rw [renderFmt_bold]
      rw [show ('{' :: (strL ("\\bf ") ++ s ++ ['}'])) =
        '{' :: ('\\' :: 'b' :: (strL ("f ") ++ s ++ ['}'])) from rfl]
      rw [reSub_append_safe _ (safeM_hrefAt_tok (by decide) (by decide)
        (by decide) (fun c hc => (hchars.2.1 c hc).1)), ih']
      simp [renderFmt]
      rw [show strL ("\\bf ") = '\\' :: 'b' :: strL ("f ") from rfl]
      simp
    | link u t =>
      have hl := fmtOk_link hok
      rw [renderFmt_link]
      have hm : hrefAt ((strL ("\\href") ++ '{' :: (u ++ '}' :: '{' :: (t ++ ['}']))) ++
          renderFmt rest) = some ((u, t), renderFmt rest) :=
        hrefAt_match (fun c hc => ⟨(hl.1 c hc).2.2.1, (hl.1 c hc).2.2.2⟩)
          (fun c hc => ⟨(hl.2 c hc).2.2.1, (hl.2 c hc).2.2.2⟩) _
      rw [reSub_match_front hrefAt_consuming (by simp) hm (by simp)]
      rw [show decCount none = none from rfl, ih']
      show strL ("<a href=\"") ++ u ++ strL ("\">") ++ t ++ strL ("</a>") ++
          renderFmt (rest.map hrefRw) =
        (strL ("<a href=\"") ++ u ++ strL ("\">") ++ t ++ strL ("</a>")) ++
          renderFmt (rest.map hrefRw)
      simp

theorem fmtOk_map_emRw :
    ∀ {items : List FmtItem}, fmtItemsOk items = true →
      fmtItemsOk (items.map emRw) = true := by
  intro items
  induction items with
  | nil => intro _; rfl
  | cons i rest ih =>
    intro hok
    have ih' := ih (fmtOk_tail hok)
    rw [fmtItemsOk, List.all_eq_true]
    intro j hj
    rw [List.map_cons, List.mem_cons] at hj
    rcases hj with rfl | hj
    · cases i with
      | plain s =>
        have hp := fmtOk_plain hok
        show (s.all (fun c => c != '\\' && c != '{')) = true
        rw [List.all_eq_true]
        intro c hc
        simp only [bne_iff_ne, ne_eq, Bool.and_eq_true]
        exact ⟨(hp c hc).1, (hp c hc).2⟩
      | emph s =>
        have ha := fmtArgOk_chars (fmtOk_emph hok)
        show ((strL ("<i>") ++ s ++ strL ("</i>")).all
          (fun c => c != '\\' && c != '{')) = true
        rw [List.all_eq_true]
        intro c hc
        simp only [List.mem_append] at hc
        simp only [bne_iff_ne, ne_eq, Bool.and_eq_true]
        rcases hc with (hc | hc) | hc
        · have hlit : ∀ x ∈ strL ("<i>"), ¬ x = '\\' ∧ ¬ x = '{' := by decide
          exact hlit c hc
        · exact (ha.2.1 c hc)
        · have hlit : ∀ x ∈ strL ("</i>"), ¬ x = '\\' ∧ ¬ x = '{' := by decide
          exact hlit c hc
      | bold s => exact fmtOk_bold hok
      | link u t =>
        have hl := fmtOk_link hok
        show (u.all (fun c => c != '\\' && c != '{' && c != '}' && c != '\n') &&
          t.all (fun c => c != '\\' && c != '{' && c != '}' && c != '\n')) = true
        rw [Bool.and_eq_true_iff, List.all_eq_true, List.all_eq_true]
        constructor
        · intro c hc
          have := hl.1 c hc
          simp only [bne_iff_ne, ne_eq, Bool.and_eq_true]
          exact ⟨⟨⟨this.1, this.2.1⟩, this.2.2.1⟩, this.2.2.2⟩
        · intro c hc
          have := hl.2 c hc
          simp only [bne_iff_ne, ne_eq, Bool.and_eq_true]
          exact ⟨⟨⟨this.1, this.2.1⟩, this.2.2.1⟩, this.2.2.2⟩
    · rw [fmtItemsOk, List.all_eq_true] at ih'
      exact ih' j hj

theorem fmtOk_map_bfRw :
    ∀ {items : List FmtItem}, fmtItemsOk items = true →
      fmtItemsOk (items.map bfRw) = true := by
  intro items
  induction items with
  | nil => intro _; rfl
  | cons i rest ih =>
    intro hok
    have ih' := ih (fmtOk_tail hok)
    rw [fmtItemsOk, List.all_eq_true]
    intro j hj
    rw [List.map_cons, List.mem_cons] at hj
    rcases hj with rfl | hj
    · cases i with
      | plain s =>
        have hp := fmtOk_plain hok
        show (s.all (fun c => c != '\\' && c != '{')) = true
        rw [List.all_eq_true]
        intro c hc
        simp only [bne_iff_ne, ne_eq, Bool.and_eq_true]
        exact ⟨(hp c hc).1, (hp c hc).2⟩
      | emph s => exact fmtOk_emph hok
      | bold s =>
        have ha := fmtArgOk_chars (fmtOk_bold hok)
        show ((strL ("<strong>") ++ s ++ strL ("</strong>")).all
          (fun c => c != '\\' && c != '{')) = true
        rw [List.all_eq_true]
        intro c hc
        simp only [List.mem_append] at hc
        simp only [bne_iff_ne, ne_eq, Bool.and_eq_true]
        rcases hc with (hc | hc) | hc
        · have hlit : ∀ x ∈ strL ("<strong>"), ¬ x = '\\' ∧ ¬ x = '{' := by decide
          exact hlit c hc
        · exact (ha.2.1 c hc)
        · have hlit : ∀ x ∈ strL ("</strong>"), ¬ x = '\\' ∧ ¬ x = '{' := by decide
          exact hlit c hc
      | link u t =>
        have hl := fmtOk_link hok
        show (u.all (fun c => c != '\\' && c != '{' && c != '}' && c != '\n') &&
          t.all (fun c => c != '\\' && c != '{' && c != '}' && c != '\n')) = true
        rw [Bool.and_eq_true_iff, List.all_eq_true, List.all_eq_true]
        constructor
        · intro c hc
          have := hl.1 c hc
          simp only [bne_iff_ne, ne_eq, Bool.and_eq_true]
          exact ⟨⟨⟨this.1, this.2.1⟩, this.2.2.1⟩, this.2.2.2⟩
        · intro c hc
          have := hl.2 c hc
          simp only [bne_iff_ne, ne_eq, Bool.and_eq_true]
          exact ⟨⟨⟨this.1, this.2.1⟩, this.2.2.1⟩, this.2.2.2⟩
    · rw [fmtItemsOk, List.all_eq_true] at ih'
      exact ih' j hj

theorem fmtOk_map_hrefRw :
    ∀ {items : List FmtItem}, fmtItemsOk items = true →
      fmtItemsOk (items.map hrefRw) = true := by
  intro items
  induction items with
  | nil => intro _; rfl
  | cons i rest ih =>
    intro hok
    have ih' := ih (fmtOk_tail hok)
    rw [fmtItemsOk, List.all_eq_true]
    intro j hj
    rw [List.map_cons, List.mem_cons] at hj
    rcases hj with rfl | hj
    · cases i with
      | plain s =>
        have hp := fmtOk_plain hok
        show (s.all (fun c => c != '\\' && c != '{')) = true
        rw [List.all_eq_true]
        intro c hc
        simp only [bne_iff_ne, ne_eq, Bool.and_eq_true]
        exact ⟨(hp c hc).1, (hp c hc).2⟩
      | emph s => exact fmtOk_emph hok
      | bold s => exact fmtOk_bold hok
      | link u t =>
        have hl := fmtOk_link hok
        show ((strL ("<a href=\"") ++ u ++ strL ("\">") ++ t ++ strL ("</a>")).all
          (fun c => c != '\\' && c != '{')) = true
        rw [List.all_eq_true]
        intro c hc
        simp only [List.mem_append] at hc
        simp only [bne_iff_ne, ne_eq, Bool.and_eq_true]
        rcases hc with (((hc | hc) | hc) | hc) | hc
        · have hlit : ∀ x ∈ strL ("<a href=\""), ¬ x = '\\' ∧ ¬ x = '{' := by decide
          exact hlit c hc
        · exact ⟨(hl.1 c hc).1, (hl.1 c hc).2.1⟩
        · have hlit : ∀ x ∈ strL ("\">"), ¬ x = '\\' ∧ ¬ x = '{' := by decide
          exact hlit c hc
        · exact ⟨(hl.2 c hc).1, (hl.2 c hc).2.1⟩
        · have hlit : ∀ x ∈ strL ("</a>"), ¬ x = '\\' ∧ ¬ x = '{' := by decide
          exact hlit c hc
    · rw [fmtItemsOk, List.all_eq_true] at ih'
      exact ih' j hj

theorem map_ext_fmt {f g : FmtItem → FmtItem} (h : ∀ i, f i = g i) :
    ∀ l : List FmtItem, l.map f = l.map g := by
  intro l
  induction l with
  | nil => rfl
  | cons i r ih => simp [h i, ih]

/-! ## C9 (amended): order-insensitivity on disjoint directives -/

/-- C9 (amended): on buffers in which the three directives occur disjointly
(each emphasis/bold/hyperlink directive stands on its own, no directive
inside another's argument), the three formatting rewrites commute: all six
application orders produce the same final buffer, the rendering in which
every directive has been rewritten to its HTML form.  (On nested directives
the orders disagree — see the counterexample.) -/
theorem claim9_amended {items : List FmtItem} (hok : fmtItemsOk items = true) :
    hrefSub (bfSub (emSub (renderFmt items))) =
      renderFmt (items.map (fun i => hrefRw (bfRw (emRw i)))) ∧
    hrefSub (emSub (bfSub (renderFmt items))) =
      renderFmt (items.map (fun i => hrefRw (bfRw (emRw i)))) ∧
    bfSub (hrefSub (emSub (renderFmt items))) =
      renderFmt (items.map (fun i => hrefRw (bfRw (emRw i)))) ∧
    bfSub (emSub (hrefSub (renderFmt items))) =
      renderFmt (items.map (fun i => hrefRw (bfRw (emRw i)))) ∧
    emSub (hrefSub (bfSub (renderFmt items))) =
      renderFmt (items.map (fun i => hrefRw (bfRw (emRw i)))) ∧
    emSub (bfSub (hrefSub (renderFmt items))) =
      renderFmt (items.map (fun i => hrefRw (bfRw (emRw i)))) := by
  refine ⟨?_, ?_, ?_, ?_, ?_, ?_⟩
  · rw [emPass items hok, bfPass _ (fmtOk_map_emRw hok),
      hrefPass _ (fmtOk_map_bfRw (fmtOk_map_emRw hok)), List.map_map, List.map_map]
    exact congrArg renderFmt (map_ext_fmt (fun i => by cases i <;> rfl) items)
  · rw [bfPass items hok, emPass _ (fmtOk_map_bfRw hok),
      hrefPass _ (fmtOk_map_emRw (fmtOk_map_bfRw hok)), List.map_map, List.map_map]
    exact congrArg renderFmt (map_ext_fmt (fun i => by cases i <;> rfl) items)
  · rw [emPass items hok, hrefPass _ (fmtOk_map_emRw hok),
      bfPass _ (fmtOk_map_hrefRw (fmtOk_map_emRw hok)), List.map_map, List.map_map]
    exact congrArg renderFmt (map_ext_fmt (fun i => by cases i <;> rfl) items)
  · rw [hrefPass items hok, emPass _ (fmtOk_map_hrefRw hok),
      bfPass _ (fmtOk_map_emRw (fmtOk_map_hrefRw hok)), List.map_map, List.map_map]
    exact congrArg renderFmt (map_ext_fmt (fun i => by cases i <;> rfl) items)
  · rw [bfPass items hok, hrefPass _ (fmtOk_map_bfRw hok),
      emPass _ (fmtOk_map_hrefRw (fmtOk_map_bfRw hok)), List.map_map, List.map_map]
    exact congrArg renderFmt (map_ext_fmt (fun i => by cases i <;> rfl) items)
  · rw [hrefPass items hok, bfPass _ (fmtOk_map_hrefRw hok),
      emPass _ (fmtOk_map_bfRw (fmtOk_map_hrefRw hok)), List.map_map, List.map_map]
    exact congrArg renderFmt (map_ext_fmt (fun i => by cases i <;> rfl) items)

/-- Witness for C9 (amended) at a concrete buffer holding one directive of
each kind, separated by plain text. -/
theorem claim9_witness :
    hrefSub (bfSub (emSub (renderFmt
      [FmtItem.emph (strL ("a")), FmtItem.plain (strL (" and ")),
       FmtItem.bold (strL ("b")), FmtItem.plain (strL (" see ")),
       FmtItem.link (strL ("u")) (strL ("t"))]))) =
    renderFmt ([FmtItem.emph (strL ("a")), FmtItem.plain (strL (" and ")),
       FmtItem.bold (strL ("b")), FmtItem.plain (strL (" see ")),
       FmtItem.link (strL ("u")) (strL ("t"))].map
      (fun i => hrefRw (bfRw (emRw i)))) ∧
    emSub (bfSub (hrefSub (renderFmt
      [FmtItem.emph (strL ("a")), FmtItem.plain (strL (" and ")),
       FmtItem.bold (strL ("b")), FmtItem.plain (strL (" see ")),
       FmtItem.link (strL ("u")) (strL ("t"))]))) =
    renderFmt ([FmtItem.emph (strL ("a")), FmtItem.plain (strL (" and ")),
       FmtItem.bold (strL ("b")), FmtItem.plain (strL (" see ")),
       FmtItem.link (strL ("u")) (strL ("t"))].map
      (fun i => hrefRw (bfRw (emRw i)))) :=
  ⟨(claim9_amended (by decide)).1, (claim9_amended (by decide)).2.2.2.2.2⟩
